import Mathlib

/-!
# Transmission: tracker announce list, path sanitizer, metainfo parser and magnet link

A shallow embedding of `libtransmission/announce-list.cc` and of
`libtransmission/torrent-metainfo.cc` (the parser, the path sanitizer and the magnet link),
followed by theorems about them.

Conventions of the embedding:

* a `std::string` / `std::string_view` is the list of its `char` values (`Str`); a `char` is
  a Lean `Char` identified with its code, so "a byte below 0x20" is `c.toNat < 0x20`;
* a member function that mutates its object takes the object and returns the new one next to
  its C++ return value;
* functions of the code base that are declared outside the translated files (the URL parser,
  the comparison of two tracker records, ...) are parameters of the operations that call them.
-/

namespace Transmission

/-! ## Strings -/

/-- The contents of a `std::string` or `std::string_view`. -/
abbrev Str := List Char

/-- The terminating character of a C string. -/
def NUL : Char := Char.ofNat 0

/-- The C++ `std::string_view::rfind(char)`: the search runs from the last character towards the
first; `rfindAux s c n` examines the indices below `n`. `none` stands for `npos`. -/
def sv_rfindAux (s : Str) (c : Char) : Nat → Option Nat
  | 0 => none
  | i + 1 => if s[i]? = some c then some i else sv_rfindAux s c i

/-- The C++ `std::string_view::rfind(char)`. -/
def sv_rfind (s : Str) (c : Char) : Option Nat :=
  sv_rfindAux s c s.length

/-- The search loop of `std::string_view::find(v, pos)`: candidate start `i`, `fuel`
candidates left. -/
def sv_findAux (s v : Str) : Nat → Nat → Option Nat
  | 0, _ => none
  | fuel + 1, i => if v.isPrefixOf (s.drop i) then some i else sv_findAux s v fuel (i + 1)

/-- The C++ `std::string_view::find(v, pos)`: the first index `i ≥ pos` at which `v` occurs in
`s`, `none` (for `npos`) when there is none. -/
def sv_find (s v : Str) (pos : Nat) : Option Nat :=
  if s.length < pos then none else sv_findAux s v (s.length + 1 - pos) pos

/-- The C++ `tr_strvStartsWith(sv, key)`. -/
def tr_strvStartsWith (sv key : Str) : Bool :=
  key.isPrefixOf sv

/-! ## announce-list.cc -/

/-- The C++ `tr_url_parsed_t`: the components of a parsed URL; `full` is the whole URL. -/
structure tr_url_parsed_t where
  scheme : Str
  host : Str
  path : Str
  portstr : Str
  port : Nat
  full : Str
deriving DecidableEq

/-- The C++ `tr_announce_list::tracker_info`. `scrape` is `none` when no scrape URL was derived (or
when the derived string is not a tracker URL, where the C++ dereferences an empty optional).
The types of `tier` and `id` are declared outside the translated files; the specification
describes the id as "process-unique, monotonically assigned, never reused", so the id is an
unbounded natural here. A tier is a natural; where the code computes one (`nextTier`), the
number of bits of the tier type is a parameter. -/
structure tracker_info where
  announce_str : Str
  announce : tr_url_parsed_t
  scrape_str : Str
  scrape : Option tr_url_parsed_t
  host : Str
  tier : Nat
  id : Nat
deriving DecidableEq

/-- Modelled from the spec: `tracker_info::operator<`, declared in `announce-list.h`, which is
not among the translated sources. The specification gives the ordering key of the list as
"(tier ascending, then insertion order within equal tier)"; the insertion order of two records
is the order of their monotonically assigned ids. -/
def tracker_info.lt (a b : tracker_info) : Bool :=
  decide (a.tier < b.tier) || (a.tier == b.tier && decide (a.id < b.id))

/-- A `tr_announce_list` together with the function-local `static tr_tracker_id_t id` of
`nextUniqueId`, which is threaded through the operations explicitly. -/
structure tr_announce_list where
  trackers_ : List tracker_info
  id : Nat
deriving DecidableEq

/-- The literal `oldval` of `announceToScrape`. -/
def oldval : Str := "/announce".toList

/-- The C++ `tr_announce_list::announceToScrape(std::string_view)`. -/
def announceToScrape (announce : Str) : Option Str :=
  let hit : Option Nat :=
    match sv_rfind announce (oldval.headD NUL) with
    | some pos => if sv_find announce oldval pos = some pos then some pos else none
    | none => none
  match hit with
  | some pos =>
    let head := announce.take pos
    let suffix := announce.drop (pos + oldval.length)
    some (head ++ "/scrape".toList ++ suffix)
  | none =>
    -- some torrents with UDP announce URLs don't have /announce
    if tr_strvStartsWith announce "udp:".toList then some announce else none

/-- The C++ `std::lower_bound(first, last, value)` with the comparison `lt`: the index of the first
element `e` for which `lt e value` is false (the length when there is none). This is the
result the C++ standard defines, for ranges partitioned with respect to `lt · value`. -/
def lower_bound {α : Type} (lt : α → α → Bool) (xs : List α) (value : α) : Nat :=
  xs.findIdx (fun e => !lt e value)

/-- The C++ `std::vector::insert(begin + k, x)`. -/
def vector_insert {α : Type} (xs : List α) (k : Nat) (x : α) : List α :=
  xs.take k ++ x :: xs.drop k

section AnnounceList

variable (parse : Str → Option tr_url_parsed_t)
variable (lt : tracker_info → tracker_info → Bool)

/-- The lambda `is_same` of `canAdd`. -/
def is_same (announce : tr_url_parsed_t) (tracker : tracker_info) : Bool :=
  tracker.announce.scheme == announce.scheme && tracker.announce.host == announce.host &&
    tracker.announce.port == announce.port && tracker.announce.path == announce.path

/-- The C++ `tr_announce_list::canAdd`. -/
def canAdd (s : tr_announce_list) (announce : tr_url_parsed_t) : Bool :=
  s.trackers_.all (fun tracker => !is_same announce tracker)

/-- The lambda `is_sibling` of `getTier`. -/
def is_sibling (announce : tr_url_parsed_t) (tracker : tracker_info) : Bool :=
  tracker.announce.host == announce.host && tracker.announce.path == announce.path

/-- The C++ `tr_announce_list::getTier`. -/
def getTier (s : tr_announce_list) (tier : Nat) (announce : tr_url_parsed_t) : Nat :=
  match s.trackers_.find? (is_sibling announce) with
  | some tracker => tracker.tier
  | none => tier

/-- The C++ `tr_announce_list::find(tr_tracker_id_t)`: the iterator as an index; the end iterator is
the length of the list. -/
def find_id (s : tr_announce_list) (id : Nat) : Nat :=
  s.trackers_.findIdx (fun tracker => tracker.id == id)

/-- The C++ `tr_announce_list::find(std::string_view)`. -/
def find_url (s : tr_announce_list) (announce : Str) : Nat :=
  s.trackers_.findIdx (fun tracker => announce == tracker.announce.full)

/-- The record that `add` fills in before inserting it: `tracker.announce_str`,
`tracker.announce`, `tracker.tier`, `tracker.id`, `tracker.host`, and the scrape fields when
`announceToScrape` derives a scrape URL. The second parse, of `tracker.announce_str`, parses
the same characters as the first and so yields `announce` again. -/
def new_tracker (s : tr_announce_list) (tier : Nat) (announce_url_sv : Str)
    (announce : tr_url_parsed_t) : tracker_info :=
  let scrape_str := announceToScrape announce_url_sv
  { announce_str := announce_url_sv
    announce := announce
    tier := getTier s tier announce
    id := s.id
    host := announce.host ++ [':'] ++ announce.portstr
    scrape_str := scrape_str.getD []
    scrape := scrape_str.bind parse }

/-- The C++ `tr_announce_list::add`. `parse` is `tr_urlParseTracker`, `lt` is
`tracker_info::operator<`; `nextUniqueId` returns the counter and increments it. -/
def add (s : tr_announce_list) (tier : Nat) (announce_url_sv : Str) :
    Bool × tr_announce_list :=
  match parse announce_url_sv with
  | none => (false, s)
  | some announce =>
    if !canAdd s announce then (false, s)
    else
      let tracker := new_tracker parse s tier announce_url_sv announce
      let it := lower_bound lt s.trackers_ tracker
      (true, { trackers_ := vector_insert s.trackers_ it tracker, id := s.id + 1 })

/-- The C++ `tr_announce_list::set`; the two parallel arrays of length `n` are given as the list of
the pairs `(tiers[i], announce_urls[i])`. -/
def set (s : tr_announce_list) (entries : List (Nat × Str)) : Nat × tr_announce_list :=
  let r := entries.foldl (fun acc e => (add parse lt acc e.1 e.2).2) { s with trackers_ := [] }
  (r.trackers_.length, r)

/-- The C++ `tr_announce_list::remove(std::string_view)`. -/
def remove_url (s : tr_announce_list) (announce_url : Str) : Bool × tr_announce_list :=
  let it := find_url s announce_url
  if it = s.trackers_.length then (false, s)
  else (true, { s with trackers_ := s.trackers_.eraseIdx it })

/-- The C++ `tr_announce_list::remove(tr_tracker_id_t)`. -/
def remove_id (s : tr_announce_list) (id : Nat) : Bool × tr_announce_list :=
  let it := find_id s id
  if it = s.trackers_.length then (false, s)
  else (true, { s with trackers_ := s.trackers_.eraseIdx it })

/-- The C++ `tr_announce_list::replace`. -/
def replace (s : tr_announce_list) (id : Nat) (announce_url_sv : Str) :
    Bool × tr_announce_list :=
  match parse announce_url_sv with
  | none => (false, s)
  | some announce =>
    if !canAdd s announce then (false, s)
    else
      let it := find_id s id
      if h : it < s.trackers_.length then
        let tier := (s.trackers_.get ⟨it, h⟩).tier
        add parse lt { s with trackers_ := s.trackers_.eraseIdx it } tier announce_url_sv
      else (false, s)

/-- The announce lists a program can build: starting from an empty list (the id counter may
have any value, other lists share it), by calls of `add`, `set`, `remove` and `replace`; the
counter may also advance between two calls, when another list takes an id. -/
inductive Reachable : tr_announce_list → Prop
  | empty (n : Nat) : Reachable ⟨[], n⟩
  | other_id (s : tr_announce_list) : Reachable s → Reachable { s with id := s.id + 1 }
  | add (s : tr_announce_list) (tier : Nat) (url : Str) :
      Reachable s → Reachable (add parse lt s tier url).2
  | set (s : tr_announce_list) (entries : List (Nat × Str)) :
      Reachable s → Reachable (set parse lt s entries).2
  | remove_url (s : tr_announce_list) (url : Str) :
      Reachable s → Reachable (remove_url s url).2
  | remove_id (s : tr_announce_list) (id : Nat) :
      Reachable s → Reachable (remove_id s id).2
  | replace (s : tr_announce_list) (id : Nat) (url : Str) :
      Reachable s → Reachable (replace parse lt s id url).2

end AnnounceList

/-! ## Scrape derivation: the second implementation and the reference definition -/

/-- The C++ `tr_new_magnet_metainfo::convertAnnounceToScrape(out, in)`: the returned flag and the
buffer afterwards. `buildBuf` is `tr_buildBuf` (declared in `utils.h`): given the buffer and
the pieces to join, the buffer it leaves. -/
def convertAnnounceToScrape (buildBuf : Str → List Str → Str) (out in_ : Str) : Bool × Str :=
  let hit : Option Nat :=
    match sv_rfind in_ (oldval.headD NUL) with
    | some pos => if sv_find in_ oldval pos = some pos then some pos else none
    | none => none
  match hit with
  | some pos =>
    let head := in_.take pos
    let suffix := in_.drop (pos + oldval.length)
    (true, buildBuf out [head, "/scrape".toList, suffix])
  | none =>
    -- some torrents with UDP announce URLs don't have /announce
    if tr_strvStartsWith in_ "udp:".toList then (true, in_) else (false, out)

/-- The index of the last occurrence of `c` in `s`, if `c` occurs at all. -/
def lastIndexOf (c : Char) : Str → Option Nat
  | [] => none
  | x :: xs =>
    match lastIndexOf c xs with
    | some i => some (i + 1)
    | none => if x = c then some 0 else none

/-- The scrape derivation as the specification words it: with `p` the index of the last
`/`, if the text right after it begins with `announce` the result is the text before `p`,
then `/scrape`, then everything after the word `announce`; otherwise a string starting with
`udp:` is its own scrape URL; otherwise there is none. -/
def scrapeReference (a : Str) : Option Str :=
  let viaAnnounce : Option Str :=
    match lastIndexOf '/' a with
    | some p =>
      if "announce".toList.isPrefixOf (a.drop (p + 1)) then
        some (a.take p ++ "/scrape".toList ++ (a.drop (p + 1)).drop "announce".length)
      else none
    | none => none
  match viaAnnounce with
  | some r => some r
  | none => if "udp:".toList.isPrefixOf a then some a else none

/-! ## torrent-metainfo.cc: the path sanitizer -/

/-- The function `isspace` of the C library, in the "C" locale: space, `\t`, `\n`, `\v`,
`\f`, `\r`. -/
def isspace (ch : Char) : Bool :=
  ch == ' ' || (decide (9 ≤ ch.toNat) && decide (ch.toNat ≤ 13))

/-- The lambda `leading_test` of `appendSanitizedComponent`. -/
def leading_test (ch : Char) : Bool :=
  isspace ch

/-- The lambda `trailing_test` of `appendSanitizedComponent`. -/
def trailing_test (ch : Char) : Bool :=
  isspace ch || ch == '.'

/-- The C++ `std::find_if_not(first, last, p)` as the distance from `first`. -/
def find_if_not (p : Char → Bool) (s : Str) : Nat :=
  s.findIdx (fun ch => !p ch)

/-- The constant `Banned` of the lambda `ensure_legal_char`. -/
def Banned : Str := "<>:\"/\\|?*".toList

/-- The lambda `ensure_legal_char` of `appendSanitizedComponent`. -/
def ensure_legal_char (ch : Char) : Char :=
  let banned := Banned.contains ch || decide (ch.toNat < 0x20)
  if banned then '_' else ch

/-- The array `ReservedNames` of `appendSanitizedComponent`. -/
def ReservedNames : List Str :=
  ["CON", "PRN", "AUX", "NUL", "COM1", "COM2", "COM3", "COM4", "COM5", "COM6", "COM7",
    "COM8", "COM9", "LPT1", "LPT2", "LPT3", "LPT4", "LPT5", "LPT6", "LPT7", "LPT8",
    "LPT9"].map String.toList

/-- The macro `EVUTIL_TOLOWER_` of libevent: the letters `A`-`Z` go to `a`-`z`, every other
character to itself. -/
def EVUTIL_TOLOWER_ (c : Char) : Char :=
  if 'A'.toNat ≤ c.toNat ∧ c.toNat ≤ 'Z'.toNat then Char.ofNat (c.toNat + 32) else c

/-- The function `evutil_ascii_strncasecmp(s1, s2, n)` of libevent. A C string is given by the
characters before its terminator, so reading at or past the end yields `NUL`. -/
def evutil_ascii_strncasecmp (s1 s2 : Str) : Nat → Int
  | 0 => 0
  | n + 1 =>
    let c1 := EVUTIL_TOLOWER_ (s1.headD NUL)
    let c2 := EVUTIL_TOLOWER_ (s2.headD NUL)
    if c1 < c2 then -1
    else if c1 > c2 then 1
    else if c1 = NUL then 0
    else evutil_ascii_strncasecmp s1.tail s2.tail n

/-- The C string that starts at the first character of `s`: the characters before the first
`NUL` (`out.c_str() + k` is `c_str (out.drop k)`). -/
def c_str (s : Str) : Str :=
  s.takeWhile (fun ch => ch != NUL)

/-- The loop over `ReservedNames` in `appendSanitizedComponent`: the first name that the
component (which starts at `old_out_len`) begins with, followed by the end of the string or
a `.`, gets a `_` inserted after it, and the loop ends. `out[k]` at `k = size` is `NUL`. -/
def munge_reserved (out : Str) (old_out_len : Nat) : List Str → Str
  | [] => out
  | name :: rest =>
    let name_len := name.length
    if evutil_ascii_strncasecmp (c_str (out.drop old_out_len)) name name_len ≠ 0 ∨
        (out.getD (old_out_len + name_len) NUL ≠ NUL ∧
          out.getD (old_out_len + name_len) NUL ≠ '.') then
      munge_reserved out old_out_len rest
    else vector_insert out (old_out_len + name_len) '_'

/-- What `appendSanitizedComponent` leaves behind: the buffer `out`, `*setme_is_adjusted`
and the returned flag. -/
structure sanitized_t where
  out : Str
  is_adjusted : Bool
  ret : Bool
deriving DecidableEq

/-- The C++ `appendSanitizedComponent(out, in, setme_is_adjusted)`. -/
def appendSanitizedComponent (out in_ : Str) : sanitized_t :=
  let original_out_len := out.length
  let original_in := in_
  -- remove leading spaces
  let it := find_if_not leading_test in_
  let in1 := in_.drop it
  -- remove trailing spaces and '.'
  let rit := find_if_not trailing_test in1.reverse
  let in2 := in1.take (in1.length - rit)
  -- munge banned characters
  let old_out_len := out.length
  let out1 := out ++ in2.map ensure_legal_char
  -- munge banned filenames
  let out2 := munge_reserved out1 old_out_len ReservedNames
  { out := out2
    is_adjusted := original_in != c_str (out2.drop original_out_len)
    ret := decide (out2.length > original_out_len) }

/-- The trimmed-and-replaced form of a component as the specification words it: leading
whitespace removed, then trailing whitespace and trailing `.` removed, then each of
`< > : " / \ | ? *` and each character below 0x20 replaced by `_`. -/
def sanitizedForm (c : Str) : Str :=
  (((c.dropWhile isspace).rdropWhile (fun ch => isspace ch || ch == '.'))).map
    (fun ch => if ch ∈ ['<', '>', ':', '"', '/', '\\', '|', '?', '*'] ∨ ch.toNat < 0x20
      then '_' else ch)

/-- The reserved-name rule of the specification for one name: the form begins, compared
case-insensitively, with `name`, immediately followed by the end of the component or `.`. -/
def beginsWithReserved (form name : Str) : Prop :=
  (form.take name.length).map Char.toUpper = name ∧
    (form.length = name.length ∨ form[name.length]? = some '.')

instance (form name : Str) : Decidable (beginsWithReserved form name) := by
  unfold beginsWithReserved; infer_instance

/-! ## torrent-metainfo.cc: the parser -/

/-- The C++ `int64_t`: an integer in the range of a signed 64-bit integer. -/
structure int64_t where
  val : Int
  range : -2 ^ 63 ≤ val ∧ val < 2 ^ 63

/-- The C++ `tr_variant`: the decoded tree of a bencoded input. -/
inductive tr_variant where
  | int (i : int64_t)
  | str (s : Str)
  | list (l : List tr_variant)
  | dict (d : List (Str × tr_variant))

/-- The C++ `tr_variantDictFind(dict, key)`: the child stored under `key`. -/
def tr_variantDictFind (v : tr_variant) (key : Str) : Option tr_variant :=
  match v with
  | .dict d => (d.find? (fun kv => kv.1 == key)).map (fun kv => kv.2)
  | _ => none

/-- The C++ `tr_variantDictFindInt(dict, key, &setme)`. -/
def tr_variantDictFindInt (v : tr_variant) (key : Str) : Option int64_t :=
  match tr_variantDictFind v key with
  | some (.int i) => some i
  | _ => none

/-- The C++ `tr_variantGetStrView(v, &setme)`. -/
def tr_variantGetStrView (v : Option tr_variant) : Option Str :=
  match v with
  | some (.str s) => some s
  | _ => none

/-- The C++ `tr_variantDictFindStrView(dict, key, &setme)`. -/
def tr_variantDictFindStrView (v : tr_variant) (key : Str) : Option Str :=
  tr_variantGetStrView (tr_variantDictFind v key)

/-- The C++ `tr_variantDictFindList(dict, key, &setme)`. -/
def tr_variantDictFindList (v : tr_variant) (key : Str) : Option tr_variant :=
  match tr_variantDictFind v key with
  | some (.list l) => some (.list l)
  | _ => none

/-- The C++ `tr_variantDictFindDict(dict, key, &setme)`. -/
def tr_variantDictFindDict (v : tr_variant) (key : Str) : Option tr_variant :=
  match tr_variantDictFind v key with
  | some (.dict d) => some (.dict d)
  | _ => none

/-- The C++ `tr_variantIsList(v)`. -/
def tr_variantIsList (v : tr_variant) : Bool :=
  match v with
  | .list _ => true
  | _ => false

/-- The C++ `tr_variantIsDict(v)`. -/
def tr_variantIsDict (v : tr_variant) : Bool :=
  match v with
  | .dict _ => true
  | _ => false

/-- The children of a list, in order: `tr_variantListChild(v, i)` for `i` below
`tr_variantListSize(v)`; a variant that is not a list has size 0. -/
def tr_variantListChildren (v : tr_variant) : List tr_variant :=
  match v with
  | .list l => l
  | _ => []

/-- The keys `TR_KEY_*` that the parser looks up (declared in `quark.h`), as the strings
they intern; the specification lists these strings as the keys of the encoded file. -/
def TR_KEY_info : Str := "info".toList
def TR_KEY_name : Str := "name".toList
def TR_KEY_name_utf_8 : Str := "name.utf-8".toList
def TR_KEY_comment : Str := "comment".toList
def TR_KEY_comment_utf_8 : Str := "comment.utf-8".toList
def TR_KEY_created_by : Str := "created by".toList
def TR_KEY_created_by_utf_8 : Str := "created by.utf-8".toList
def TR_KEY_creation_date : Str := "creation date".toList
def TR_KEY_private : Str := "private".toList
def TR_KEY_source : Str := "source".toList
def TR_KEY_piece_length : Str := "piece length".toList
def TR_KEY_pieces : Str := "pieces".toList
def TR_KEY_length : Str := "length".toList
def TR_KEY_files : Str := "files".toList
def TR_KEY_path : Str := "path".toList
def TR_KEY_path_utf_8 : Str := "path.utf-8".toList
def TR_KEY_announce : Str := "announce".toList
def TR_KEY_announce_list : Str := "announce-list".toList
def TR_KEY_url_list : Str := "url-list".toList

/-- The conversion of an `int64_t` to `uint64_t`. -/
def toU64 (i : int64_t) : Nat :=
  (i.val % (2 : Int) ^ 64).toNat

/-- The C++ `std::search(first, last, s_first, s_last)` as the distance from `first`: the first
index at which `needle` occurs in `hay`; the length of `hay` when it does not occur. -/
def std_search (hay needle : Str) : Nat :=
  (sv_findAux hay needle (hay.length + 1 - needle.length) 0).getD hay.length

/-- Modelled from the spec: `tr_torrent_metainfo::file_t`, declared in `torrent-metainfo.h`,
which is not among the translated sources. The specification gives a file entry as a
"sanitized relative path string, size in bytes ≥ 0": the size is an unsigned 64-bit integer,
to which the `int64_t` passed by `parseFiles` is converted. -/
structure file_t where
  path : Str
  size : Nat
deriving DecidableEq

/-- The fields of `tr_block_info` that the parser reads back. -/
structure tr_block_info where
  total_size : Nat
  piece_size : Nat
  n_pieces : Nat
deriving DecidableEq

/-- Modelled from the spec: `tr_block_info::initSizes(total_size, piece_size)`, defined in
`block-info.cc`, which is not among the translated sources. The specification gives the piece
count as "`ceil(totalSize / pieceLength)`, with a size landing exactly on a boundary producing
no extra trailing empty piece". -/
def initSizes (total_size piece_size : Nat) : tr_block_info :=
  { total_size := total_size
    piece_size := piece_size
    n_pieces := total_size / piece_size + (if total_size % piece_size = 0 then 0 else 1) }

/-- A tracker of a tier of `tr_torrent_metainfo`: the announce URL and the scrape URL
(`none` for `TR_KEY_NONE`). -/
abbrev tier_entry := Str × Option Str

/-- The fields of `tr_torrent_metainfo` that `parseImpl` writes. -/
structure tr_torrent_metainfo where
  info_hash_ : Str
  info_hash_chars_ : Str
  info_dict_offset_ : Nat
  info_dict_size_ : Nat
  pieces_offset_ : Nat
  name_ : Str
  comment_ : Str
  creator_ : Str
  date_created_ : Int
  is_private_ : Bool
  source_ : Str
  pieces_ : List Str
  files_ : List file_t
  block_info_ : tr_block_info
  tiers_ : List (List tier_entry)
  webseed_urls_ : List Str
deriving DecidableEq

/-- The functions and constants that the parser uses and that are declared outside the
translated files. `tr_utf8clean` returns a C string (`none` for `nullptr`); `tier_emplace` is
`tier_t::emplace` of the container type `tier_t` declared in `torrent-metainfo.h`. -/
structure externals where
  tr_variantToStr : tr_variant → Str
  tr_sha1 : Str → Str
  tr_sha1_to_hex : Str → Str
  tr_utf8clean : Str → Option Str
  tr_strvStrip : Str → Str
  tr_urlIsValid : Str → Bool
  tr_urlIsValidTracker : Str → Bool
  tr_buildBuf : Str → List Str → Str
  tier_emplace : List tier_entry → tier_entry → List tier_entry
  TR_PATH_DELIMITER : Char

/-- The C++ `tr_torrent_metainfo::fixWebseedUrl`. -/
def fixWebseedUrl (ext : externals) (tm : tr_torrent_metainfo) (url : Str) : Str :=
  let url := ext.tr_strvStrip url
  if tm.files_.length > 1 ∧ ¬ url.isEmpty ∧ url.getLast? ≠ some '/' then url ++ ['/']
  else url

/-- The C++ `tr_torrent_metainfo::parseWebseeds`. -/
def parseWebseeds (ext : externals) (setme : tr_torrent_metainfo) (top : tr_variant) :
    tr_torrent_metainfo :=
  let setme := { setme with webseed_urls_ := [] }
  match tr_variantDictFindList top TR_KEY_url_list with
  | some urls =>
    (tr_variantListChildren urls).foldl
      (fun (acc : tr_torrent_metainfo) child =>
        match tr_variantGetStrView (some child) with
        | some url =>
          if ext.tr_urlIsValid url then
            { acc with webseed_urls_ := acc.webseed_urls_ ++ [fixWebseedUrl ext acc url] }
          else acc
        | none => acc)
      setme
  | none =>
    match tr_variantDictFindStrView top TR_KEY_url_list with
    | some url =>
      if ext.tr_urlIsValid url then
        { setme with webseed_urls_ := setme.webseed_urls_ ++ [fixWebseedUrl ext setme url] }
      else setme
    | none => setme

/-- The tracker that `parseAnnounce` builds for a URL: the interned announce URL and the
scrape URL derived by `convertAnnounceToScrape` into `buf`. Returns the entry and `buf`. -/
def announce_entry (ext : externals) (buf url : Str) : tier_entry × Str :=
  let r := convertAnnounceToScrape ext.tr_buildBuf buf url
  ((url, if r.1 then some r.2 else none), r.2)

/-- The inner loop of `parseAnnounce`, over the trackers of one tier. -/
def parseAnnounceTier (ext : externals) :
    List tr_variant → List tier_entry → Str → List tier_entry × Str
  | [], tier, buf => (tier, buf)
  | child :: rest, tier, buf =>
    match tr_variantGetStrView (some child) with
    | some url =>
      let url := ext.tr_strvStrip url
      if ext.tr_urlIsValidTracker url then
        let e := announce_entry ext buf url
        parseAnnounceTier ext rest (ext.tier_emplace tier e.1) e.2
      else parseAnnounceTier ext rest tier buf
    | none => parseAnnounceTier ext rest tier buf

/-- The outer loop of `parseAnnounce`, over the tiers of `announce-list`. -/
def parseAnnounceTiers (ext : externals) :
    List tr_variant → List (List tier_entry) → Str → List (List tier_entry) × Str
  | [], tiers, buf => (tiers, buf)
  | tier_v :: rest, tiers, buf =>
    let r := parseAnnounceTier ext (tr_variantListChildren tier_v) [] buf
    if r.1.isEmpty then parseAnnounceTiers ext rest tiers r.2
    else parseAnnounceTiers ext rest (tiers ++ [r.1]) r.2

/-- The C++ `tr_torrent_metainfo::parseAnnounce`. -/
def parseAnnounce (ext : externals) (setme : tr_torrent_metainfo) (top : tr_variant) :
    tr_torrent_metainfo :=
  let setme := { setme with tiers_ := [] }
  -- announce-list
  let r : List (List tier_entry) × Str :=
    match tr_variantDictFindList top TR_KEY_announce_list with
    | some tiers => parseAnnounceTiers ext (tr_variantListChildren tiers) [] []
    | none => ([], [])
  let setme := { setme with tiers_ := r.1 }
  -- single 'announce' url
  if setme.tiers_.isEmpty then
    match tr_variantDictFindStrView top TR_KEY_announce with
    | some url =>
      let url := ext.tr_strvStrip url
      if ext.tr_urlIsValidTracker url then
        let e := announce_entry ext r.2 url
        { setme with tiers_ := setme.tiers_ ++ [ext.tier_emplace [] e.1] }
      else setme
    | none => setme
  else setme

/-- The loop of `parsePath` over the path components: `buf` after the components. `none`
when a component is not a string. -/
def parsePathLoop (ext : externals) : List tr_variant → Str → Option Str
  | [], buf => some buf
  | child :: rest, buf =>
    match tr_variantGetStrView (some child) with
    | none => none
    | some raw =>
      let pos := buf.length
      let r := appendSanitizedComponent buf raw
      if !r.ret then parsePathLoop ext rest r.out
      else parsePathLoop ext rest (vector_insert r.out pos ext.TR_PATH_DELIMITER)

/-- The C++ `tr_torrent_metainfo::parsePath(root, path, buf)`: the returned C string, `none` for
`nullptr`. -/
def parsePath (ext : externals) (root : Str) (path : tr_variant) : Option Str :=
  if !tr_variantIsList path then none
  else
    match parsePathLoop ext (tr_variantListChildren path) root with
    | none => none
    | some buf => if buf.length ≤ root.length then none else ext.tr_utf8clean buf

/-- The loop of `parseFiles` over the entries of `files`: the error string (empty on
success), `setme.files_` and `total_size` when the loop ends. -/
def parseFilesLoop (ext : externals) (root_name : Str) :
    List tr_variant → List file_t → Nat → Str × List file_t × Nat
  | [], files, total_size => ([], files, total_size)
  | file_entry :: rest, files, total_size =>
    if !tr_variantIsDict file_entry then
      ("'files' is not a dictionary".toList, files, total_size)
    else
      match tr_variantDictFindInt file_entry TR_KEY_length with
      | none => ("length".toList, files, total_size)
      | some len =>
        match (tr_variantDictFindList file_entry TR_KEY_path_utf_8).orElse
            (fun _ => tr_variantDictFindList file_entry TR_KEY_path) with
        | none => ("path".toList, files, total_size)
        | some path_variant =>
          match parsePath ext root_name path_variant with
          | none => ("path".toList, files, total_size)
          | some path =>
            parseFilesLoop ext root_name rest (files ++ [⟨path, toU64 len⟩])
              ((total_size + toU64 len) % 2 ^ 64)

/-- The C++ `tr_torrent_metainfo::parseFiles(setme, info_dict, setme_total_size)`: the error string
(empty on success), the object afterwards and the value stored in `*setme_total_size` (which
keeps the caller's value `total_size0` when the function fails). -/
def parseFiles (ext : externals) (setme : tr_torrent_metainfo) (info_dict : tr_variant)
    (total_size0 : Nat) : Str × tr_torrent_metainfo × Nat :=
  let setme := { setme with files_ := [] }
  let root := appendSanitizedComponent [] setme.name_
  if !root.ret then ("invalid name".toList, setme, total_size0)
  else
    let root_name := root.out
    match tr_variantDictFindInt info_dict TR_KEY_length with
    | some len =>
      ([], { setme with files_ := setme.files_ ++ [⟨root_name, toU64 len⟩] }, toU64 len)
    | none =>
      match tr_variantDictFindList info_dict TR_KEY_files with
      | some files_entry =>
        let r := parseFilesLoop ext root_name (tr_variantListChildren files_entry) [] 0
        if r.1.isEmpty then ([], { setme with files_ := r.2.1 }, r.2.2)
        else (r.1, { setme with files_ := r.2.1 }, total_size0)
      | none =>
        ("'info' dict has neither 'files' nor 'length' key".toList, setme, total_size0)

/-- The digests of `pieces`: `n` consecutive blocks of 20 characters of `sv`. -/
def copy_pieces (sv : Str) (n : Nat) : List Str :=
  (List.range n).map (fun k => (sv.drop (20 * k)).take 20)

/-- The optional string field of `parseImpl` stored under `key_utf_8` or `key` in `first`,
else in `second` (the two dictionaries coincide for `comment` and `created by`): the cleaned
string, or the empty string when the key is absent or `tr_utf8clean` returns `nullptr`. -/
def optional_str (ext : externals) (v : tr_variant) (k1 : Str) (w : tr_variant) (k2 : Str) :
    Str :=
  match (tr_variantDictFindStrView v k1).orElse (fun _ => tr_variantDictFindStrView w k2) with
  | some sv => (ext.tr_utf8clean sv).getD []
  | none => []

/-- The part of `parseImpl` from `// files` on, with the `piece_size` found before. -/
def parseImplFiles (ext : externals) (setme : tr_torrent_metainfo) (top info_dict : tr_variant)
    (piece_size : Nat) : Str × tr_torrent_metainfo :=
  -- files
  let r := parseFiles ext setme info_dict 0
  let setme := r.2.1
  let total_size := r.2.2
  if !r.1.isEmpty then (r.1, setme)
  else if setme.files_.isEmpty ∨ total_size = 0 then ("no files found".toList, setme)
  else
    -- do the size and piece size match up?
    let setme := { setme with block_info_ := initSizes total_size piece_size }
    if setme.block_info_.n_pieces ≠ setme.pieces_.length then
      ("piece count and file sizes do not match".toList, setme)
    else
      let setme := parseAnnounce ext setme top
      let setme := parseWebseeds ext setme top
      ([], setme)

/-- The part of `parseImpl` from `// piece length` on. -/
def parseImplSizes (ext : externals) (setme : tr_torrent_metainfo) (top info_dict : tr_variant) :
    Str × tr_torrent_metainfo :=
  -- piece length
  match (tr_variantDictFindInt info_dict TR_KEY_piece_length).filter
      (fun i => decide (i.val > 0)) with
  | none =>
    ("'info' dict 'piece length' is missing or has an invalid value".toList, setme)
  | some i =>
    let piece_size := toU64 i
    -- pieces
    match (tr_variantDictFindStrView info_dict TR_KEY_pieces).filter
        (fun sv => decide (sv.length % 20 = 0)) with
    | none => ("'info' dict 'pieces' is missing or has an invalid value".toList, setme)
    | some sv =>
      let setme := { setme with pieces_ := copy_pieces sv (sv.length / 20) }
      parseImplFiles ext setme top info_dict piece_size

/-- The C++ `tr_torrent_metainfo::parseImpl(setme, meta, benc)`: the error string (empty on success)
and the object afterwards. -/
def parseImpl (ext : externals) (setme : tr_torrent_metainfo) (top : tr_variant) (benc : Str) :
    Str × tr_torrent_metainfo :=
  match tr_variantDictFindDict top TR_KEY_info with
  | none => ("missing 'info' dictionary".toList, setme)
  | some info_dict =>
    -- Calculate the hash of the `info` dict.
    let bstr := ext.tr_variantToStr info_dict
    let setme :=
      { setme with
        info_hash_ := ext.tr_sha1 bstr
        info_hash_chars_ := ext.tr_sha1_to_hex (ext.tr_sha1 bstr) }
    -- Remember the offset and length of the bencoded info dict.
    let setme :=
      { setme with info_dict_offset_ := std_search benc bstr, info_dict_size_ := bstr.length }
    -- In addition, remember the offset of the pieces dictionary entry.
    let key := "6:pieces".toList
    let setme :=
      { setme with pieces_offset_ := setme.info_dict_offset_ + std_search bstr key + key.length }
    -- name
    match (tr_variantDictFindStrView info_dict TR_KEY_name_utf_8).orElse
        (fun _ => tr_variantDictFindStrView info_dict TR_KEY_name) with
    | none => ("'info' dictionary has neither 'name.utf-8' nor 'name'".toList, setme)
    | some sv =>
      let setme := { setme with name_ := (ext.tr_utf8clean sv).getD [] }
      -- comment (optional)
      let setme :=
        { setme with comment_ := optional_str ext top TR_KEY_comment_utf_8 top TR_KEY_comment }
      -- created by (optional)
      let setme :=
        { setme with
          creator_ := optional_str ext top TR_KEY_created_by_utf_8 top TR_KEY_created_by }
      -- creation date (optional)
      let setme :=
        { setme with
          date_created_ :=
            ((tr_variantDictFindInt top TR_KEY_creation_date).map int64_t.val).getD 0 }
      -- private (optional)
      let setme :=
        { setme with
          is_private_ :=
            match (tr_variantDictFindInt info_dict TR_KEY_private).orElse
                (fun _ => tr_variantDictFindInt top TR_KEY_private) with
            | some i => decide (i.val ≠ 0)
            | none => false }
      -- source (optional)
      let setme :=
        { setme with source_ := optional_str ext info_dict TR_KEY_source top TR_KEY_source }
      parseImplSizes ext setme top info_dict

/-! ## Properties of announce lists -/

/-- Two parsed URLs name the same endpoint: the same scheme, host, port and path. -/
def same_endpoint (a b : tr_url_parsed_t) : Prop :=
  a.scheme = b.scheme ∧ a.host = b.host ∧ a.port = b.port ∧ a.path = b.path

instance (a b : tr_url_parsed_t) : Decidable (same_endpoint a b) := by
  unfold same_endpoint; infer_instance

/-- No two records of the list name the same endpoint. -/
def NoDuplicate (xs : List tracker_info) : Prop :=
  xs.Pairwise (fun a b => ¬ same_endpoint a.announce b.announce)

/-- The ordering key of the specification on two records: tier first, then insertion (id)
order. -/
def keyLt (a b : tracker_info) : Prop :=
  a.tier < b.tier ∨ (a.tier = b.tier ∧ a.id < b.id)

/-- The records are sorted by the key (tier, id) and every id in use is below the counter. -/
def Ordered (s : tr_announce_list) : Prop :=
  s.trackers_.Pairwise keyLt ∧ ∀ r ∈ s.trackers_, r.id < s.id

/-- Where a successful `add` puts its record: after every record of a tier up to its own,
before every record of a greater tier. -/
def InsertedAfterItsTier (s s2 : tr_announce_list) (url : Str) : Prop :=
  ∃ (pre post : List tracker_info) (new : tracker_info),
    s.trackers_ = pre ++ post ∧ s2.trackers_ = pre ++ new :: post ∧
      new.id = s.id ∧ new.announce_str = url ∧
      (∀ x ∈ pre, x.tier ≤ new.tier) ∧ (∀ x ∈ post, new.tier < x.tier)

/-! ## Properties of a parsed torrent -/

/-- The fields that the piece/size cross-check is about. -/
def sizeFields (tm : tr_torrent_metainfo) : List Str × List file_t × tr_block_info :=
  (tm.pieces_, tm.files_, tm.block_info_)

/-- What a successful parse guarantees about piece count and sizes: the piece length is
positive, the number of digests is the ceiling of total size over piece length (so there is
no extra piece when the division is exact), the total size is the 64-bit accumulation of the
file sizes, and the digests are the 20-character blocks of the `pieces` string of `info`. -/
def PieceCountMatches (top : tr_variant) (tm : tr_torrent_metainfo) : Prop :=
  0 < tm.block_info_.piece_size ∧
    (tm.pieces_.length : Int) =
      ⌈(tm.block_info_.total_size : ℚ) / (tm.block_info_.piece_size : ℚ)⌉ ∧
    (tm.block_info_.total_size % tm.block_info_.piece_size = 0 →
      tm.pieces_.length * tm.block_info_.piece_size = tm.block_info_.total_size) ∧
    tm.block_info_.total_size = (tm.files_.map file_t.size).sum % 2 ^ 64 ∧
    ∃ info_dict sv, tr_variantDictFindDict top TR_KEY_info = some info_dict ∧
      tr_variantDictFindStrView info_dict TR_KEY_pieces = some sv ∧
      sv.length = 20 * tm.pieces_.length

/-! ## Sample data -/

/-- Four announce URLs used to run the operations on concrete lists. -/
def urlA : Str := "http://a/announce".toList
def urlA80 : Str := "http://a:80/announce".toList
def urlAs : Str := "https://a/announce".toList
def urlB : Str := "http://b/announce".toList

/-- A stand-in for `tr_urlParseTracker` on concrete inputs: it knows the four URLs above
(`urlA` and `urlA80` are the same endpoint, with the port implicit and explicit) and rejects
every other string. -/
def sampleParse (url : Str) : Option tr_url_parsed_t :=
  if url = urlA then
    some ⟨"http".toList, "a".toList, "/announce".toList, "80".toList, 80, url⟩
  else if url = urlA80 then
    some ⟨"http".toList, "a".toList, "/announce".toList, "80".toList, 80, url⟩
  else if url = urlAs then
    some ⟨"https".toList, "a".toList, "/announce".toList, "443".toList, 443, url⟩
  else if url = urlB then
    some ⟨"http".toList, "b".toList, "/announce".toList, "80".toList, 80, url⟩
  else none

/-- The list holding `urlA` alone, built by one `add` on an empty list. -/
def listA : tr_announce_list :=
  (add sampleParse tracker_info.lt ⟨[], 0⟩ 0 urlA).2

/-- The list obtained from `listA` by adding `urlB` to tier 0. -/
def listAB : tr_announce_list :=
  (add sampleParse tracker_info.lt listA 0 urlB).2

/-! ## Sample data for the parser -/

/-- Stand-ins for the external functions, used to run the parser on concrete inputs: the
encoder and the digest return the empty string, `tr_utf8clean` and `tr_strvStrip` return
their argument, every URL is valid, `tr_buildBuf` joins the pieces, a tier is a list in
insertion order and the path delimiter is `/`. -/
def sampleExternals : externals :=
  { tr_variantToStr := fun _ => []
    tr_sha1 := fun _ => []
    tr_sha1_to_hex := fun s => s
    tr_utf8clean := fun s => some s
    tr_strvStrip := fun s => s
    tr_urlIsValid := fun _ => true
    tr_urlIsValidTracker := fun _ => true
    tr_buildBuf := fun _ parts => parts.flatten
    tier_emplace := fun tier e => tier ++ [e]
    TR_PATH_DELIMITER := '/' }

/-- A default-constructed `tr_torrent_metainfo`. -/
def emptyMetainfo : tr_torrent_metainfo :=
  { info_hash_ := [], info_hash_chars_ := [], info_dict_offset_ := 0, info_dict_size_ := 0,
    pieces_offset_ := 0, name_ := [], comment_ := [], creator_ := [], date_created_ := 0,
    is_private_ := false, source_ := [], pieces_ := [], files_ := [],
    block_info_ := ⟨0, 0, 0⟩, tiers_ := [], webseed_urls_ := [] }

/-- A dictionary entry with a string key. -/
def entry (key : String) (v : tr_variant) : Str × tr_variant :=
  (key.toList, v)

/-- The decoded form of a single-file torrent: `name` "n", `length` 3, `piece length` 2 and
two digests in `pieces`. -/
def singleFileTorrent : tr_variant :=
  .dict [entry "info" (.dict [entry "length" (.int ⟨3, by decide⟩), entry "name" (.str "n".toList),
    entry "piece length" (.int ⟨2, by decide⟩), entry "pieces" (.str (List.replicate 40 'x'))])]

/-- The decoded form of a two-file torrent whose first file has `length` -1 and whose second
file has `length` 2, with `piece length` 1 and one digest in `pieces`; the bencoded input is
`d4:infod5:filesld6:lengthi-1e4:pathl1:aeed6:lengthi2e4:pathl1:beee4:name1:n`
`12:piece lengthi1e6:pieces20:xxxxxxxxxxxxxxxxxxxxee`. -/
def negativeLengthTorrent : tr_variant :=
  .dict [entry "info" (.dict [
    entry "files" (.list [
      .dict [entry "length" (.int ⟨-1, by decide⟩), entry "path" (.list [.str "a".toList])],
      .dict [entry "length" (.int ⟨2, by decide⟩), entry "path" (.list [.str "b".toList])]]),
    entry "name" (.str "n".toList),
    entry "piece length" (.int ⟨1, by decide⟩),
    entry "pieces" (.str (List.replicate 20 'x'))])]

/-- The record that `listA` and `listAB` hold for `urlA`. -/
def recA : tracker_info :=
  { announce_str := urlA
    announce := ⟨"http".toList, "a".toList, "/announce".toList, "80".toList, 80, urlA⟩
    scrape_str := "http://a/scrape".toList
    scrape := none
    host := "a:80".toList
    tier := 0
    id := 0 }

/-- The record that `listAB` holds for `urlB`. -/
def recB : tracker_info :=
  { announce_str := urlB
    announce := ⟨"http".toList, "b".toList, "/announce".toList, "80".toList, 80, urlB⟩
    scrape_str := "http://b/scrape".toList
    scrape := none
    host := "b:80".toList
    tier := 0
    id := 1 }

/-- The path component of the specification's sanitizer example. -/
def messyComponent : Str := "  a/b\\c:*?  . ".toList

/-! ## announce-list.cc: nextTier -/

/-- The C++ `tr_announce_list::nextTier`: 0 for an empty list, else the tier of the last
record plus one. The sum is returned as a `tr_tracker_tier_t`, an unsigned integer type that
is declared outside the translated files: `tier_bits` is the number of its bits, and the sum
is taken modulo `2 ^ tier_bits`. -/
def nextTier (tier_bits : Nat) (s : tr_announce_list) : Nat :=
  match s.trackers_.getLast? with
  | none => 0
  | some tracker => (tracker.tier + 1) % 2 ^ tier_bits

/-! ## More properties of announce lists -/

/-- Two parsed URLs have the same host and path (the scheme and port are ignored). -/
def same_host_path (a b : tr_url_parsed_t) : Prop :=
  a.host = b.host ∧ a.path = b.path

instance (a b : tr_url_parsed_t) : Decidable (same_host_path a b) := by
  unfold same_host_path; infer_instance

/-- The tier rule of the specification: `tier` is the tier of the first record of `xs`, in
list order, that has the same host and path as `a`, and it is the requested tier `t` when no
record of `xs` has. -/
def TierResolved (xs : List tracker_info) (a : tr_url_parsed_t) (t tier : Nat) : Prop :=
  (∀ (i : Nat) (r : tracker_info), xs[i]? = some r → same_host_path r.announce a →
      (∀ (j : Nat) (r2 : tracker_info), j < i → xs[j]? = some r2 →
        ¬ same_host_path r2.announce a) → tier = r.tier) ∧
    ((∀ r ∈ xs, ¬ same_host_path r.announce a) → tier = t)

/-- Every id in use is below the id counter, and no two records share an id. -/
def IdsFresh (s : tr_announce_list) : Prop :=
  (∀ r ∈ s.trackers_, r.id < s.id) ∧ s.trackers_.Pairwise (fun a b => a.id ≠ b.id)

/-- What `remove` does to a list `L`, with `p` the test of its `find`: when it returns true,
the first record that satisfies `p` is erased and the other records keep their fields and
order; when it returns false the list is unchanged. -/
def ErasesFirst (p : tracker_info → Prop) (L : tr_announce_list)
    (res : Bool × tr_announce_list) : Prop :=
  (res.1 = true → ∃ (pre post : List tracker_info) (x : tracker_info),
      L.trackers_ = pre ++ x :: post ∧ p x ∧ (∀ y ∈ pre, ¬ p y) ∧
        res.2 = { L with trackers_ := pre ++ post }) ∧
    (res.1 = false → res.2 = L)

/-- What a successful `add` of `url` does to a reachable list `L`: the size grows by one,
the records of `L` stay, unchanged and in their order, around the new record, whose id is
the id counter of `L` and differs from every other id, and `find` of that id finds a record
whose announce string is `url`. -/
def AddedOne (L L2 : tr_announce_list) (url : Str) : Prop :=
  L2.trackers_.length = L.trackers_.length + 1 ∧
    (∃ (pre post : List tracker_info) (new : tracker_info),
      L.trackers_ = pre ++ post ∧ L2.trackers_ = pre ++ new :: post ∧ new.id = L.id ∧
        new.announce_str = url ∧ ∀ x ∈ pre ++ post, x.id ≠ new.id) ∧
    ∃ r, L2.trackers_[find_id L2 L.id]? = some r ∧ r.id = L.id ∧ r.announce_str = url

/-- The list holding `urlA` in tier 0 and `urlB` in tier 1. -/
def listA0B1 : tr_announce_list :=
  (add sampleParse tracker_info.lt listA 1 urlB).2

/-- What a successful `replace` of the record `id` by `url` does to a list `L`: `url`
parses, the first record with that id is removed, no record of the result has the id, and
the result holds a record for `url` whose tier follows the tier rule on the remaining
records, with the tier of the removed record as the requested tier. -/
def Replaced (parse : Str → Option tr_url_parsed_t) (L L2 : tr_announce_list) (id : Nat)
    (url : Str) : Prop :=
  ∃ (a : tr_url_parsed_t) (old new : tracker_info) (pre post : List tracker_info),
    parse url = some a ∧ L.trackers_ = pre ++ old :: post ∧ old.id = id ∧
      (∀ r ∈ L2.trackers_, r.id ≠ id) ∧ new ∈ L2.trackers_ ∧ new.announce_str = url ∧
      TierResolved (pre ++ post) a old.tier new.tier

/-- What the specification says of `nextTier`: 0 when the list is empty, otherwise one more
than the greatest tier among its records. -/
def NextTierIsMaxPlusOne (tier_bits : Nat) (s : tr_announce_list) : Prop :=
  (s.trackers_ = [] → nextTier tier_bits s = 0) ∧
    (s.trackers_ ≠ [] →
      (∃ r ∈ s.trackers_, nextTier tier_bits s = r.tier + 1) ∧
        ∀ r ∈ s.trackers_, r.tier < nextTier tier_bits s)

/-- The C++ `tr_torrent_metainfo::parseBenc(benc, error)`: the returned flag and the object
afterwards. `tr_variantFromBuf` is the decoder (`none` when it fails); the text stored in
`error` is left out. -/
def parseBenc (ext : externals) (tr_variantFromBuf : Str → Option tr_variant)
    (this : tr_torrent_metainfo) (benc : Str) : Bool × tr_torrent_metainfo :=
  match tr_variantFromBuf benc with
  | none => (false, this)
  | some top =>
    let r := parseImpl ext this top benc
    if !r.1.isEmpty then (false, r.2) else (true, r.2)

/-- The decoded form of a torrent with an `info` dictionary and a `name` but without
`piece length`. -/
def noPieceLengthTorrent : tr_variant :=
  .dict [entry "info" (.dict [entry "name" (.str "n".toList)])]

/-- What a failed `parseBenc` leaves in the object, `res`, compared with the object before
the call, `this`: the tiers and webseeds are those of before the call; the whole object is,
when the input does not decode or has no `info` dictionary; and when `info` and the name are
there but `piece length` is missing or not positive, pieces, files and block sizes are those
of before the call while the info hash and the name are those of the input. -/
def FailureLeaves (ext : externals) (tr_variantFromBuf : Str → Option tr_variant)
    (this : tr_torrent_metainfo) (benc : Str) (res : tr_torrent_metainfo) : Prop :=
  res.tiers_ = this.tiers_ ∧ res.webseed_urls_ = this.webseed_urls_ ∧
    ((tr_variantFromBuf benc = none ∨ ∃ top, tr_variantFromBuf benc = some top ∧
        tr_variantDictFindDict top TR_KEY_info = none) → res = this) ∧
    ∀ (top info_dict : tr_variant) (sv : Str), tr_variantFromBuf benc = some top →
      tr_variantDictFindDict top TR_KEY_info = some info_dict →
      (tr_variantDictFindStrView info_dict TR_KEY_name_utf_8).orElse
        (fun _ => tr_variantDictFindStrView info_dict TR_KEY_name) = some sv →
      (tr_variantDictFindInt info_dict TR_KEY_piece_length).filter
        (fun i => decide (i.val > 0)) = none →
      res.pieces_ = this.pieces_ ∧ res.files_ = this.files_ ∧
        res.block_info_ = this.block_info_ ∧
        res.info_hash_ = ext.tr_sha1 (ext.tr_variantToStr info_dict) ∧
        res.name_ = (ext.tr_utf8clean sv).getD []

/-! ## announce-list.cc: save -/

/-- Modelled from the spec: `tr_variantDictRemove(dict, key)`, defined in `variant.cc`, which
is not among the translated sources. The specification has `save` "remove any existing
singular-announce and tiered-announce-list fields": no child stored under `key` remains. -/
def tr_variantDictRemove (v : tr_variant) (key : Str) : tr_variant :=
  match v with
  | .dict d => .dict (d.filter (fun kv => !(kv.1 == key)))
  | .int i => .int i
  | .str s => .str s
  | .list l => .list l

/-- Modelled from the spec: `tr_variantDictAddQuark(dict, key, val)` and
`tr_variantDictAddList(dict, key, n)`, defined in `variant.cc`, which is not among the
translated sources: the dictionary gets `child` as a new child stored under `key`. -/
def tr_variantDictAdd (v : tr_variant) (key : Str) (child : tr_variant) : tr_variant :=
  match v with
  | .dict d => .dict (d ++ [(key, child)])
  | .int i => .int i
  | .str s => .str s
  | .list l => .list l

/-- One round of the loop of `save` over the trackers. The state is the list `tier_list`
(each inner list holds the URLs added to it so far; `tracker_list` points to the last one and
is `nullptr` while there is none) and `current_tier`. -/
def save_tier_step (st : List (List Str) × Option Nat) (tracker : tracker_info) :
    List (List Str) × Option Nat :=
  if st.1.isEmpty ∨ st.2.isNone ∨ st.2 ≠ some tracker.tier then
    (st.1 ++ [[tracker.announce_str]], some tracker.tier)
  else
    (st.1.dropLast ++ [st.1.getLast?.getD [] ++ [tracker.announce_str]], st.2)

/-- The list `tier_list` that the loop of `save` builds. -/
def save_tier_list (trackers : List tracker_info) : List (List Str) :=
  (trackers.foldl save_tier_step ([], none)).1

/-- The dictionary that `save` builds from the loaded `metainfo`: the old fields removed,
the new fields added. -/
def save_metainfo (s : tr_announce_list) (metainfo : tr_variant) : tr_variant :=
  -- remove the old fields
  let metainfo := tr_variantDictRemove metainfo TR_KEY_announce
  let metainfo := tr_variantDictRemove metainfo TR_KEY_announce_list
  -- add the new fields
  if h : s.trackers_.length = 1 then
    tr_variantDictAdd metainfo TR_KEY_announce
      (.str (s.trackers_.get ⟨0, by omega⟩).announce_str)
  else if s.trackers_.length > 1 then
    tr_variantDictAdd metainfo TR_KEY_announce_list
      (.list ((save_tier_list s.trackers_).map (fun urls => .list (urls.map .str))))
  else metainfo

/-- The file functions that `save` calls, over a file system of type `FS`: `tr_variantFromFile`
loads and decodes a file (`none` when it fails), `tr_variantFromBuf` is the decoder used by
`parseBenc`, and `tr_saveFile` writes a file and returns whether it succeeded, with the file
system afterwards. -/
structure save_externals (FS : Type) where
  tr_variantFromFile : FS → Str → Option tr_variant
  tr_variantFromBuf : Str → Option tr_variant
  tr_saveFile : FS → Str → Str → Bool × FS

/-- The C++ `tr_announce_list::save(torrent_file, error)`: the returned flag and the file
system afterwards. -/
def save {FS : Type} (ext : externals) (sx : save_externals FS) (s : tr_announce_list)
    (fs : FS) (torrent_file : Str) : Bool × FS :=
  -- load the .torrent file
  match sx.tr_variantFromFile fs torrent_file with
  | none => (false, fs)
  | some metainfo =>
    let metainfo := save_metainfo s metainfo
    -- convert it to benc
    let benc_sv := ext.tr_variantToStr metainfo
    -- confirm that it's good by parsing it back again
    if !(parseBenc ext sx.tr_variantFromBuf emptyMetainfo benc_sv).1 then (false, fs)
    else
      -- save it
      sx.tr_saveFile fs torrent_file benc_sv

/-- The bytes that `save` checks and writes for the loaded dictionary `metainfo`. -/
def save_bytes (ext : externals) (s : tr_announce_list) (metainfo : tr_variant) : Str :=
  ext.tr_variantToStr (save_metainfo s metainfo)

/-- The order of the steps of `save`: a failed load and a failed verify-parse both return
false with the file system untouched, and a file system that differs afterwards is the
result of `tr_saveFile`, called after the load and the verify-parse succeeded. -/
def WritesOnlyAfterVerify {FS : Type} (ext : externals) (sx : save_externals FS)
    (s : tr_announce_list) (fs : FS) (torrent_file : Str) : Prop :=
  (sx.tr_variantFromFile fs torrent_file = none →
      save ext sx s fs torrent_file = (false, fs)) ∧
    (∀ metainfo, sx.tr_variantFromFile fs torrent_file = some metainfo →
      (parseBenc ext sx.tr_variantFromBuf emptyMetainfo (save_bytes ext s metainfo)).1 = false →
      save ext sx s fs torrent_file = (false, fs)) ∧
    ((save ext sx s fs torrent_file).2 ≠ fs →
      ∃ metainfo, sx.tr_variantFromFile fs torrent_file = some metainfo ∧
        (parseBenc ext sx.tr_variantFromBuf emptyMetainfo (save_bytes ext s metainfo)).1 = true ∧
        save ext sx s fs torrent_file =
          sx.tr_saveFile fs torrent_file (save_bytes ext s metainfo))

/-- Stand-ins for the file functions over a file system that is a list of paths with their
decoded contents: loading looks the path up, the decoder fails on every input, and saving
fails and leaves the file system as it is. -/
def sampleSaveExternals : save_externals (List (Str × tr_variant)) :=
  { tr_variantFromFile := fun fs path => (fs.find? (fun kv => kv.1 == path)).map (fun kv => kv.2)
    tr_variantFromBuf := fun _ => none
    tr_saveFile := fun fs _ _ => (false, fs) }

/-- The announce URLs of the records of tier `t`, in list order. -/
def urls_of_tier (xs : List tracker_info) (t : Nat) : List Str :=
  (xs.filter (fun r => r.tier == t)).map (fun r => r.announce_str)

/-- The state of the loop of `save` after the records `xs`: the inner lists are the URLs of
the distinct tiers of `xs`, in ascending order of tier, and `current_tier` is the tier of
the last record. -/
def GroupedByTier (xs : List tracker_info) (st : List (List Str) × Option Nat) : Prop :=
  ∃ tiers : List Nat, tiers.Pairwise (fun a b => a < b) ∧
    (∀ t, t ∈ tiers ↔ ∃ r ∈ xs, r.tier = t) ∧ st.1 = tiers.map (urls_of_tier xs) ∧
    st.2 = xs.getLast?.map (fun r => r.tier) ∧
    tiers.getLast? = xs.getLast?.map (fun r => r.tier)

/-- What the dictionary `out` built by `save` holds, for the list `s` and the loaded
dictionary with the entries `d`: every key other than `announce` and `announce-list` has
the child it had in `d`; with no tracker neither key is present; with one tracker `announce`
is its URL and `announce-list` is absent; with more than one `announce` is absent and
`announce-list` has one inner list for each distinct tier, in ascending order of tier, that
holds the URLs of the records of that tier in list order. -/
def SavedAnnounce (s : tr_announce_list) (d : List (Str × tr_variant)) (out : tr_variant) :
    Prop :=
  (∀ key, key ≠ TR_KEY_announce → key ≠ TR_KEY_announce_list →
      tr_variantDictFind out key = tr_variantDictFind (.dict d) key) ∧
    (s.trackers_ = [] → tr_variantDictFind out TR_KEY_announce = none ∧
      tr_variantDictFind out TR_KEY_announce_list = none) ∧
    (∀ t, s.trackers_ = [t] →
      tr_variantDictFind out TR_KEY_announce = some (.str t.announce_str) ∧
      tr_variantDictFind out TR_KEY_announce_list = none) ∧
    (1 < s.trackers_.length → tr_variantDictFind out TR_KEY_announce = none ∧
      ∃ tiers : List Nat, tiers.Pairwise (fun a b => a < b) ∧
        (∀ t, t ∈ tiers ↔ ∃ r ∈ s.trackers_, r.tier = t) ∧
        tr_variantDictFind out TR_KEY_announce_list =
          some (.list (tiers.map (fun t => .list ((urls_of_tier s.trackers_ t).map .str)))))

/-! ## torrent-metainfo.cc: the magnet link -/

/-- The C++ `tr_new_magnet_metainfo::magnet`. `tr_http_escape` gives the text that
`tr_http_escape(s, in, true)` appends to `s`; `infoHashString()` is `info_hash_chars_`
(without its terminator). -/
def magnet (tr_http_escape : Str → Str) (tm : tr_torrent_metainfo) : Str :=
  let s := "magnet:?xt=urn:btih:".toList ++ tm.info_hash_chars_
  let s := if !tm.name_.isEmpty then s ++ "&dn=".toList ++ tr_http_escape tm.name_ else s
  let s := tm.tiers_.foldl
    (fun s tier => tier.foldl (fun s torrent => s ++ "&tr=".toList ++ tr_http_escape torrent.1) s)
    s
  tm.webseed_urls_.foldl (fun s webseed => s ++ "&ws=".toList ++ tr_http_escape webseed) s

/-- The table `Base32Lookup` of the namespace `bitzi` (kept under `#if 0`), for the
characters `0` to `DEL`. -/
def Base32Lookup : List Nat :=
  [0xFF, 0xFF, 0x1A, 0x1B, 0x1C, 0x1D, 0x1E, 0x1F,
    0xFF, 0xFF, 0xFF, 0xFF, 0xFF, 0xFF, 0xFF, 0xFF,
    0xFF, 0x00, 0x01, 0x02, 0x03, 0x04, 0x05, 0x06,
    0x07, 0x08, 0x09, 0x0A, 0x0B, 0x0C, 0x0D, 0x0E,
    0x0F, 0x10, 0x11, 0x12, 0x13, 0x14, 0x15, 0x16,
    0x17, 0x18, 0x19, 0xFF, 0xFF, 0xFF, 0xFF, 0xFF,
    0xFF, 0x00, 0x01, 0x02, 0x03, 0x04, 0x05, 0x06,
    0x07, 0x08, 0x09, 0x0A, 0x0B, 0x0C, 0x0D, 0x0E,
    0x0F, 0x10, 0x11, 0x12, 0x13, 0x14, 0x15, 0x16,
    0x17, 0x18, 0x19, 0xFF, 0xFF, 0xFF, 0xFF, 0xFF]

/-- The variables of the loop of `base32_to_sha1`: the bytes of `out`, `index` and
`offset`. -/
structure base32_state where
  out : List Nat
  index : Nat
  offset : Nat
deriving DecidableEq

/-- The update `out[offset] |= v` of a `uint8_t`. -/
def or_into (out : List Nat) (offset v : Nat) : List Nat :=
  out.set offset ((out.getD offset 0 ||| v) % 256)

/-- The loop of `bitzi::base32_to_sha1` (kept under `#if 0`) over the characters of `in`,
with `outlen` 20. A character below `0`, or past the table, gives no digit. -/
def base32_loop : List Char → base32_state → base32_state
  | [], st => st
  | ch :: rest, st =>
    -- Skip chars outside the lookup table
    if ch.toNat < '0'.toNat then base32_loop rest st
    else
      -- If this digit is not in the table, ignore it
      let digit := Base32Lookup.getD (ch.toNat - '0'.toNat) 0xFF
      if digit = 0xFF then base32_loop rest st
      else if st.index ≤ 3 then
        let index := (st.index + 5) % 8
        if index = 0 then
          let out := or_into st.out st.offset digit
          let offset := st.offset + 1
          if offset ≥ 20 then ⟨out, index, offset⟩
          else base32_loop rest ⟨out, index, offset⟩
        else
          base32_loop rest ⟨or_into st.out st.offset (digit <<< (8 - index)), index, st.offset⟩
      else
        let index := (st.index + 5) % 8
        let out := or_into st.out st.offset (digit >>> index)
        let offset := st.offset + 1
        if offset ≥ 20 then ⟨out, index, offset⟩
        else base32_loop rest ⟨or_into out offset (digit <<< (8 - index)), index, offset⟩

/-- The function `bitzi::base32_to_sha1(out, in, inlen)` (kept under `#if 0`): the 20 bytes
of `out` afterwards. -/
def base32_to_sha1 (in_ : Str) : List Nat :=
  (base32_loop in_ ⟨List.replicate 20 0, 0, 0⟩).out

/-- The value of a hexadecimal digit, in either case; 0 for any other character. -/
def hex_value (c : Char) : Nat :=
  ("0123456789abcdef".toList.indexOf (EVUTIL_TOLOWER_ c)) % 16

/-- Modelled from the spec: `tr_hex_to_sha1`, declared in `crypto-utils.h`, which is not
among the translated sources. The specification has the hash given as "40 hex characters ...
decoded to a 20-byte digest": each pair of hexadecimal digits is one byte. -/
def tr_hex_to_sha1 : Str → Str
  | hi :: lo :: rest => Char.ofNat (hex_value hi * 16 + hex_value lo) :: tr_hex_to_sha1 rest
  | _ => []

/-- Modelled from the spec: the members of the magnet model that `parseMagnet` writes, under
the names by which the repository's magnet test reads them (`mm.info_hash`, `mm.name`,
`mm.announce_list`, `mm.webseed_urls`). The specification gives the magnet model as
"`infoHash`, `name`, owned `AnnounceList`, webseed URL list"; the class is declared in
`magnet-metainfo.h`, which is not among the translated sources. -/
structure magnet_t where
  info_hash : Str
  name : Str
  announce_list : tr_announce_list
  webseed_urls : List Str
deriving DecidableEq

/-- The URL functions that `parseMagnet` and `magnet` call, declared in `web-utils.h`:
`tr_urlParse` gives the scheme and the query of a URL (`none` when it fails),
`tr_url_query_view` the key/value pairs of a query in order, `tr_urlPercentDecode` decodes a
value and `tr_http_escape` is the text that `tr_http_escape(s, in, true)` appends. -/
structure magnet_externals where
  tr_urlParse : Str → Option (Str × Str)
  tr_url_query_view : Str → List (Str × Str)
  tr_urlPercentDecode : Str → Str
  tr_http_escape : Str → Str

/-- The variables of the loop of `parseMagnet`: the object, `tier` and `got_checksum`. -/
structure magnet_loop_t where
  this : magnet_t
  tier : Nat
  got_checksum : Bool
deriving DecidableEq

/-- The literal `ValPrefix` of `parseMagnet`, written `urn:btih:` in the source. -/
def ValPrefix_ : Str := "urn:btih:".toList

/-- Modelled from the spec: one round of the loop of `parseMagnet` over the key/value pairs
of the query. The specification has the keys "`dn` (decoded → name), `tr` and any
`tr.<n>`-prefixed key (each occurrence advances an implicit tier counter starting at 0 ...),
`ws` (kept only if the decoded value is a valid URL), and `xt=urn:btih:<hash>`", and the
trackers of a magnet model are held by its owned announce list: the decoded value of a
tracker key goes through `tr_announce_list::add` with the counter as the tier asked for, and
the counter advances whether or not a record was added. The counter is a `tr_tracker_tier_t`
of `tier_bits` bits. The tests of the keys and the treatment of `dn`, `ws` and `xt` are also
those of the text of `parseMagnet` that `torrent-metainfo.cc` keeps under `#if 0`. -/
def parseMagnet_step (tier_bits : Nat) (parse : Str → Option tr_url_parsed_t)
    (lt : tracker_info → tracker_info → Bool) (ext : externals) (mext : magnet_externals)
    (st : magnet_loop_t) (kv : Str × Str) : magnet_loop_t :=
  let key := kv.1
  let value := kv.2
  if key = "dn".toList then
    { st with this := { st.this with name := mext.tr_urlPercentDecode value } }
  else if key = "tr".toList ∨ tr_strvStartsWith key "tr.".toList then
    -- "tr." explanation @ https://trac.transmissionbt.com/ticket/3341
    { st with
      this := { st.this with
        announce_list :=
          (add parse lt st.this.announce_list st.tier (mext.tr_urlPercentDecode value)).2 }
      tier := (st.tier + 1) % 2 ^ tier_bits }
  else if key = "ws".toList then
    let url_sv := ext.tr_strvStrip (mext.tr_urlPercentDecode value)
    if ext.tr_urlIsValid url_sv then
      { st with this := { st.this with webseed_urls := st.this.webseed_urls ++ [url_sv] } }
    else st
  else if key = "xt".toList then
    if tr_strvStartsWith value ValPrefix_ then
      let hash := value.drop ValPrefix_.length
      if hash.length = 40 then
        { st with this := { st.this with info_hash := tr_hex_to_sha1 hash }, got_checksum := true }
      else if hash.length = 32 then
        { st with
          this := { st.this with info_hash := (base32_to_sha1 hash).map Char.ofNat }
          got_checksum := true }
      else st
    else st
  else st

/-- Modelled from the spec: `parseMagnet(magnet_link, error)` of the magnet model (the
function compiled into the library is defined in `magnet-metainfo.cc`, which is not among the
translated sources): the link must parse as a URL of the scheme `magnet`, the pairs of its
query are treated in order, and "a magnet URI lacking a recognized `xt` hash fails the parse
entirely". Returns the flag and the object afterwards. -/
def parseMagnet (tier_bits : Nat) (parse : Str → Option tr_url_parsed_t)
    (lt : tracker_info → tracker_info → Bool) (ext : externals) (mext : magnet_externals)
    (this : magnet_t) (magnet_link : Str) : Bool × magnet_t :=
  match mext.tr_urlParse magnet_link with
  | none => (false, this)
  | some parsed =>
    if parsed.1 ≠ "magnet".toList then (false, this)
    else
      let st := (mext.tr_url_query_view parsed.2).foldl
        (parseMagnet_step tier_bits parse lt ext mext) ⟨this, 0, false⟩
      (st.got_checksum, st.this)

/-! ## The hash forms of the specification -/

/-- The hexadecimal digit of a value below 16, in lower case. -/
def hex_digit (v : Nat) : Char :=
  "0123456789abcdef".toList.getD v '0'

/-- The 40-character hex form of a digest: two lower-case hexadecimal digits for each
byte. -/
def hexForm (d : Str) : Str :=
  d.flatMap (fun c => [hex_digit (c.toNat / 16), hex_digit (c.toNat % 16)])

/-- The base32 alphabet of RFC 4648. -/
def base32Alphabet : Str := "ABCDEFGHIJKLMNOPQRSTUVWXYZ234567".toList

/-- The eight 5-bit groups of a block of five bytes, first bits first (RFC 4648). -/
def base32Group (b0 b1 b2 b3 b4 : Nat) : List Nat :=
  [b0 / 8, (b0 % 8) * 4 + b1 / 64, (b1 / 2) % 32, (b1 % 2) * 16 + b2 / 16,
    (b2 % 16) * 2 + b3 / 128, (b3 / 4) % 32, (b3 % 4) * 8 + b4 / 32, b4 % 32]

/-- The 5-bit groups of a byte string whose length is a multiple of five. -/
def base32Groups : List Nat → List Nat
  | b0 :: b1 :: b2 :: b3 :: b4 :: rest => base32Group b0 b1 b2 b3 b4 ++ base32Groups rest
  | _ => []

/-- The base32 form of a digest (RFC 4648 alphabet; 32 characters for 20 bytes). -/
def base32Form (d : Str) : Str :=
  (base32Groups (d.map Char.toNat)).map (fun v => base32Alphabet.getD v 'A')

/-- A digest: 20 bytes. -/
def IsDigest (d : Str) : Prop :=
  d.length = 20 ∧ ∀ c ∈ d, c.toNat < 256

instance (d : Str) : Decidable (IsDigest d) := by
  unfold IsDigest; infer_instance

/-! ## Sample data for the magnet link -/

/-- Percent-encoding of every character other than letters, digits and `-_.~`, as
`%` and two upper-case hexadecimal digits. -/
def samplePercentEncode (s : Str) : Str :=
  s.flatMap (fun c =>
    if c.isAlphanum ∨ c ∈ "-_.~".toList then [c]
    else ['%', "0123456789ABCDEF".toList.getD (c.toNat / 16) '0',
      "0123456789ABCDEF".toList.getD (c.toNat % 16) '0'])

/-- Percent-decoding: `%` and two hexadecimal digits give one character. -/
def samplePercentDecode : Str → Str
  | '%' :: hi :: lo :: rest =>
    Char.ofNat (hex_value hi * 16 + hex_value lo) :: samplePercentDecode rest
  | c :: rest => c :: samplePercentDecode rest
  | [] => []

/-- Stand-ins for the URL functions, used to run `parseMagnet` on concrete links: a link is
parsed when it starts with `magnet:?`, the query is split at `&` and each pair at its first
`=`, and values are percent-encoded and percent-decoded. -/
def sampleMagnetExternals : magnet_externals :=
  { tr_urlParse := fun s =>
      if "magnet:?".toList.isPrefixOf s then some ("magnet".toList, s.drop 8) else none
    tr_url_query_view := fun q =>
      (q.splitOn '&').map (fun kv => (kv.takeWhile (fun c => c != '='),
        (kv.dropWhile (fun c => c != '=')).drop 1))
    tr_urlPercentDecode := samplePercentDecode
    tr_http_escape := samplePercentEncode }

/-- A default-constructed magnet model; the id counter of the announce list starts at 0. -/
def emptyMagnet : magnet_t :=
  { info_hash := [], name := [], announce_list := ⟨[], 0⟩, webseed_urls := [] }

/-- The digest of the repository's magnet test, `d2354010a3ca4ade5b7427bb093a62a3899ff381`. -/
def testDigest : Str :=
  [210, 53, 64, 16, 163, 202, 74, 222, 91, 116, 39, 187, 9, 58, 98, 163, 137, 159, 243,
    129].map Char.ofNat

/-! ## Properties of a parsed magnet link -/

/-- A key/value pair of a magnet query that carries a recognized hash: the key `xt` and a
value that is `urn:btih:` followed by 40 or by 32 characters. -/
def RecognizedXt (kv : Str × Str) : Prop :=
  kv.1 = "xt".toList ∧ tr_strvStartsWith kv.2 ValPrefix_ = true ∧
    ((kv.2.drop ValPrefix_.length).length = 40 ∨ (kv.2.drop ValPrefix_.length).length = 32)

instance (kv : Str × Str) : Decidable (RecognizedXt kv) := by
  unfold RecognizedXt; infer_instance

/-- The link `UriHex` of the repository's magnet test. -/
def hexLink : Str :=
  ("magnet:?xt=urn:btih:d2354010a3ca4ade5b7427bb093a62a3899ff381&dn=Display%20Name" ++
    "&tr=http%3A%2F%2Ftracker.openbittorrent.com%2Fannounce" ++
    "&tr=http%3A%2F%2Ftracker.opentracker.org%2Fannounce" ++
    "&ws=http%3A%2F%2Fserver.webseed.org%2Fpath%2Fto%2Ffile").toList

/-- The link `UriBase32` of the repository's magnet test. -/
def base32Link : Str :=
  ("magnet:?xt=urn:btih:2I2UAEFDZJFN4W3UE65QSOTCUOEZ744B&dn=Display%20Name" ++
    "&tr=http%3A%2F%2Ftracker.openbittorrent.com%2Fannounce" ++
    "&ws=http%3A%2F%2Fserver.webseed.org%2Fpath%2Fto%2Ffile" ++
    "&tr=http%3A%2F%2Ftracker.opentracker.org%2Fannounce").toList

/-- A magnet link whose only `xt` value has a hash of 4 characters. -/
def shortHashLink : Str := "magnet:?xt=urn:btih:d235&dn=Display%20Name".toList

/-- The pairs of the test links other than `xt`, in the order of `UriHex`. -/
def testPairs : List (Str × Str) :=
  [("dn".toList, "Display%20Name".toList),
    ("tr".toList, "http%3A%2F%2Ftracker.openbittorrent.com%2Fannounce".toList),
    ("tr".toList, "http%3A%2F%2Ftracker.opentracker.org%2Fannounce".toList),
    ("ws".toList, "http%3A%2F%2Fserver.webseed.org%2Fpath%2Fto%2Ffile".toList)]

/-- The announce URLs of the trackers of a model, tier after tier. -/
def magnet_urls (tm : tr_torrent_metainfo) : List Str :=
  tm.tiers_.flatMap (fun tier => tier.map (fun torrent => torrent.1))

/-- The key/value pairs that `magnet` writes after `magnet:?`, in order: the hash, the name
when it is not empty, the trackers and the webseeds. -/
def magnet_pairs (tr_http_escape : Str → Str) (tm : tr_torrent_metainfo) : List (Str × Str) :=
  ("xt".toList, ValPrefix_ ++ tm.info_hash_chars_) ::
    ((if tm.name_.isEmpty then [] else [("dn".toList, tr_http_escape tm.name_)]) ++
      (magnet_urls tm).map (fun u => ("tr".toList, tr_http_escape u)) ++
      tm.webseed_urls_.map (fun w => ("ws".toList, tr_http_escape w)))

/-- The text of a query: `key=value` for each pair, with `&` between the pairs. -/
def query_text : List (Str × Str) → Str
  | [] => []
  | kv :: rest => kv.1 ++ '=' :: kv.2 ++ rest.flatMap (fun kv => '&' :: kv.1 ++ '=' :: kv.2)

/-- A model with the test digest, the name `Display Name` and one tier that holds the two
trackers `http://a/announce` and `http://b/announce`. -/
def twoInOneTier : tr_torrent_metainfo :=
  { emptyMetainfo with
    info_hash_ := testDigest
    info_hash_chars_ := hexForm testDigest
    name_ := "Display Name".toList
    tiers_ := [[(urlA, some "http://a/scrape".toList), (urlB, some "http://b/scrape".toList)]] }

/-! ## More properties of a sanitized component -/

/-- The characters that `appendSanitizedComponent` appends to `out` for the component `c`:
the buffer afterwards without its first `out.length` characters. -/
def appended (out c : Str) : Str :=
  (appendSanitizedComponent out c).out.drop out.length

/-- What an appended component is free of: none of `< > : " / \ | ? *` and no character
below 0x20 occurs in it, it does not begin with whitespace, it does not end with whitespace or
`.`, it is neither `.` nor `..`, and it holds no path separator. -/
def LegalComponent (a : Str) : Prop :=
  (∀ ch ∈ a, ch ∉ ['<', '>', ':', '"', '/', '\\', '|', '?', '*'] ∧ 0x20 ≤ ch.toNat) ∧
    (∀ ch, a.head? = some ch → isspace ch = false) ∧
    (∀ ch, a.getLast? = some ch → isspace ch = false ∧ ch ≠ '.') ∧
    a ≠ ".".toList ∧ a ≠ "..".toList ∧ '/' ∉ a ∧ '\\' ∉ a

/-- A path component made of whitespace and dots only. -/
def dotsAndSpaces : Str := " \t .. . ".toList

/-! ## Tiers along an announce list -/

/-- A comparison of records that orders by tier first: a record of a smaller tier is below,
a record of a greater tier is not. -/
def TierFirst (lt : tracker_info → tracker_info → Bool) : Prop :=
  ∀ a b : tracker_info, (a.tier < b.tier → lt a b = true) ∧ (b.tier < a.tier → lt a b = false)

/-- The tier values do not decrease along the records. -/
def TiersAscend (xs : List tracker_info) : Prop :=
  xs.Pairwise (fun a b => a.tier ≤ b.tier)

/-! ## The magnet text and the trackers of a magnet link -/

/-- The magnet text as the specification words it: `magnet:?xt=urn:btih:` and the hex info
hash, then `&dn=` and the escaped name if the name is not empty, then `&tr=` and the escaped
announce URL for each tracker, tier after tier, then `&ws=` and the escaped URL for each
webseed. -/
def magnetReference (escape : Str → Str) (hex name : Str) (trackers : List (List Str))
    (webseeds : List Str) : Str :=
  "magnet:?xt=urn:btih:".toList ++ hex ++
    (if name = [] then [] else "&dn=".toList ++ escape name) ++
    trackers.flatMap (fun tier => tier.flatMap (fun url => "&tr=".toList ++ escape url)) ++
    webseeds.flatMap (fun url => "&ws=".toList ++ escape url)

/-- The test of `parseMagnet` for a tracker key: `tr`, or a key that starts with `tr.`. -/
def is_tr_key (key : Str) : Bool :=
  key == "tr".toList || tr_strvStartsWith key "tr.".toList

/-- The decoded values of the pairs of a query with a tracker key, in order. -/
def tr_values (mext : magnet_externals) (kvs : List (Str × Str)) : List Str :=
  (kvs.filter (fun kv => is_tr_key kv.1)).map (fun kv => mext.tr_urlPercentDecode kv.2)

/-- The announce list that `add` builds from `L` when the URLs are added in order, the one
at position `k` (counted from `n`) with `k` as the tier asked for, taken modulo
`2 ^ tier_bits`. -/
def add_by_occurrence (tier_bits : Nat) (parse : Str → Option tr_url_parsed_t)
    (lt : tracker_info → tracker_info → Bool) (L : tr_announce_list) (n : Nat)
    (urls : List Str) : tr_announce_list :=
  (urls.enumFrom n).foldl (fun acc p => (add parse lt acc (p.1 % 2 ^ tier_bits) p.2).2) L

/-- Every URL of the list is a tracker URL, and no two of them (at different positions) have
the same host and path. -/
def EachItsOwnHostPath (parse : Str → Option tr_url_parsed_t) (urls : List Str) : Prop :=
  (∀ u ∈ urls, (parse u).isSome = true) ∧
    urls.Pairwise (fun u v => ∀ a ∈ parse u, ∀ b ∈ parse v, ¬ same_host_path a b)

instance (parse : Str → Option tr_url_parsed_t) (urls : List Str) :
    Decidable (EachItsOwnHostPath parse urls) := by
  unfold EachItsOwnHostPath; infer_instance

/-- The scrape fields of every record are derived from its announce string. -/
def ScrapeDerived (parse : Str → Option tr_url_parsed_t) (xs : List tracker_info) : Prop :=
  ∀ r ∈ xs, r.scrape_str = (announceToScrape r.announce_str).getD [] ∧
    r.scrape = (announceToScrape r.announce_str).bind parse

/-- What each URL of the list does when the URLs are added to `L` in order, the one at
position `k` with `k` as the tier asked for: a URL that is not a tracker URL, or that names
the endpoint of a record held at that point, leaves the list as it is; any other URL adds one
record, with that URL as its announce string, among the records held at that point, which
keep their order, and the tier of the new record follows the tier rule of `add`, with `k` as
the tier asked for. -/
def AddedInTurn (tier_bits : Nat) (parse : Str → Option tr_url_parsed_t)
    (lt : tracker_info → tracker_info → Bool) (L : tr_announce_list) (urls : List Str) :
    Prop :=
  ∀ (pre post : List Str) (u : Str), urls = pre ++ u :: post →
    ((parse u = none ∨ ∃ a, parse u = some a ∧
          ∃ r ∈ (add_by_occurrence tier_bits parse lt L 0 pre).trackers_,
            same_endpoint r.announce a) →
        add_by_occurrence tier_bits parse lt L 0 (pre ++ [u])
          = add_by_occurrence tier_bits parse lt L 0 pre) ∧
      ∀ a, parse u = some a →
        (∀ r ∈ (add_by_occurrence tier_bits parse lt L 0 pre).trackers_,
          ¬ same_endpoint r.announce a) →
        ∃ (new : tracker_info) (before after : List tracker_info),
          (add_by_occurrence tier_bits parse lt L 0 pre).trackers_ = before ++ after ∧
            (add_by_occurrence tier_bits parse lt L 0 (pre ++ [u])).trackers_
              = before ++ new :: after ∧
            new.announce_str = u ∧ new.announce = a ∧
            TierResolved (add_by_occurrence tier_bits parse lt L 0 pre).trackers_ a
              (pre.length % 2 ^ tier_bits) new.tier

/-- The announce string and the tier of each record, in list order. -/
def urls_and_tiers (L : tr_announce_list) : List (Str × Nat) :=
  L.trackers_.map (fun r => (r.announce_str, r.tier))

/-- What `parseMagnet` leaves in the announce list of `this` for a link whose query has the
pairs `kvs`: the list that `add` builds from the one of `this` when the decoded values of the
tracker keys are added in order, the value number `k` with `k` as the tier asked for, each
value doing what `AddedInTurn` says; the scrape fields of the records are derived from their
announce strings; and, for a comparison of records that orders by tier first and an object
without trackers, when the values are tracker URLs no two of which have the same host and
path, and they are not more than the tier type has values, the records are these URLs in
order, the one number `k` alone in tier `k`. -/
def TrackersByOccurrence (tier_bits : Nat) (parse : Str → Option tr_url_parsed_t)
    (lt : tracker_info → tracker_info → Bool) (mext : magnet_externals)
    (kvs : List (Str × Str)) (this : magnet_t) (res : magnet_t) : Prop :=
  res.announce_list
      = add_by_occurrence tier_bits parse lt this.announce_list 0 (tr_values mext kvs) ∧
    AddedInTurn tier_bits parse lt this.announce_list (tr_values mext kvs) ∧
    (ScrapeDerived parse this.announce_list.trackers_ →
      ScrapeDerived parse res.announce_list.trackers_) ∧
    (TierFirst lt → this.announce_list.trackers_ = [] →
      EachItsOwnHostPath parse (tr_values mext kvs) →
      (tr_values mext kvs).length ≤ 2 ^ tier_bits →
      urls_and_tiers res.announce_list = (tr_values mext kvs).enum.map (fun p => (p.2, p.1)))

/-- What parsing the link built from the model `tm` gives: the flag is true, the info hash
and the name are those of `tm`, and the announce list is the one that `add` builds from the
empty list when the announce URLs of `tm` are added in order, tier after tier, the URL
number `k` with `k` as the tier asked for, each URL doing what `AddedInTurn` says. For a
comparison of records that orders by tier first, when the URLs are tracker URLs no two of
which have the same host and path, and they are not more than the tier type has values, the
records are these URLs in order, the one number `k` alone in tier `k`; if moreover every tier
of `tm` holds exactly one tracker, the records of tier `k` are the trackers of the tier
number `k` of `tm`. -/
def MagnetRoundTrip (tier_bits : Nat) (parse : Str → Option tr_url_parsed_t)
    (lt : tracker_info → tracker_info → Bool) (tm : tr_torrent_metainfo)
    (res : Bool × magnet_t) : Prop :=
  res.1 = true ∧ res.2.info_hash = tm.info_hash_ ∧ res.2.name = tm.name_ ∧
    res.2.announce_list = add_by_occurrence tier_bits parse lt ⟨[], 0⟩ 0 (magnet_urls tm) ∧
    AddedInTurn tier_bits parse lt ⟨[], 0⟩ (magnet_urls tm) ∧
    (TierFirst lt → EachItsOwnHostPath parse (magnet_urls tm) →
      (magnet_urls tm).length ≤ 2 ^ tier_bits →
      urls_and_tiers res.2.announce_list = (magnet_urls tm).enum.map (fun p => (p.2, p.1)) ∧
        ((∀ tier ∈ tm.tiers_, tier.length = 1) →
          ∀ k, urls_of_tier res.2.announce_list.trackers_ k
            = ((tm.tiers_.map (fun tier => tier.map (fun torrent => torrent.1))).getD k [])))

/-- A model with the test digest and the two tiers `http://a/announce` and
`https://a/announce`, one tracker each. -/
def siblingTiers : tr_torrent_metainfo :=
  { emptyMetainfo with
    info_hash_ := testDigest
    info_hash_chars_ := hexForm testDigest
    tiers_ := [[(urlA, some "http://a/scrape".toList)],
      [(urlAs, some "https://a/scrape".toList)]] }

/-- A model with the test digest and the two tiers `http://a/announce` and
`http://b/announce`, one tracker each. -/
def twoTiers : tr_torrent_metainfo :=
  { emptyMetainfo with
    info_hash_ := testDigest
    info_hash_chars_ := hexForm testDigest
    tiers_ := [[(urlA, some "http://a/scrape".toList)],
      [(urlB, some "http://b/scrape".toList)]] }

/-- A magnet link with three tracker keys: `http://a/announce`, then `https://a/announce`,
which has the host and path of the first, then `http://a/announce` again. -/
def siblingLink : Str :=
  ("magnet:?xt=urn:btih:d2354010a3ca4ade5b7427bb093a62a3899ff381" ++
    "&tr=http%3A%2F%2Fa%2Fannounce&tr=https%3A%2F%2Fa%2Fannounce" ++
    "&tr=http%3A%2F%2Fa%2Fannounce").toList

/-- A stand-in for `tr_urlParseTracker` on concrete inputs: it accepts
`scheme://host/path` and `scheme://host:port/path` for the schemes `http` and `https`, with
the port 80 or 443 when none is written. -/
def sampleUrlParse (url : Str) : Option tr_url_parsed_t :=
  let scheme := url.takeWhile (fun c => c != ':')
  let rest := url.drop scheme.length
  if !"://".toList.isPrefixOf rest then none
  else
    let rest := rest.drop 3
    let authority := rest.takeWhile (fun c => c != '/')
    let path := rest.drop authority.length
    let host := authority.takeWhile (fun c => c != ':')
    let written := (authority.drop host.length).drop 1
    let portstr :=
      if written = [] then (if scheme = "https".toList then "443".toList else "80".toList)
      else written
    if (scheme = "http".toList ∨ scheme = "https".toList) ∧ host ≠ [] ∧
        portstr.all Char.isDigit = true then
      some ⟨scheme, host, path, portstr,
        portstr.foldl (fun n c => 10 * n + (c.toNat - '0'.toNat)) 0, url⟩
    else none

/-- The two trackers that the repository's magnet test expects, in tiers 0 and 1: the tier,
the announce URL and the scrape URL of each. -/
def testTrackers : List (Nat × Str × Option Str) :=
  [(0, "http://tracker.openbittorrent.com/announce".toList,
      some "http://tracker.openbittorrent.com/scrape".toList),
    (1, "http://tracker.opentracker.org/announce".toList,
      some "http://tracker.opentracker.org/scrape".toList)]

/-- The tier, the announce URL and the scrape URL of each record, as the magnet test reads
them (`it->tier`, `it->announce.full`, `it->scrape.full`). -/
def tracker_view (L : tr_announce_list) : List (Nat × Str × Option Str) :=
  L.trackers_.map (fun r => (r.tier, r.announce.full, r.scrape.map (fun u => u.full)))

/-! ## Properties of the parsed files and webseeds -/

/-- The URLs of `url-list` that `parseWebseeds` keeps, before `fixWebseedUrl`: the valid
strings of the list, or the single valid string. -/
def webseed_candidates (ext : externals) (top : tr_variant) : List Str :=
  match tr_variantDictFindList top TR_KEY_url_list with
  | some urls =>
    (tr_variantListChildren urls).filterMap (fun child =>
      match tr_variantGetStrView (some child) with
      | some url => if ext.tr_urlIsValid url then some url else none
      | none => none)
  | none =>
    match tr_variantDictFindStrView top TR_KEY_url_list with
    | some url => if ext.tr_urlIsValid url then [url] else []
    | none => []

/-- The decoded form of a torrent in the `files` layout with one file `a` of 3 bytes in the
directory `n`, `piece length` 2, two digests and the webseed `http://w`. -/
def oneFileListTorrent : tr_variant :=
  .dict [entry "info" (.dict [
      entry "files" (.list [
        .dict [entry "length" (.int ⟨3, by decide⟩), entry "path" (.list [.str "a".toList])]]),
      entry "name" (.str "n".toList),
      entry "piece length" (.int ⟨2, by decide⟩),
      entry "pieces" (.str (List.replicate 40 'x'))]),
    entry "url-list" (.str "http://w".toList)]

/-- The info dictionary of a torrent with `length` -1 and also a `files` list. -/
def negativeSingleFile : tr_variant :=
  .dict [entry "files" (.list []), entry "length" (.int ⟨-1, by decide⟩),
    entry "name" (.str "n".toList)]

/-- What the webseeds of a parsed torrent `tm` are, for the top-level dictionary `top`: the
kept URLs passed through `fixWebseedUrl`; with more than one file every webseed is empty or
ends with `/`; with one file the webseeds are the stripped kept URLs; a torrent with the
`length` key has one file, and one in the `files` layout has as many files as `files` has
entries. -/
def WebseedsFixed (ext : externals) (top : tr_variant) (tm : tr_torrent_metainfo) : Prop :=
  tm.webseed_urls_ = (webseed_candidates ext top).map (fixWebseedUrl ext tm) ∧
    (1 < tm.files_.length → ∀ w ∈ tm.webseed_urls_, w = [] ∨ w.getLast? = some '/') ∧
    (tm.files_.length ≤ 1 →
      tm.webseed_urls_ = (webseed_candidates ext top).map ext.tr_strvStrip) ∧
    ∀ info_dict, tr_variantDictFindDict top TR_KEY_info = some info_dict →
      ((∃ len, tr_variantDictFindInt info_dict TR_KEY_length = some len) →
        tm.files_.length = 1) ∧
      ∀ entries, tr_variantDictFindInt info_dict TR_KEY_length = none →
        tr_variantDictFindList info_dict TR_KEY_files = some entries →
        tm.files_.length = (tr_variantListChildren entries).length

/-- The decoded form of a torrent in the `files` layout with the files `a` (1 byte) and `b`
(2 bytes) in the directory `n`, `piece length` 2, two digests and the webseeds `http://w`
and `http://v/`. -/
def twoFileTorrent : tr_variant :=
  .dict [entry "info" (.dict [
      entry "files" (.list [
        .dict [entry "length" (.int ⟨1, by decide⟩), entry "path" (.list [.str "a".toList])],
        .dict [entry "length" (.int ⟨2, by decide⟩), entry "path" (.list [.str "b".toList])]]),
      entry "name" (.str "n".toList),
      entry "piece length" (.int ⟨2, by decide⟩),
      entry "pieces" (.str (List.replicate 40 'x'))]),
    entry "url-list" (.list [.str "http://w".toList, .str "http://v/".toList])]

/-! ## Properties of the parsed announce tiers -/

/-- The tracker URLs that announce parsing keeps of the children of one tier: the strings
that, stripped, are valid tracker URLs, stripped and in input order. -/
def kept_tracker_urls (ext : externals) (children : List tr_variant) : List Str :=
  children.filterMap (fun child =>
    match tr_variantGetStrView (some child) with
    | some url =>
      if ext.tr_urlIsValidTracker (ext.tr_strvStrip url) then some (ext.tr_strvStrip url)
      else none
    | none => none)

/-- The tiers of the specification for a metainfo dictionary, as lists of URLs: the tiers
of `announce-list` in input order, each reduced to its kept URLs, without the tiers left
empty; when that gives no tier, the one tier holding the stripped `announce`, if it is a
valid tracker URL; no tier otherwise. -/
def announceReference (ext : externals) (top : tr_variant) : List (List Str) :=
  let from_list : List (List Str) :=
    match tr_variantDictFindList top TR_KEY_announce_list with
    | some tiers =>
      ((tr_variantListChildren tiers).map
        (fun tier_v => kept_tracker_urls ext (tr_variantListChildren tier_v))).filter
        (fun urls => !urls.isEmpty)
    | none => []
  if from_list.isEmpty then
    match tr_variantDictFindStrView top TR_KEY_announce with
    | some url =>
      if ext.tr_urlIsValidTracker (ext.tr_strvStrip url) then [[ext.tr_strvStrip url]] else []
    | none => []
  else from_list

/-- A tier of the parsed torrent holds exactly the URLs `urls`: it is not empty, and its
announce URLs are the members of `urls`. -/
def HoldsUrls (tier : List tier_entry) (urls : List Str) : Prop :=
  tier ≠ [] ∧ ∀ u, (∃ e ∈ tier, e.1 = u) ↔ u ∈ urls

/-- The contract of `tier_t::emplace` that announce parsing relies on: afterwards the tier
holds what it held and the new tracker. -/
def EmplaceAdds (emplace : List tier_entry → tier_entry → List tier_entry) : Prop :=
  ∀ (t : List tier_entry) (e x : tier_entry), x ∈ emplace t e ↔ x ∈ t ∨ x = e

/-- The decoded form of a metainfo dictionary with three tiers in `announce-list`: one with
`http://a/announce` (with blanks around it) and a string that is not kept, one with an
integer only, one with `http://b/announce`; and the singular `announce` `http://c/announce`. -/
def threeTierTorrent : tr_variant :=
  .dict [entry "announce" (.str "http://c/announce".toList),
    entry "announce-list" (.list [
      .list [.str " http://a/announce ".toList, .str "junk".toList],
      .list [.int ⟨7, by decide⟩],
      .list [.str "http://b/announce".toList]])]

/-- Stand-ins for the external functions as in `sampleExternals`, with a `tr_strvStrip` that
removes blanks at both ends and a tracker URL test that asks for `http://` at the start. -/
def strippingExternals : externals :=
  { sampleExternals with
    tr_strvStrip := fun s => (s.dropWhile (fun c => c == ' ')).rdropWhile (fun c => c == ' ')
    tr_urlIsValidTracker := fun s => "http://".toList.isPrefixOf s }

/-! ## Sample data for the offsets -/

/-- The decimal digits of a natural number. -/
def decimal (n : Nat) : Str := (Nat.repr n).toList

/-- The bencoding of an integer (`i`, the digits, `e`) and of a string (the length, `:`,
the characters); no text for a list or a dictionary. -/
def sampleBencodeLeaf : tr_variant → Str
  | .int i =>
    'i' :: (if i.val < 0 then '-' :: decimal i.val.natAbs else decimal i.val.natAbs) ++ ['e']
  | .str s => decimal s.length ++ ':' :: s
  | _ => []

/-- A stand-in for `tr_variantToStr` with `TR_VARIANT_FMT_BENC`, for dictionaries whose keys
are in order and whose children are integers and strings: `d`, each key and child, `e`. -/
def sampleBencode : tr_variant → Str
  | .dict d =>
    'd' :: d.flatMap (fun kv => sampleBencodeLeaf (.str kv.1) ++ sampleBencodeLeaf kv.2) ++ ['e']
  | v => sampleBencodeLeaf v

/-- The stand-ins of `sampleExternals` with the bencoder as `tr_variantToStr`. -/
def bencodingExternals : externals :=
  { sampleExternals with tr_variantToStr := sampleBencode }

/-- The info dictionary of a single-file torrent whose name is `6:pieces`: `length` 3,
`piece length` 2 and two digests. -/
def piecesInNameInfo : tr_variant :=
  .dict [entry "length" (.int ⟨3, by decide⟩), entry "name" (.str "6:pieces".toList),
    entry "piece length" (.int ⟨2, by decide⟩), entry "pieces" (.str (List.replicate 40 'x'))]

/-- The decoded form of the torrent with the info dictionary `piecesInNameInfo`. -/
def piecesInNameTorrent : tr_variant :=
  .dict [entry "info" piecesInNameInfo]

/-- The bencoded input of `piecesInNameTorrent`:
`d4:infod6:lengthi3e4:name8:6:pieces12:piece lengthi2e6:pieces40:` then forty `x` and `ee`. -/
def piecesInNameBenc : Str :=
  "d4:info".toList ++ sampleBencode piecesInNameInfo ++ ['e']

/-! ## Properties of the two scrape derivations and of replace -/

/-- The contract of `tr_buildBuf` (declared in `utils.h`) under which the two scrape
derivations give the same string: the buffer afterwards is the pieces joined, whatever it
held before. -/
def BuildsJoin (buildBuf : Str → List Str → Str) : Prop :=
  ∀ (out : Str) (parts : List Str), buildBuf out parts = parts.flatten

/-- Every record of the list holds the parse of its own announce string. -/
def ParsedFromOwnUrl (parse : Str → Option tr_url_parsed_t) (s : tr_announce_list) : Prop :=
  ∀ r ∈ s.trackers_, parse r.announce_str = some r.announce

/-- The three conditions of the specification for a `replace(id, newUrl)`: `newUrl` is a
valid tracker URL, no record of the list matches it on scheme, host, port and path, and a
record with the id exists. -/
def CanReplace (parse : Str → Option tr_url_parsed_t) (L : tr_announce_list) (id : Nat)
    (newUrl : Str) : Prop :=
  ∃ a, parse newUrl = some a ∧ (∀ r ∈ L.trackers_, ¬ same_endpoint r.announce a) ∧
    ∃ r ∈ L.trackers_, r.id = id

/-! ## Lemmas: announce list -/

theorem is_same_iff (a : tr_url_parsed_t) (t : tracker_info) :
    is_same a t = true ↔ same_endpoint t.announce a := by
  simp [is_same, same_endpoint, and_assoc]

theorem canAdd_iff (s : tr_announce_list) (a : tr_url_parsed_t) :
    canAdd s a = true ↔ ∀ t ∈ s.trackers_, ¬ same_endpoint t.announce a := by
  simp [canAdd, List.all_eq_true, ← is_same_iff]

theorem pairwise_vector_insert {α : Type} {R : α → α → Prop} (xs : List α) (k : Nat) (v : α)
    (hxs : xs.Pairwise R) (hl : ∀ x ∈ xs.take k, R x v) (hr : ∀ x ∈ xs.drop k, R v x) :
    (vector_insert xs k v).Pairwise R := by
  have hsplit : (xs.take k ++ xs.drop k).Pairwise R := by rwa [List.take_append_drop]
  rw [List.pairwise_append] at hsplit
  obtain ⟨h1, h2, h3⟩ := hsplit
  unfold vector_insert
  rw [List.pairwise_append]
  refine ⟨h1, List.pairwise_cons.mpr ⟨hr, h2⟩, ?_⟩
  intro a ha b hb
  rcases List.mem_cons.mp hb with rfl | hb
  · exact hl a ha
  · exact h3 a ha b hb

theorem add_fst_false_snd (parse : Str → Option tr_url_parsed_t)
    (lt : tracker_info → tracker_info → Bool) (s : tr_announce_list) (t : Nat) (url : Str)
    (h : (add parse lt s t url).1 = false) : (add parse lt s t url).2 = s := by
  unfold add at h ⊢
  cases hp : parse url with
  | none => simp
  | some a =>
    simp only [hp] at h ⊢
    by_cases hc : canAdd s a = true
    · simp [hc] at h
    · simp [hc]

section
variable (parse : Str → Option tr_url_parsed_t) (lt : tracker_info → tracker_info → Bool)

theorem add_noDuplicate (s : tr_announce_list) (t : Nat) (url : Str)
    (h : NoDuplicate s.trackers_) : NoDuplicate (add parse lt s t url).2.trackers_ := by
  unfold add
  cases hp : parse url with
  | none => simpa using h
  | some a =>
    by_cases hc : canAdd s a = true
    · simp only [hc, Bool.not_true, Bool.false_eq_true, if_false]
      rw [canAdd_iff] at hc
      apply pairwise_vector_insert _ _ _ h
      · intro x hx
        exact hc x (List.mem_of_mem_take hx)
      · intro x hx hsame
        apply hc x (List.mem_of_mem_drop hx)
        obtain ⟨h1, h2, h3, h4⟩ := hsame
        exact ⟨h1.symm, h2.symm, h3.symm, h4.symm⟩
    · simpa [hc] using h

theorem eraseIdx_noDuplicate (xs : List tracker_info) (k : Nat) (h : NoDuplicate xs) :
    NoDuplicate (xs.eraseIdx k) :=
  List.Pairwise.sublist (List.eraseIdx_sublist xs k) h

theorem foldl_add_noDuplicate (entries : List (Nat × Str)) (s : tr_announce_list)
    (h : NoDuplicate s.trackers_) :
    NoDuplicate (entries.foldl (fun acc e => (add parse lt acc e.1 e.2).2) s).trackers_ := by
  induction entries generalizing s with
  | nil => simpa using h
  | cons e es ih =>
    simp only [List.foldl_cons]
    exact ih _ (add_noDuplicate parse lt s e.1 e.2 h)

theorem replace_noDuplicate (s : tr_announce_list) (id : Nat) (url : Str)
    (h : NoDuplicate s.trackers_) : NoDuplicate (replace parse lt s id url).2.trackers_ := by
  unfold replace
  cases hp : parse url with
  | none => simpa using h
  | some a =>
    by_cases hc : canAdd s a = true
    · simp only [hc, Bool.not_true, Bool.false_eq_true, if_false]
      by_cases hi : find_id s id < s.trackers_.length
      · simp only [hi, dite_true]
        exact add_noDuplicate parse lt _ _ _ (eraseIdx_noDuplicate _ _ h)
      · simpa [hi] using h
    · simpa [hc] using h

theorem reachable_noDuplicate (s : tr_announce_list) (h : Reachable parse lt s) :
    NoDuplicate s.trackers_ := by
  induction h with
  | empty n => exact List.Pairwise.nil
  | other_id s _ ih => exact ih
  | add s t url _ ih => exact add_noDuplicate parse lt s t url ih
  | set s entries _ ih =>
    exact foldl_add_noDuplicate parse lt entries _ List.Pairwise.nil
  | remove_url s url _ ih =>
    unfold remove_url
    by_cases hi : find_url s url = s.trackers_.length
    · simpa [hi] using ih
    · simpa [hi] using eraseIdx_noDuplicate _ _ ih
  | remove_id s id _ ih =>
    unfold remove_id
    by_cases hi : find_id s id = s.trackers_.length
    · simpa [hi] using ih
    · simpa [hi] using eraseIdx_noDuplicate _ _ ih
  | replace s id url _ ih => exact replace_noDuplicate parse lt s id url ih

end

section
variable (parse : Str → Option tr_url_parsed_t) (lt : tracker_info → tracker_info → Bool)

theorem canAdd_eraseIdx (s : tr_announce_list) (a : tr_url_parsed_t) (k : Nat)
    (h : canAdd s a = true) :
    canAdd { s with trackers_ := s.trackers_.eraseIdx k } a = true := by
  rw [canAdd_iff] at h ⊢
  intro t ht
  exact h t ((List.eraseIdx_sublist _ _).subset ht)

theorem add_fst_true (s : tr_announce_list) (t : Nat) (url : Str) (a : tr_url_parsed_t)
    (hp : parse url = some a) (hc : canAdd s a = true) : (add parse lt s t url).1 = true := by
  simp [add, hp, hc]

theorem replace_fst_false_snd (s : tr_announce_list) (id : Nat) (url : Str)
    (h : (replace parse lt s id url).1 = false) : (replace parse lt s id url).2 = s := by
  unfold replace at h ⊢
  cases hp : parse url with
  | none => simp
  | some a =>
    simp only [hp] at h ⊢
    by_cases hc : canAdd s a = true
    · simp only [hc, Bool.not_true, Bool.false_eq_true, if_false] at h ⊢
      by_cases hi : find_id s id < s.trackers_.length
      · simp only [hi, dite_true] at h
        rw [add_fst_true parse lt _ _ url a hp (canAdd_eraseIdx s a _ hc)] at h
        exact absurd h (by decide)
      · simp [hi]
    · simp [hc]
end

theorem tracker_info.lt_iff (a b : tracker_info) : tracker_info.lt a b = true ↔ keyLt a b := by
  simp [tracker_info.lt, keyLt]

theorem lower_bound_split (xs : List tracker_info) (v : tracker_info)
    (hs : xs.Pairwise keyLt) (hid : ∀ r ∈ xs, r.id < v.id) :
    (∀ x ∈ xs.take (lower_bound tracker_info.lt xs v), x.tier ≤ v.tier) ∧
      (∀ x ∈ xs.drop (lower_bound tracker_info.lt xs v), v.tier < x.tier) := by
  induction xs with
  | nil => simp [lower_bound]
  | cons b l ih =>
    rw [List.pairwise_cons] at hs
    have hb : b.id < v.id := hid b (List.mem_cons_self _ _)
    have ih2 := ih hs.2 (fun r hr => hid r (List.mem_cons_of_mem _ hr))
    unfold lower_bound at ih2 ⊢
    rw [List.findIdx_cons]
    by_cases hlt : tracker_info.lt b v = true
    · have hle : b.tier ≤ v.tier := by
        rcases (tracker_info.lt_iff b v).mp hlt with h | h
        · exact Nat.le_of_lt h
        · exact Nat.le_of_eq h.1
      simp only [hlt, Bool.not_true, cond_false, List.take_succ_cons, List.drop_succ_cons]
      refine ⟨?_, ih2.2⟩
      intro x hx
      rcases List.mem_cons.mp hx with rfl | hx
      · exact hle
      · exact ih2.1 x hx
    · have hgt : v.tier < b.tier := by
        by_contra hcon
        apply hlt
        rw [tracker_info.lt_iff]
        rcases Nat.lt_or_eq_of_le (Nat.le_of_not_lt hcon) with h | h
        · exact Or.inl h
        · exact Or.inr ⟨h, hb⟩
      simp only [hlt, Bool.not_false, cond_true, List.take_zero, List.drop_zero]
      refine ⟨by simp, ?_⟩
      intro x hx
      rcases List.mem_cons.mp hx with rfl | hx
      · exact hgt
      · rcases hs.1 x hx with h | h
        · exact Nat.lt_trans hgt h
        · exact h.1 ▸ hgt

section
variable (parse : Str → Option tr_url_parsed_t)

theorem add_ordered (s : tr_announce_list) (t : Nat) (url : Str) (h : Ordered s) :
    Ordered (add parse tracker_info.lt s t url).2 := by
  unfold add
  cases hp : parse url with
  | none => simpa using h
  | some a =>
    by_cases hc : canAdd s a = true
    · simp only [hc, Bool.not_true, Bool.false_eq_true, if_false]
      obtain ⟨hs, hid⟩ := h
      have hvid : (new_tracker parse s t url a).id = s.id := rfl
      generalize new_tracker parse s t url a = v at hvid ⊢
      have hsplit := lower_bound_split s.trackers_ v hs (fun r hr => hvid ▸ hid r hr)
      constructor
      · apply pairwise_vector_insert _ _ _ hs
        · intro x hx
          rcases Nat.lt_or_eq_of_le (hsplit.1 x hx) with h1 | h1
          · exact Or.inl h1
          · exact Or.inr ⟨h1, hvid ▸ hid x (List.mem_of_mem_take hx)⟩
        · intro x hx
          exact Or.inl (hsplit.2 x hx)
      · intro r hr
        simp only [vector_insert, List.mem_append, List.mem_cons] at hr
        rcases hr with hr | rfl | hr
        · exact Nat.lt_succ_of_lt (hid r (List.mem_of_mem_take hr))
        · rw [hvid]; exact Nat.lt_succ_self _
        · exact Nat.lt_succ_of_lt (hid r (List.mem_of_mem_drop hr))
    · simpa [hc] using h

theorem add_inserted (s : tr_announce_list) (t : Nat) (url : Str) (h : Ordered s)
    (hok : (add parse tracker_info.lt s t url).1 = true) :
    InsertedAfterItsTier s (add parse tracker_info.lt s t url).2 url := by
  unfold add at hok ⊢
  cases hp : parse url with
  | none => simp [hp] at hok
  | some a =>
    by_cases hc : canAdd s a = true
    · simp only [hc, Bool.not_true, Bool.false_eq_true, if_false]
      obtain ⟨hs, hid⟩ := h
      have hvid : (new_tracker parse s t url a).id = s.id := rfl
      have hvurl : (new_tracker parse s t url a).announce_str = url := rfl
      generalize new_tracker parse s t url a = v at hvid hvurl ⊢
      have hsplit := lower_bound_split s.trackers_ v hs (fun r hr => hvid ▸ hid r hr)
      exact ⟨_, _, v, (List.take_append_drop _ _).symm, rfl, hvid, hvurl, hsplit.1, hsplit.2⟩
    · simp [hp, hc] at hok

theorem eraseIdx_ordered (s : tr_announce_list) (k : Nat) (h : Ordered s) :
    Ordered { s with trackers_ := s.trackers_.eraseIdx k } :=
  ⟨List.Pairwise.sublist (List.eraseIdx_sublist _ _) h.1,
    fun r hr => h.2 r ((List.eraseIdx_sublist _ _).subset hr)⟩

theorem foldl_add_ordered (entries : List (Nat × Str)) (s : tr_announce_list) (h : Ordered s) :
    Ordered (entries.foldl (fun acc e => (add parse tracker_info.lt acc e.1 e.2).2) s) := by
  induction entries generalizing s with
  | nil => simpa using h
  | cons e es ih =>
    simp only [List.foldl_cons]
    exact ih _ (add_ordered parse s e.1 e.2 h)

theorem replace_ordered (s : tr_announce_list) (id : Nat) (url : Str) (h : Ordered s) :
    Ordered (replace parse tracker_info.lt s id url).2 := by
  unfold replace
  cases hp : parse url with
  | none => simpa using h
  | some a =>
    by_cases hc : canAdd s a = true
    · simp only [hc, Bool.not_true, Bool.false_eq_true, if_false]
      by_cases hi : find_id s id < s.trackers_.length
      · simp only [hi, dite_true]
        exact add_ordered parse _ _ _ (eraseIdx_ordered s _ h)
      · simpa [hi] using h
    · simpa [hc] using h

theorem reachable_ordered (s : tr_announce_list) (h : Reachable parse tracker_info.lt s) :
    Ordered s := by
  induction h with
  | empty n => exact ⟨List.Pairwise.nil, by simp⟩
  | other_id s _ ih => exact ⟨ih.1, fun r hr => Nat.lt_succ_of_lt (ih.2 r hr)⟩
  | add s t url _ ih => exact add_ordered parse s t url ih
  | set s entries _ ih =>
    exact foldl_add_ordered parse entries _ ⟨List.Pairwise.nil, by simp⟩
  | remove_url s url _ ih =>
    unfold remove_url
    by_cases hi : find_url s url = s.trackers_.length
    · simpa [hi] using ih
    · simpa [hi] using eraseIdx_ordered s _ ih
  | remove_id s id _ ih =>
    unfold remove_id
    by_cases hi : find_id s id = s.trackers_.length
    · simpa [hi] using ih
    · simpa [hi] using eraseIdx_ordered s _ ih
  | replace s id url _ ih => exact replace_ordered parse s id url ih

end

/-! ## Lemmas: scrape derivation -/

theorem sv_rfindAux_cons (x : Char) (xs : Str) (c : Char) (n : Nat) :
    sv_rfindAux (x :: xs) c (n + 1) =
      match sv_rfindAux xs c n with
      | some i => some (i + 1)
      | none => if x = c then some 0 else none := by
  induction n with
  | zero => simp [sv_rfindAux]
  | succ n ih =>
    rw [sv_rfindAux, ih]
    simp only [List.getElem?_cons_succ]
    by_cases h : xs[n]? = some c
    · simp [sv_rfindAux, h]
    · simp [sv_rfindAux, h]

theorem sv_rfind_eq_lastIndexOf (s : Str) (c : Char) : sv_rfind s c = lastIndexOf c s := by
  induction s with
  | nil => rfl
  | cons x xs ih =>
    unfold sv_rfind at ih ⊢
    rw [List.length_cons, sv_rfindAux_cons, ih, lastIndexOf]

theorem lastIndexOf_getElem (c : Char) (s : Str) (p : Nat) (h : lastIndexOf c s = some p) :
    s[p]? = some c := by
  induction s generalizing p with
  | nil => simp [lastIndexOf] at h
  | cons x xs ih =>
    rw [lastIndexOf] at h
    cases hl : lastIndexOf c xs with
    | some i =>
      rw [hl] at h
      simp only [Option.some.injEq] at h
      subst h
      simpa using ih i hl
    | none =>
      rw [hl] at h
      by_cases hx : x = c
      · simp only [hx, if_true, Option.some.injEq] at h
        subst h
        simp [hx]
      · simp [hx] at h

theorem sv_findAux_ge (s v : Str) (fuel i j : Nat) (h : sv_findAux s v fuel i = some j) :
    i ≤ j := by
  induction fuel generalizing i with
  | zero => simp [sv_findAux] at h
  | succ f ih =>
    rw [sv_findAux] at h
    by_cases hp : v.isPrefixOf (s.drop i) = true
    · simp only [hp, if_true, Option.some.injEq] at h
      exact Nat.le_of_eq h
    · simp only [hp] at h
      exact Nat.le_of_succ_le (ih (i + 1) h)

theorem sv_find_eq_pos_iff (s v : Str) (pos : Nat) (hpos : pos ≤ s.length) :
    sv_find s v pos = some pos ↔ v.isPrefixOf (s.drop pos) = true := by
  unfold sv_find
  rw [if_neg (Nat.not_lt.mpr hpos)]
  obtain ⟨f, hf⟩ : ∃ f, s.length + 1 - pos = f + 1 := ⟨s.length - pos, by omega⟩
  rw [hf, sv_findAux]
  by_cases hp : v.isPrefixOf (s.drop pos) = true
  · simp [hp]
  · simp only [hp, if_false, Bool.false_eq_true, iff_false]
    intro h
    have := sv_findAux_ge s v f (pos + 1) pos h
    omega

theorem oldval_isPrefixOf_drop (a : Str) (p : Nat) (h : a[p]? = some '/') :
    oldval.isPrefixOf (a.drop p) = "announce".toList.isPrefixOf (a.drop (p + 1)) := by
  have hp : p < a.length := by
    by_contra hcon
    rw [List.getElem?_eq_none (Nat.le_of_not_lt hcon)] at h
    exact absurd h (by simp)
  have hget : a[p] = '/' := by
    rw [List.getElem?_eq_getElem hp] at h
    exact Option.some.inj h
  have hdrop : a.drop p = '/' :: a.drop (p + 1) := by
    rw [List.drop_eq_getElem_cons hp, hget]
  rw [hdrop]
  have : oldval = '/' :: "announce".toList := rfl
  rw [this, List.isPrefixOf]
  simp

theorem scrape_hit_eq (a : Str) :
    (match sv_rfind a (oldval.headD NUL) with
      | some pos => if sv_find a oldval pos = some pos then some pos else none
      | none => none) =
    (match lastIndexOf '/' a with
      | some p => if "announce".toList.isPrefixOf (a.drop (p + 1)) = true then some p else none
      | none => none) := by
  have hfront : oldval.headD NUL = '/' := rfl
  rw [hfront, sv_rfind_eq_lastIndexOf]
  cases hl : lastIndexOf '/' a with
  | none => rfl
  | some p =>
    have hget := lastIndexOf_getElem '/' a p hl
    have hp : p ≤ a.length := by
      by_contra hcon
      rw [List.getElem?_eq_none (by omega)] at hget
      exact absurd hget (by simp)
    simp only
    by_cases hpre : "announce".toList.isPrefixOf (a.drop (p + 1)) = true
    · rw [if_pos hpre, if_pos]
      rw [sv_find_eq_pos_iff a oldval p hp, oldval_isPrefixOf_drop a p hget]
      exact hpre
    · rw [if_neg hpre, if_neg]
      rw [sv_find_eq_pos_iff a oldval p hp, oldval_isPrefixOf_drop a p hget]
      exact hpre

theorem announceToScrape_eq_reference (a : Str) : announceToScrape a = scrapeReference a := by
  unfold announceToScrape scrapeReference
  simp only [scrape_hit_eq]
  cases hl : lastIndexOf '/' a with
  | none => simp [tr_strvStartsWith]
  | some p =>
    by_cases hpre : "announce".toList.isPrefixOf (a.drop (p + 1)) = true
    · simp only [hpre, if_true]
      have : oldval.length = 1 + "announce".toList.length := rfl
      rw [this, List.drop_drop]
      congr 3
    · simp only [if_neg hpre]
      rfl

/-! ## Lemmas: path sanitizer -/

theorem char_eq_of_toNat_eq {a b : Char} (h : a.toNat = b.toNat) : a = b := by
  rw [← Char.ofNat_toNat a, ← Char.ofNat_toNat b, h]

theorem toNat_ofNat_of_lt (n : Nat) (h : n < 0xd800) : (Char.ofNat n).toNat = n := by
  have hv : n.isValidChar := Or.inl h
  rw [Char.ofNat, dif_pos hv]
  rfl

theorem toNat_lt (c : Char) : c.toNat < 0x110000 := by
  have := c.valid
  rcases this with h | h
  · exact Nat.lt_trans h (by decide)
  · exact h.2

theorem EVUTIL_TOLOWER_toNat (c : Char) :
    (EVUTIL_TOLOWER_ c).toNat =
      if 65 ≤ c.toNat ∧ c.toNat ≤ 90 then c.toNat + 32 else c.toNat := by
  unfold EVUTIL_TOLOWER_
  have hA : 'A'.toNat = 65 := rfl
  have hZ : 'Z'.toNat = 90 := rfl
  rw [hA, hZ]
  by_cases h : 65 ≤ c.toNat ∧ c.toNat ≤ 90
  · rw [if_pos h, if_pos h, toNat_ofNat_of_lt _ (by omega)]
  · rw [if_neg h, if_neg h]

theorem toUpper_toNat (c : Char) :
    c.toUpper.toNat = if 97 ≤ c.toNat ∧ c.toNat ≤ 122 then c.toNat - 32 else c.toNat := by
  unfold Char.toUpper
  by_cases h : 97 ≤ c.toNat ∧ c.toNat ≤ 122
  · simp only [ge_iff_le, h, and_self, if_true]
    rw [toNat_ofNat_of_lt _ (by omega)]
  · simp only [ge_iff_le, h, if_false]

/-- For a character `c` that is not a lower-case letter, a character folds to the same
lower-case character as `c` exactly when its upper-case form is `c`. -/
theorem tolower_eq_iff_toUpper_eq (d c : Char) (hc : c.toUpper = c) :
    EVUTIL_TOLOWER_ d = EVUTIL_TOLOWER_ c ↔ d.toUpper = c := by
  have hc2 : c.toUpper.toNat = c.toNat := by rw [hc]
  rw [toUpper_toNat] at hc2
  constructor
  · intro h
    have h2 : (EVUTIL_TOLOWER_ d).toNat = (EVUTIL_TOLOWER_ c).toNat := by rw [h]
    rw [EVUTIL_TOLOWER_toNat, EVUTIL_TOLOWER_toNat] at h2
    apply char_eq_of_toNat_eq
    rw [toUpper_toNat]
    split_ifs at h2 hc2 ⊢ <;> omega
  · intro h
    have h2 : d.toUpper.toNat = c.toNat := by rw [h]
    rw [toUpper_toNat] at h2
    apply char_eq_of_toNat_eq
    rw [EVUTIL_TOLOWER_toNat, EVUTIL_TOLOWER_toNat]
    split_ifs at h2 hc2 ⊢ <;> omega

theorem reserved_chars : ∀ name ∈ ReservedNames, ∀ c ∈ name,
    c.toUpper = c ∧ c ≠ NUL ∧ c ≠ '.' := by
  decide

theorem strncasecmp_succ_ne (s1 s2 : Str) (n : Nat)
    (h : EVUTIL_TOLOWER_ (s1.headD NUL) ≠ EVUTIL_TOLOWER_ (s2.headD NUL)) :
    evutil_ascii_strncasecmp s1 s2 (n + 1) ≠ 0 := by
  rw [evutil_ascii_strncasecmp]
  rcases lt_or_gt_of_ne h with hlt | hgt
  · rw [if_pos hlt]; decide
  · rw [if_neg (not_lt_of_gt hgt), if_pos hgt]; decide

theorem strncasecmp_succ_eq (s1 s2 : Str) (n : Nat)
    (h : EVUTIL_TOLOWER_ (s1.headD NUL) = EVUTIL_TOLOWER_ (s2.headD NUL))
    (h0 : EVUTIL_TOLOWER_ (s1.headD NUL) ≠ NUL) :
    evutil_ascii_strncasecmp s1 s2 (n + 1) = evutil_ascii_strncasecmp s1.tail s2.tail n := by
  rw [evutil_ascii_strncasecmp]
  rw [h] at h0 ⊢
  rw [if_neg (lt_irrefl _), if_neg (lt_irrefl _), if_neg h0]

theorem tolower_NUL : EVUTIL_TOLOWER_ NUL = NUL := by decide

theorem toUpper_NUL : NUL.toUpper = NUL := by decide

theorem tolower_ne_NUL (c : Char) (hc : c.toUpper = c) (h0 : c ≠ NUL) :
    EVUTIL_TOLOWER_ c ≠ NUL := by
  intro h
  have h2 : EVUTIL_TOLOWER_ NUL = EVUTIL_TOLOWER_ c := by rw [h, tolower_NUL]
  rw [tolower_eq_iff_toUpper_eq NUL c hc, toUpper_NUL] at h2
  exact h0 h2.symm

theorem c_str_cons (d : Char) (f : Str) :
    c_str (d :: f) = if d = NUL then [] else d :: c_str f := by
  unfold c_str
  by_cases h : d = NUL
  · simp [h]
  · simp [h]

theorem strncasecmp_eq_zero_iff (name form : Str)
    (hname : ∀ c ∈ name, c.toUpper = c ∧ c ≠ NUL) :
    evutil_ascii_strncasecmp (c_str form) name name.length = 0 ↔
      (form.take name.length).map Char.toUpper = name := by
  induction name generalizing form with
  | nil => simp [evutil_ascii_strncasecmp]
  | cons c name ih =>
    obtain ⟨hcu, hc0⟩ := hname c (List.mem_cons_self _ _)
    have hrest : ∀ x ∈ name, x.toUpper = x ∧ x ≠ NUL :=
      fun x hx => hname x (List.mem_cons_of_mem _ hx)
    have hempty : evutil_ascii_strncasecmp [] (c :: name) (name.length + 1) ≠ 0 := by
      apply strncasecmp_succ_ne
      simp only [List.headD_nil, List.headD_cons, tolower_NUL]
      exact fun h => tolower_ne_NUL c hcu hc0 h.symm
    rw [List.length_cons]
    cases form with
    | nil =>
      have : c_str [] = [] := rfl
      rw [this]
      simp [hempty]
    | cons d f =>
      rw [c_str_cons]
      by_cases hd : d = NUL
      · rw [if_pos hd]
        simp only [hempty, false_iff, List.take_succ_cons, List.map_cons, List.cons.injEq,
          not_and]
        intro h
        rw [hd, toUpper_NUL] at h
        exact absurd h.symm hc0
      · rw [if_neg hd]
        simp only [List.take_succ_cons, List.map_cons, List.cons.injEq]
        by_cases heq : EVUTIL_TOLOWER_ d = EVUTIL_TOLOWER_ c
        · rw [strncasecmp_succ_eq _ _ _ (by simpa using heq)
            (by simpa [heq] using tolower_ne_NUL c hcu hc0)]
          simp only [List.tail_cons]
          rw [ih f hrest]
          have := (tolower_eq_iff_toUpper_eq d c hcu).mp heq
          simp [this]
        · have hne := strncasecmp_succ_ne (d :: c_str f) (c :: name) name.length
            (by simpa using heq)
          have hup : ¬ d.toUpper = c := fun h => heq ((tolower_eq_iff_toUpper_eq d c hcu).mpr h)
          simp [hne, hup]

theorem munge_reserved_append (out form : Str) (names : List Str) :
    munge_reserved (out ++ form) out.length names = out ++ munge_reserved form 0 names := by
  induction names with
  | nil => rfl
  | cons name rest ih =>
    simp only [munge_reserved, List.drop_left, Nat.zero_add, List.drop_zero]
    rw [List.getD_append_right _ _ _ _ (Nat.le_add_right _ _), Nat.add_sub_cancel_left, ih]
    split_ifs
    · rfl
    · simp [vector_insert, List.take_append, List.drop_append]

theorem getD_NUL_iff (form : Str) (k : Nat) (hk : k ≤ form.length) (h0 : NUL ∉ form) :
    form.getD k NUL = NUL ↔ form.length = k := by
  constructor
  · intro h
    by_contra hne
    have hlt : k < form.length := by omega
    rw [List.getD_eq_getElem _ _ hlt] at h
    exact h0 (h ▸ List.getElem_mem hlt)
  · intro h
    rw [List.getD_eq_default _ _ (Nat.le_of_eq h)]

theorem getD_dot_iff (form : Str) (k : Nat) :
    form.getD k NUL = '.' ↔ form[k]? = some '.' := by
  by_cases hlt : k < form.length
  · rw [List.getD_eq_getElem _ _ hlt, List.getElem?_eq_getElem hlt]
    simp
  · rw [List.getD_eq_default _ _ (Nat.le_of_not_lt hlt), List.getElem?_eq_none (Nat.le_of_not_lt hlt)]
    simp [NUL]

theorem take_map_length_le (form name : Str)
    (h : (form.take name.length).map Char.toUpper = name) : name.length ≤ form.length := by
  have := congrArg List.length h
  simp only [List.length_map, List.length_take] at this
  omega

theorem munge_cond_iff (form name : Str) (hname : ∀ c ∈ name, c.toUpper = c ∧ c ≠ NUL)
    (h0 : NUL ∉ form) :
    ¬ (evutil_ascii_strncasecmp (c_str form) name name.length ≠ 0 ∨
        (form.getD name.length NUL ≠ NUL ∧ form.getD name.length NUL ≠ '.')) ↔
      beginsWithReserved form name := by
  unfold beginsWithReserved
  rw [not_or, not_not, strncasecmp_eq_zero_iff name form hname]
  constructor
  · rintro ⟨h1, h2⟩
    refine ⟨h1, ?_⟩
    rw [← getD_NUL_iff form _ (take_map_length_le form name h1) h0, ← getD_dot_iff]
    by_contra hcon
    rw [not_or] at hcon
    exact h2 hcon
  · rintro ⟨h1, h2⟩
    refine ⟨h1, ?_⟩
    rw [← getD_NUL_iff form _ (take_map_length_le form name h1) h0, ← getD_dot_iff] at h2
    rintro ⟨ha, hb⟩
    rcases h2 with h | h
    · exact ha h
    · exact hb h

theorem beginsWithReserved_length_le (form n1 n2 : Str) (h1 : beginsWithReserved form n1)
    (h2 : beginsWithReserved form n2) (hdot : '.' ∉ n2) : n2.length ≤ n1.length := by
  by_contra hcon
  have hlt : n1.length < n2.length := Nat.lt_of_not_le hcon
  have hlen := take_map_length_le form n2 h2.1
  have hget : form[n1.length]? = some '.' := by
    rcases h1.2 with h | h
    · omega
    · exact h
  have h3 : ((form.take n2.length).map Char.toUpper)[n1.length]? = some '.' := by
    rw [List.getElem?_map, List.getElem?_take_of_lt hlt, hget]
    rfl
  rw [h2.1] at h3
  exact hdot (List.getElem?_mem h3)

theorem munge_reserved_none (form : Str) (names : List Str)
    (hnames : ∀ name ∈ names, ∀ c ∈ name, c.toUpper = c ∧ c ≠ NUL ∧ c ≠ '.')
    (h0 : NUL ∉ form) (hno : ∀ name ∈ names, ¬ beginsWithReserved form name) :
    munge_reserved form 0 names = form := by
  induction names with
  | nil => rfl
  | cons name rest ih =>
    have hn : ∀ c ∈ name, c.toUpper = c ∧ c ≠ NUL := fun c hc =>
      ⟨(hnames name (List.mem_cons_self _ _) c hc).1, (hnames name (List.mem_cons_self _ _) c hc).2.1⟩
    have hcond := (munge_cond_iff form name hn h0).not.mpr (hno name (List.mem_cons_self _ _))
    rw [not_not] at hcond
    simp only [munge_reserved, Nat.zero_add, List.drop_zero]
    rw [if_pos hcond]
    exact ih (fun n hn2 => hnames n (List.mem_cons_of_mem _ hn2))
      (fun n hn2 => hno n (List.mem_cons_of_mem _ hn2))

theorem munge_reserved_some (form : Str) (names : List Str) (name : Str)
    (hnames : ∀ name ∈ names, ∀ c ∈ name, c.toUpper = c ∧ c ≠ NUL ∧ c ≠ '.')
    (h0 : NUL ∉ form) (hmem : name ∈ names) (hmatch : beginsWithReserved form name) :
    munge_reserved form 0 names = vector_insert form name.length '_' := by
  induction names with
  | nil => exact absurd hmem (List.not_mem_nil _)
  | cons first rest ih =>
    have hf : ∀ c ∈ first, c.toUpper = c ∧ c ≠ NUL := fun c hc =>
      ⟨(hnames first (List.mem_cons_self _ _) c hc).1,
        (hnames first (List.mem_cons_self _ _) c hc).2.1⟩
    simp only [munge_reserved, Nat.zero_add, List.drop_zero]
    by_cases hfirst : beginsWithReserved form first
    · have hcond := (munge_cond_iff form first hf h0).mpr hfirst
      rw [if_neg hcond]
      have hd1 : '.' ∉ first := fun hc => (hnames first (List.mem_cons_self _ _) _ hc).2.2 rfl
      have hd2 : '.' ∉ name := fun hc => (hnames name hmem _ hc).2.2 rfl
      have hlen : first.length = name.length :=
        Nat.le_antisymm (beginsWithReserved_length_le form name first hmatch hfirst hd1)
          (beginsWithReserved_length_le form first name hfirst hmatch hd2)
      rw [hlen]
    · have hcond := (munge_cond_iff form first hf h0).not.mpr hfirst
      rw [not_not] at hcond
      rw [if_pos hcond]
      rcases List.mem_cons.mp hmem with rfl | hrest
      · exact absurd hmatch hfirst
      · exact ih (fun n hn2 => hnames n (List.mem_cons_of_mem _ hn2)) hrest

theorem Banned_eq : Banned = ['<', '>', ':', '"', '/', '\\', '|', '?', '*'] := by decide

theorem ensure_legal_char_eq :
    ensure_legal_char = fun ch =>
      if ch ∈ ['<', '>', ':', '"', '/', '\\', '|', '?', '*'] ∨ ch.toNat < 0x20 then '_' else ch := by
  funext ch
  unfold ensure_legal_char
  rw [Banned_eq]
  simp only [Bool.or_eq_true, List.contains, List.elem_iff, decide_eq_true_eq]

theorem code_trim_eq (c : Str) :
    (c.drop (find_if_not leading_test c)).take
        ((c.drop (find_if_not leading_test c)).length -
          find_if_not trailing_test (c.drop (find_if_not leading_test c)).reverse) =
      (c.dropWhile isspace).rdropWhile (fun ch => isspace ch || ch == '.') := by
  have h1 : c.drop (find_if_not leading_test c) = c.dropWhile isspace := by
    unfold find_if_not
    exact (List.dropWhile_eq_drop_findIdx_not).symm
  rw [h1]
  generalize c.dropWhile isspace = l
  unfold List.rdropWhile find_if_not
  rw [List.dropWhile_eq_drop_findIdx_not, List.drop_reverse, List.reverse_reverse]
  rfl

theorem appendSanitizedComponent_out (out c : Str) :
    (appendSanitizedComponent out c).out =
      out ++ munge_reserved (sanitizedForm c) 0 ReservedNames := by
  unfold appendSanitizedComponent sanitizedForm
  simp only
  rw [munge_reserved_append, code_trim_eq, ensure_legal_char_eq]

theorem NUL_not_mem_sanitizedForm (c : Str) : NUL ∉ sanitizedForm c := by
  unfold sanitizedForm
  intro h
  rw [List.mem_map] at h
  obtain ⟨ch, _, hch⟩ := h
  by_cases hb : ch ∈ ['<', '>', ':', '"', '/', '\\', '|', '?', '*'] ∨ ch.toNat < 0x20
  · rw [if_pos hb] at hch
    exact absurd hch (by decide)
  · rw [if_neg hb] at hch
    apply hb
    right
    rw [hch]
    decide

/-! ## Lemmas: parser -/

theorem parseAnnounce_sizeFields (ext : externals) (setme : tr_torrent_metainfo)
    (top : tr_variant) : sizeFields (parseAnnounce ext setme top) = sizeFields setme := by
  unfold parseAnnounce
  simp only
  split
  · split
    · split <;> rfl
    · rfl
  · rfl

theorem parseWebseeds_sizeFields (ext : externals) (setme : tr_torrent_metainfo)
    (top : tr_variant) : sizeFields (parseWebseeds ext setme top) = sizeFields setme := by
  unfold parseWebseeds
  simp only
  split
  · generalize hs : ({ setme with webseed_urls_ := [] } : tr_torrent_metainfo) = s0
    have h0 : sizeFields s0 = sizeFields setme := by rw [← hs]; rfl
    rw [← h0]
    generalize tr_variantListChildren _ = children
    clear hs h0
    induction children generalizing s0 with
    | nil => rfl
    | cons child rest ih =>
      rw [List.foldl_cons, ih]
      split
      · split <;> rfl
      · rfl
  · split
    · split <;> rfl
    · rfl

theorem parseFilesLoop_total (ext : externals) (root_name : Str) (entries : List tr_variant)
    (files : List file_t) (total_size : Nat)
    (h : total_size = (files.map file_t.size).sum % 2 ^ 64) :
    (parseFilesLoop ext root_name entries files total_size).2.2 =
      ((parseFilesLoop ext root_name entries files total_size).2.1.map file_t.size).sum
        % 2 ^ 64 := by
  induction entries generalizing files total_size with
  | nil => exact h
  | cons e rest ih =>
    rw [parseFilesLoop]
    split
    · exact h
    · split
      · exact h
      · split
        · exact h
        · split
          · exact h
          · apply ih
            rw [h, List.map_append, List.sum_append]
            simp [Nat.add_mod]

theorem toU64_lt (i : int64_t) : toU64 i < 2 ^ 64 := by
  unfold toU64
  have h1 : (0 : Int) ≤ i.val % 2 ^ 64 := Int.emod_nonneg _ (by norm_num)
  have h2 : i.val % 2 ^ 64 < 2 ^ 64 := Int.emod_lt_of_pos _ (by norm_num)
  omega

theorem parseFiles_total (ext : externals) (setme : tr_torrent_metainfo)
    (info_dict : tr_variant) (h : (parseFiles ext setme info_dict 0).1 = []) :
    (parseFiles ext setme info_dict 0).2.2 =
      ((parseFiles ext setme info_dict 0).2.1.files_.map file_t.size).sum % 2 ^ 64 := by
  unfold parseFiles at h ⊢
  simp only at h ⊢
  by_cases hret : (!(appendSanitizedComponent [] setme.name_).ret) = true
  · rw [if_pos hret] at h
    exact absurd h (List.cons_ne_nil _ _)
  · rw [if_neg hret] at h ⊢
    cases hlen : tr_variantDictFindInt info_dict TR_KEY_length with
    | some len =>
      simp only [hlen, List.nil_append, List.map_cons, List.map_nil, List.sum_cons,
        List.sum_nil, Nat.add_zero]
      exact (Nat.mod_eq_of_lt (toU64_lt _)).symm
    | none =>
      simp only [hlen] at h ⊢
      cases hfiles : tr_variantDictFindList info_dict TR_KEY_files with
      | none =>
        simp only [hfiles] at h
        exact absurd h (List.cons_ne_nil _ _)
      | some files_entry =>
        simp only [hfiles] at h ⊢
        by_cases hok : List.isEmpty (parseFilesLoop ext (appendSanitizedComponent [] setme.name_).out
            (tr_variantListChildren files_entry) [] 0).1 = true
        · rw [if_pos hok]
          exact parseFilesLoop_total ext _ _ [] 0 rfl
        · rw [if_neg hok] at h
          simp only at h
          rw [h] at hok
          exact absurd rfl hok

theorem parseFiles_pieces (ext : externals) (setme : tr_torrent_metainfo)
    (info_dict : tr_variant) (t0 : Nat) :
    (parseFiles ext setme info_dict t0).2.1.pieces_ = setme.pieces_ := by
  unfold parseFiles
  simp only
  split
  · rfl
  · split
    · rfl
    · split
      · split <;> rfl
      · rfl

theorem ceil_of_div_mod (t p q r : Nat) (hp : 0 < p) (ht : t = p * q + r) (hr : r < p) :
    ((q + (if r = 0 then 0 else 1) : Nat) : Int) = ⌈(t : ℚ) / (p : ℚ)⌉ := by
  symm
  rw [Int.ceil_eq_iff]
  have hpq : (0 : ℚ) < (p : ℚ) := by exact_mod_cast hp
  have key : (t : ℚ) = (p : ℚ) * (q : ℚ) + (r : ℚ) := by exact_mod_cast ht
  have hrq : (r : ℚ) < (p : ℚ) := by exact_mod_cast hr
  rw [lt_div_iff₀ hpq, div_le_iff₀ hpq]
  by_cases h0 : r = 0
  · rw [if_pos h0]
    rw [h0] at key
    push_cast at key ⊢
    constructor <;> nlinarith
  · rw [if_neg h0]
    have hr1 : (1 : ℚ) ≤ (r : ℚ) := by exact_mod_cast Nat.one_le_iff_ne_zero.mpr h0
    push_cast
    constructor <;> nlinarith

theorem ceil_div_eq (t p : Nat) (hp : 0 < p) :
    ((t / p + (if t % p = 0 then 0 else 1) : Nat) : Int) = ⌈(t : ℚ) / (p : ℚ)⌉ :=
  ceil_of_div_mod t p (t / p) (t % p) hp (Nat.div_add_mod t p).symm (Nat.mod_lt t hp)

theorem n_pieces_exact (t p : Nat) (h0 : t % p = 0) :
    (initSizes t p).n_pieces * p = t := by
  unfold initSizes
  simp only [h0, if_true, Nat.add_zero]
  exact Nat.div_mul_cancel (Nat.dvd_of_mod_eq_zero h0)

theorem copy_pieces_length (sv : Str) (n : Nat) : (copy_pieces sv n).length = n := by
  simp [copy_pieces]

theorem parseImpl_success (ext : externals) (setme : tr_torrent_metainfo) (top : tr_variant)
    (benc : Str) (h : (parseImpl ext setme top benc).1 = []) :
    ∃ info_dict setme1, tr_variantDictFindDict top TR_KEY_info = some info_dict ∧
      parseImpl ext setme top benc = parseImplSizes ext setme1 top info_dict := by
  unfold parseImpl at h ⊢
  cases hinfo : tr_variantDictFindDict top TR_KEY_info with
  | none =>
    simp only [hinfo] at h
    exact absurd h (List.cons_ne_nil _ _)
  | some info_dict =>
    simp only [hinfo] at h ⊢
    cases hname : (tr_variantDictFindStrView info_dict TR_KEY_name_utf_8).orElse
        (fun _ => tr_variantDictFindStrView info_dict TR_KEY_name) with
    | none =>
      simp only [hname] at h
      exact absurd h (List.cons_ne_nil _ _)
    | some sv =>
      simp only [hname]
      exact ⟨info_dict, _, rfl, rfl⟩

theorem toU64_pos (i : int64_t) (h : 0 < i.val) : 0 < toU64 i := by
  unfold toU64
  have h64 : i.val < 2 ^ 64 := lt_trans i.range.2 (by norm_num)
  rw [Int.emod_eq_of_lt (Int.le_of_lt h) h64]
  omega

theorem parseImplFiles_success (ext : externals) (s1 : tr_torrent_metainfo)
    (top info_dict : tr_variant) (piece_size : Nat)
    (h : (parseImplFiles ext s1 top info_dict piece_size).1 = []) :
    ∃ (total_size : Nat) (files : List file_t),
      total_size ≠ 0 ∧ total_size = (files.map file_t.size).sum % 2 ^ 64 ∧
      (initSizes total_size piece_size).n_pieces = s1.pieces_.length ∧
      sizeFields (parseImplFiles ext s1 top info_dict piece_size).2 =
        (s1.pieces_, files, initSizes total_size piece_size) := by
  unfold parseImplFiles at h ⊢
  simp only at h ⊢
  by_cases herr : (!(parseFiles ext s1 info_dict 0).1.isEmpty) = true
  · rw [if_pos herr] at h
    simp only at h
    rw [h] at herr
    exact absurd herr (by decide)
  · rw [if_neg herr] at h ⊢
    have hok : (parseFiles ext s1 info_dict 0).1 = [] := by
      simpa using herr
    by_cases hnone : (parseFiles ext s1 info_dict 0).2.1.files_.isEmpty = true ∨
        (parseFiles ext s1 info_dict 0).2.2 = 0
    · rw [if_pos hnone] at h
      exact absurd h (List.cons_ne_nil _ _)
    · rw [if_neg hnone] at h ⊢
      rw [not_or] at hnone
      have hpieces := parseFiles_pieces ext s1 info_dict 0
      by_cases hcount : (initSizes (parseFiles ext s1 info_dict 0).2.2 piece_size).n_pieces ≠
          (parseFiles ext s1 info_dict 0).2.1.pieces_.length
      · rw [if_pos hcount] at h
        exact absurd h (List.cons_ne_nil _ _)
      · rw [if_neg hcount]
        rw [not_not, hpieces] at hcount
        refine ⟨(parseFiles ext s1 info_dict 0).2.2,
          (parseFiles ext s1 info_dict 0).2.1.files_, hnone.2,
          parseFiles_total ext s1 info_dict hok, hcount, ?_⟩
        rw [parseWebseeds_sizeFields, parseAnnounce_sizeFields]
        simp only [sizeFields, hpieces]

theorem parseImplSizes_success (ext : externals) (setme : tr_torrent_metainfo)
    (top info_dict : tr_variant) (h : (parseImplSizes ext setme top info_dict).1 = []) :
    ∃ (i : int64_t) (sv : Str) (total_size : Nat) (files : List file_t),
      tr_variantDictFindInt info_dict TR_KEY_piece_length = some i ∧ 0 < i.val ∧
      tr_variantDictFindStrView info_dict TR_KEY_pieces = some sv ∧ sv.length % 20 = 0 ∧
      total_size ≠ 0 ∧ total_size = (files.map file_t.size).sum % 2 ^ 64 ∧
      (initSizes total_size (toU64 i)).n_pieces = sv.length / 20 ∧
      sizeFields (parseImplSizes ext setme top info_dict).2 =
        (copy_pieces sv (sv.length / 20), files, initSizes total_size (toU64 i)) := by
  unfold parseImplSizes at h ⊢
  cases hpl : (tr_variantDictFindInt info_dict TR_KEY_piece_length).filter
      (fun i => decide (i.val > 0)) with
  | none =>
    simp only [hpl] at h
    exact absurd h (List.cons_ne_nil _ _)
  | some i =>
    simp only [hpl] at h ⊢
    cases hps : (tr_variantDictFindStrView info_dict TR_KEY_pieces).filter
        (fun sv => decide (sv.length % 20 = 0)) with
    | none =>
      simp only [hps] at h
      exact absurd h (List.cons_ne_nil _ _)
    | some sv =>
      simp only [hps] at h ⊢
      rw [Option.filter_eq_some] at hpl hps
      obtain ⟨total_size, files, h1, h2, h3, h4⟩ := parseImplFiles_success ext _ top info_dict _ h
      simp only [copy_pieces_length] at h3
      exact ⟨i, sv, total_size, files, hpl.1, by simpa using hpl.2, hps.1, by simpa using hps.2,
        h1, h2, h3, h4⟩


theorem parseImpl_pieceCount (ext : externals) (setme : tr_torrent_metainfo) (top : tr_variant)
    (benc : Str) (h : (parseImpl ext setme top benc).1 = []) :
    PieceCountMatches top (parseImpl ext setme top benc).2 := by
  obtain ⟨info_dict, setme1, hinfo, heq⟩ := parseImpl_success ext setme top benc h
  rw [heq] at h ⊢
  obtain ⟨i, sv, total_size, files, _, hi, hsv, hmod, _, htotal, hn, hfields⟩ :=
    parseImplSizes_success ext setme1 top info_dict h
  generalize (parseImplSizes ext setme1 top info_dict).2 = tm at hfields
  simp only [sizeFields, Prod.mk.injEq] at hfields
  obtain ⟨hp, hf, hb⟩ := hfields
  have hpos : 0 < toU64 i := toU64_pos i hi
  have hlen : tm.pieces_.length = sv.length / 20 := by rw [hp, copy_pieces_length]
  unfold PieceCountMatches
  rw [hb, hf, hlen]
  refine ⟨hpos, ?_, ?_, htotal, info_dict, sv, hinfo, hsv, ?_⟩
  · rw [← hn]
    exact ceil_div_eq total_size (toU64 i) hpos
  · intro h0
    rw [← hn]
    exact n_pieces_exact total_size (toU64 i) h0
  · omega

/-! ## Theorems -/

/-- C1: for every announce list, tier and string: when the string does not parse as a
tracker URL, or some record of the list already has the same scheme, host, port and path,
`add` returns false and leaves the list (records, order, size, id counter) unchanged. -/
theorem add_rejects_invalid_or_duplicate (parse : Str → Option tr_url_parsed_t)
    (lt : tracker_info → tracker_info → Bool) (L : tr_announce_list) (t : Nat) (url : Str)
    (h : parse url = none ∨
      ∃ a r, parse url = some a ∧ r ∈ L.trackers_ ∧ same_endpoint r.announce a) :
    add parse lt L t url = (false, L) := by
  unfold add
  rcases h with hnone | ⟨a, r, hp, hr, hsame⟩
  · rw [hnone]
  · rw [hp]
    have hc : canAdd L a = false := by
      rw [← Bool.not_eq_true, canAdd_iff]
      exact fun hall => hall r hr hsame
    simp [hc]

/-- C1, at a concrete input: `listA` holds `http://a/announce`, and adding
`http://a:80/announce` (the same endpoint with the port written out) is rejected. -/
theorem add_rejects_invalid_or_duplicate_witness :
    (sampleParse urlA80 = none ∨
        ∃ a r, sampleParse urlA80 = some a ∧ r ∈ listA.trackers_ ∧ same_endpoint r.announce a) ∧
      add sampleParse tracker_info.lt listA 5 urlA80 = (false, listA) :=
  ⟨Or.inr ⟨_, recA, rfl, by decide, by decide⟩,
    add_rejects_invalid_or_duplicate sampleParse tracker_info.lt listA 5 urlA80
      (Or.inr ⟨_, recA, rfl, by decide, by decide⟩)⟩

/-- C2: in every announce list reachable from the empty list by `set`, `add`, `remove(url)`,
`remove(id)` and `replace` (whatever the record comparison is), the records at two distinct
positions never have the same scheme, host, port and path. -/
theorem reachable_no_duplicate_endpoints (parse : Str → Option tr_url_parsed_t)
    (lt : tracker_info → tracker_info → Bool) (s : tr_announce_list)
    (h : Reachable parse lt s) (i j : Nat) (a b : tracker_info) (hij : i ≠ j)
    (ha : s.trackers_[i]? = some a) (hb : s.trackers_[j]? = some b) :
    ¬ same_endpoint a.announce b.announce := by
  have hpw := reachable_noDuplicate parse lt s h
  unfold NoDuplicate at hpw
  rw [List.pairwise_iff_getElem] at hpw
  rw [List.getElem?_eq_some_iff] at ha hb
  obtain ⟨hi, rfl⟩ := ha
  obtain ⟨hj, rfl⟩ := hb
  rcases Nat.lt_or_gt_of_ne hij with hlt | hgt
  · exact hpw i j hi hj hlt
  · intro hsame
    exact hpw j i hj hi hgt ⟨hsame.1.symm, hsame.2.1.symm, hsame.2.2.1.symm, hsame.2.2.2.symm⟩

/-- C2, at a concrete input: `listAB` is built by two calls of `add`; its two records are
different endpoints. -/
theorem reachable_no_duplicate_endpoints_witness :
    Reachable sampleParse tracker_info.lt listAB ∧ (0 : Nat) ≠ 1 ∧
      listAB.trackers_[0]? = some recA ∧ listAB.trackers_[1]? = some recB ∧
      ¬ same_endpoint recA.announce recB.announce :=
  ⟨Reachable.add _ _ _ (Reachable.add _ _ _ (Reachable.empty 0)), by decide, by decide,
    by decide,
    reachable_no_duplicate_endpoints sampleParse tracker_info.lt listAB
      (Reachable.add _ _ _ (Reachable.add _ _ _ (Reachable.empty 0))) 0 1 recA recB
      (by decide) (by decide) (by decide)⟩

/-- C3: with the record comparison modelled from the specification (tier, then insertion
order), in every announce list reachable from the empty list by `add`, `set`, `remove` and
`replace` the records are sorted by tier ascending and, within a tier, by id, every id in use
is below the id counter (so a record added later has a greater id), and a successful `add`
puts its record after every record of a tier up to its own and before every record of a
greater tier: a record added earlier precedes every record of the same tier added later. -/
theorem reachable_tier_then_insertion_order (parse : Str → Option tr_url_parsed_t)
    (s : tr_announce_list) (h : Reachable parse tracker_info.lt s) :
    s.trackers_.Pairwise keyLt ∧ (∀ r ∈ s.trackers_, r.id < s.id) ∧
      ∀ (t : Nat) (url : Str), (add parse tracker_info.lt s t url).1 = true →
        InsertedAfterItsTier s (add parse tracker_info.lt s t url).2 url :=
  ⟨(reachable_ordered parse s h).1, (reachable_ordered parse s h).2,
    fun t url hok => add_inserted parse s t url (reachable_ordered parse s h) hok⟩

/-- C3, at a concrete input: the list `listAB`, built by two calls of `add`. -/
theorem reachable_tier_then_insertion_order_witness :
    Reachable sampleParse tracker_info.lt listAB ∧
      (listAB.trackers_.Pairwise keyLt ∧ (∀ r ∈ listAB.trackers_, r.id < listAB.id) ∧
        ∀ (t : Nat) (url : Str), (add sampleParse tracker_info.lt listAB t url).1 = true →
          InsertedAfterItsTier listAB (add sampleParse tracker_info.lt listAB t url).2 url) :=
  ⟨Reachable.add _ _ _ (Reachable.add _ _ _ (Reachable.empty 0)),
    reachable_tier_then_insertion_order sampleParse listAB
      (Reachable.add _ _ _ (Reachable.add _ _ _ (Reachable.empty 0)))⟩

/-- C4, as stated, fails: there is no announce list, id of a record of it and URL for which
`replace` returns false and the record with that id is gone afterwards. -/
theorem replace_failure_never_loses_record :
    ¬ ∃ (parse : Str → Option tr_url_parsed_t) (lt : tracker_info → tracker_info → Bool)
        (L : tr_announce_list) (id : Nat) (newUrl : Str),
        (∃ r ∈ L.trackers_, r.id = id) ∧ (replace parse lt L id newUrl).1 = false ∧
          ¬ ∃ r ∈ (replace parse lt L id newUrl).2.trackers_, r.id = id := by
  rintro ⟨parse, lt, L, id, newUrl, hmem, hfalse, hgone⟩
  rw [replace_fst_false_snd parse lt L id newUrl hfalse] at hgone
  exact hgone hmem

/-- C4, amended: whenever `replace` returns false (the new URL fails validation, or matches
an existing record, or no record has the id), the list is unchanged, so the record that had
the id is still there: validation and the duplicate check come before the removal. -/
theorem replace_false_unchanged (parse : Str → Option tr_url_parsed_t)
    (lt : tracker_info → tracker_info → Bool) (L : tr_announce_list) (id : Nat) (newUrl : Str)
    (h : (replace parse lt L id newUrl).1 = false) :
    (replace parse lt L id newUrl).2 = L :=
  replace_fst_false_snd parse lt L id newUrl h

/-- C4 amended, at a concrete input: replacing the record 0 of `listAB` by the same endpoint
written as `http://a:80/announce` fails and keeps the list. -/
theorem replace_false_unchanged_witness :
    (replace sampleParse tracker_info.lt listAB 0 urlA80).1 = false ∧
      (replace sampleParse tracker_info.lt listAB 0 urlA80).2 = listAB :=
  ⟨by decide, replace_false_unchanged sampleParse tracker_info.lt listAB 0 urlA80 (by decide)⟩

/-- C5: `announceToScrape` equals the reference definition of the specification on every
string; in particular `http://t/announce` gives `http://t/scrape`, `udp://t:80` gives itself
and `http://t/foo` gives no scrape URL. -/
theorem announceToScrape_matches_reference :
    (∀ a : Str, announceToScrape a = scrapeReference a) ∧
      announceToScrape "http://t/announce".toList = some "http://t/scrape".toList ∧
      announceToScrape "udp://t:80".toList = some "udp://t:80".toList ∧
      announceToScrape "http://t/foo".toList = none :=
  ⟨announceToScrape_eq_reference, by decide, by decide, by decide⟩

/-- C6, as stated, fails: `announceToScrape` does not turn `http://t/announce/x` into
`http://t/scrape/x`. -/
theorem scrape_of_announce_slash_x_counterexample :
    announceToScrape "http://t/announce/x".toList ≠ some "http://t/scrape/x".toList := by
  decide

/-- C6, amended: for `http://t/announce/x` no scrape URL is derived, by either
implementation: the text after the last `/` is `x`, not `announce`. -/
theorem scrape_of_announce_slash_x_is_none :
    announceToScrape "http://t/announce/x".toList = none ∧
      ∀ (buildBuf : Str → List Str → Str) (out : Str),
        convertAnnounceToScrape buildBuf out "http://t/announce/x".toList = (false, out) :=
  ⟨by decide, fun _ _ => rfl⟩

/-- C7: for every buffer and every component whose trimmed-and-replaced form does not trigger
the reserved-name rule, `appendSanitizedComponent` appends exactly that form: the component
without its leading whitespace, then without its trailing whitespace and dots, with each of
`< > : " / \ | ? *` and each character below 0x20 replaced by `_`. -/
theorem appendSanitizedComponent_plain (out c : Str)
    (h : ∀ name ∈ ReservedNames, ¬ beginsWithReserved (sanitizedForm c) name) :
    (appendSanitizedComponent out c).out = out ++ sanitizedForm c := by
  rw [appendSanitizedComponent_out,
    munge_reserved_none _ _ reserved_chars (NUL_not_mem_sanitizedForm c) h]

/-- C7, at the specification's example: for the component `  a/b\c:*?  . ` the appended
text is `a_b_c___`. -/
theorem appendSanitizedComponent_plain_witness :
    (∀ name ∈ ReservedNames, ¬ beginsWithReserved (sanitizedForm messyComponent) name) ∧
      (appendSanitizedComponent [] messyComponent).out = "a_b_c___".toList :=
  ⟨by decide, (appendSanitizedComponent_plain [] messyComponent (by decide)).trans (by decide)⟩

/-- C8: for every buffer and component: if the trimmed-and-replaced form begins, compared
case-insensitively, with one of the 22 reserved names followed by the end of the component
or by `.`, the appended text is the form with one `_` inserted right after the name;
otherwise the appended text is the form itself, without any insertion. -/
theorem appendSanitizedComponent_reserved (out c : Str) :
    (∀ name ∈ ReservedNames, beginsWithReserved (sanitizedForm c) name →
        (appendSanitizedComponent out c).out =
          out ++ ((sanitizedForm c).take name.length ++ '_' ::
            (sanitizedForm c).drop name.length)) ∧
      ((∀ name ∈ ReservedNames, ¬ beginsWithReserved (sanitizedForm c) name) →
        (appendSanitizedComponent out c).out = out ++ sanitizedForm c) := by
  constructor
  · intro name hmem hmatch
    rw [appendSanitizedComponent_out,
      munge_reserved_some _ _ name reserved_chars (NUL_not_mem_sanitizedForm c) hmem hmatch]
    rfl
  · intro h
    rw [appendSanitizedComponent_out,
      munge_reserved_none _ _ reserved_chars (NUL_not_mem_sanitizedForm c) h]

/-- C8, at the specification's examples: `COM1.txt` gives `COM1_.txt`, while `COM1x` and
`CONSOLE` are appended unchanged. -/
theorem appendSanitizedComponent_reserved_witness :
    (appendSanitizedComponent [] "COM1.txt".toList).out = "COM1_.txt".toList ∧
      (appendSanitizedComponent [] "COM1x".toList).out = "COM1x".toList ∧
      (appendSanitizedComponent [] "CONSOLE".toList).out = "CONSOLE".toList :=
  ⟨((appendSanitizedComponent_reserved [] "COM1.txt".toList).1 "COM1".toList (by decide)
      (by decide)).trans (by decide),
    ((appendSanitizedComponent_reserved [] "COM1x".toList).2 (by decide)).trans (by decide),
    ((appendSanitizedComponent_reserved [] "CONSOLE".toList).2 (by decide)).trans (by decide)⟩

/-- C9: with the piece count of `initSizes` modelled from the specification, whenever
`parseImpl` succeeds the number of digests in `pieces` is the ceiling of the total size over
the piece length, with no extra piece when the division is exact, where the total size is
the 64-bit accumulation of the file sizes; so a parse in which the two counts differ
fails. -/
theorem parse_success_piece_count (ext : externals) (setme : tr_torrent_metainfo)
    (top : tr_variant) (benc : Str) (h : (parseImpl ext setme top benc).1 = []) :
    PieceCountMatches top (parseImpl ext setme top benc).2 :=
  parseImpl_pieceCount ext setme top benc h

/-- C9, at a concrete input: a single file of 3 bytes with piece length 2 and 2 digests. -/
theorem parse_success_piece_count_witness :
    (parseImpl sampleExternals emptyMetainfo singleFileTorrent []).1 = [] ∧
      PieceCountMatches singleFileTorrent
        (parseImpl sampleExternals emptyMetainfo singleFileTorrent []).2 :=
  ⟨by decide,
    parse_success_piece_count sampleExternals emptyMetainfo singleFileTorrent [] (by decide)⟩

/-- C10, the code at the failing input: a torrent whose files have `length` -1 and 2 parses
successfully; the first file gets the size 2^64 - 1, the total size is 1, and the sum of the
file sizes is not the total size. -/
theorem negative_length_is_accepted :
    (parseImpl sampleExternals emptyMetainfo negativeLengthTorrent []).1 = [] ∧
      (parseImpl sampleExternals emptyMetainfo negativeLengthTorrent []).2.files_ =
        [⟨"n/a".toList, 2 ^ 64 - 1⟩, ⟨"n/b".toList, 2⟩] ∧
      (parseImpl sampleExternals emptyMetainfo negativeLengthTorrent []).2.block_info_.total_size
        = 1 ∧
      (((parseImpl sampleExternals emptyMetainfo negativeLengthTorrent []).2.files_.map
        file_t.size).sum ≠ 1) := by
  decide

/-! ## Lemmas: add, remove, replace and nextTier -/

theorem findIdx_split {α : Type} (p : α → Bool) (xs : List α) (h : xs.findIdx p < xs.length) :
    ∃ (pre post : List α) (x : α), xs = pre ++ x :: post ∧ p x = true ∧
      (∀ y ∈ pre, p y = false) ∧ pre.length = xs.findIdx p ∧
      xs.eraseIdx (xs.findIdx p) = pre ++ post := by
  induction xs with
  | nil => simp at h
  | cons a l ih =>
    rw [List.findIdx_cons] at h ⊢
    by_cases hp : p a = true
    · simp only [hp, cond_true]
      exact ⟨[], l, a, rfl, hp, by simp, rfl, rfl⟩
    · simp only [hp, cond_false] at h ⊢
      obtain ⟨pre, post, x, hx, hpx, hpre, hlen, her⟩ := ih (by simpa using h)
      refine ⟨a :: pre, post, x, by rw [hx]; rfl, hpx, ?_, by simp [hlen], ?_⟩
      · intro y hy
        rcases List.mem_cons.mp hy with rfl | hy
        · simpa using hp
        · exact hpre y hy
      · simp [List.eraseIdx_cons_succ, her]

theorem findIdx_eq_length_iff {α : Type} (p : α → Bool) (xs : List α) :
    xs.findIdx p = xs.length ↔ ∀ x ∈ xs, p x = false := by
  constructor
  · intro h x hx
    by_contra hcon
    have := List.findIdx_lt_length_of_exists ⟨x, hx, by simpa using hcon⟩
    omega
  · exact List.findIdx_eq_length_of_false

theorem findIdx_append_cons {α : Type} (p : α → Bool) (pre post : List α) (x : α)
    (hpre : ∀ y ∈ pre, p y = false) (hx : p x = true) :
    (pre ++ x :: post).findIdx p = pre.length := by
  induction pre with
  | nil => simp [List.findIdx_cons, hx]
  | cons a l ih =>
    have ha : p a = false := hpre a (List.mem_cons_self _ _)
    simp only [List.cons_append, List.findIdx_cons, ha, cond_false, List.length_cons]
    rw [ih (fun y hy => hpre y (List.mem_cons_of_mem _ hy))]

section
variable (parse : Str → Option tr_url_parsed_t) (lt : tracker_info → tracker_info → Bool)

theorem add_eq_insert (s : tr_announce_list) (t : Nat) (url : Str) (a : tr_url_parsed_t)
    (hp : parse url = some a) (hc : canAdd s a = true) :
    add parse lt s t url =
      (true, ⟨vector_insert s.trackers_
        (lower_bound lt s.trackers_ (new_tracker parse s t url a))
        (new_tracker parse s t url a), s.id + 1⟩) := by
  simp [add, hp, hc]

theorem add_true_inv (s : tr_announce_list) (t : Nat) (url : Str)
    (hok : (add parse lt s t url).1 = true) :
    ∃ a, parse url = some a ∧ canAdd s a = true := by
  unfold add at hok
  cases hp : parse url with
  | none => simp [hp] at hok
  | some a =>
    by_cases hc : canAdd s a = true
    · exact ⟨a, rfl, hc⟩
    · simp [hp, hc] at hok

theorem add_idsFresh (s : tr_announce_list) (t : Nat) (url : Str) (h : IdsFresh s) :
    IdsFresh (add parse lt s t url).2 := by
  cases hp : parse url with
  | none => simpa [add, hp] using h
  | some a =>
    by_cases hc : canAdd s a = true
    · rw [add_eq_insert parse lt s t url a hp hc]
      have hvid : (new_tracker parse s t url a).id = s.id := rfl
      generalize new_tracker parse s t url a = v at hvid ⊢
      obtain ⟨hid, hpw⟩ := h
      constructor
      · intro r hr
        simp only [vector_insert, List.mem_append, List.mem_cons] at hr
        rcases hr with hr | rfl | hr
        · exact Nat.lt_succ_of_lt (hid r (List.mem_of_mem_take hr))
        · rw [hvid]; exact Nat.lt_succ_self _
        · exact Nat.lt_succ_of_lt (hid r (List.mem_of_mem_drop hr))
      · apply pairwise_vector_insert _ _ _ hpw
        · intro x hx
          rw [hvid]
          exact Nat.ne_of_lt (hid x (List.mem_of_mem_take hx))
        · intro x hx
          rw [hvid]
          exact Nat.ne_of_gt (hid x (List.mem_of_mem_drop hx))
    · simpa [add, hp, hc] using h

theorem eraseIdx_idsFresh (s : tr_announce_list) (k : Nat) (h : IdsFresh s) :
    IdsFresh { s with trackers_ := s.trackers_.eraseIdx k } :=
  ⟨fun r hr => h.1 r ((List.eraseIdx_sublist _ _).subset hr),
    List.Pairwise.sublist (List.eraseIdx_sublist _ _) h.2⟩

theorem foldl_add_idsFresh (entries : List (Nat × Str)) (s : tr_announce_list)
    (h : IdsFresh s) :
    IdsFresh (entries.foldl (fun acc e => (add parse lt acc e.1 e.2).2) s) := by
  induction entries generalizing s with
  | nil => simpa using h
  | cons e es ih =>
    simp only [List.foldl_cons]
    exact ih _ (add_idsFresh parse lt s e.1 e.2 h)

theorem replace_idsFresh (s : tr_announce_list) (id : Nat) (url : Str) (h : IdsFresh s) :
    IdsFresh (replace parse lt s id url).2 := by
  unfold replace
  cases hp : parse url with
  | none => simpa using h
  | some a =>
    by_cases hc : canAdd s a = true
    · simp only [hc, Bool.not_true, Bool.false_eq_true, if_false]
      by_cases hi : find_id s id < s.trackers_.length
      · simp only [hi, dite_true]
        exact add_idsFresh parse lt _ _ _ (eraseIdx_idsFresh s _ h)
      · simpa [hi] using h
    · simpa [hc] using h

theorem reachable_idsFresh (s : tr_announce_list) (h : Reachable parse lt s) : IdsFresh s := by
  induction h with
  | empty n => exact ⟨by simp, List.Pairwise.nil⟩
  | other_id s _ ih => exact ⟨fun r hr => Nat.lt_succ_of_lt (ih.1 r hr), ih.2⟩
  | add s t url _ ih => exact add_idsFresh parse lt s t url ih
  | set s entries _ ih =>
    exact foldl_add_idsFresh parse lt entries _ ⟨by simp, List.Pairwise.nil⟩
  | remove_url s url _ ih =>
    unfold remove_url
    by_cases hi : find_url s url = s.trackers_.length
    · simpa [hi] using ih
    · simpa [hi] using eraseIdx_idsFresh s _ ih
  | remove_id s id _ ih =>
    unfold remove_id
    by_cases hi : find_id s id = s.trackers_.length
    · simpa [hi] using ih
    · simpa [hi] using eraseIdx_idsFresh s _ ih
  | replace s id url _ ih => exact replace_idsFresh parse lt s id url ih

theorem add_addedOne (L : tr_announce_list) (t : Nat) (url : Str) (a : tr_url_parsed_t)
    (hids : ∀ r ∈ L.trackers_, r.id < L.id) (hp : parse url = some a)
    (hc : canAdd L a = true) : AddedOne L (add parse lt L t url).2 url := by
  rw [add_eq_insert parse lt L t url a hp hc]
  have hvid : (new_tracker parse L t url a).id = L.id := rfl
  have hvurl : (new_tracker parse L t url a).announce_str = url := rfl
  generalize new_tracker parse L t url a = v at hvid hvurl ⊢
  generalize lower_bound lt L.trackers_ v = k
  have hsplit : L.trackers_ = L.trackers_.take k ++ L.trackers_.drop k :=
    (List.take_append_drop _ _).symm
  have hne : ∀ x ∈ L.trackers_.take k ++ L.trackers_.drop k, x.id ≠ v.id := by
    intro x hx
    rw [← hsplit] at hx
    rw [hvid]
    exact Nat.ne_of_lt (hids x hx)
  refine ⟨?_, ⟨_, _, v, hsplit, rfl, hvid, hvurl, hne⟩, v, ?_, hvid, hvurl⟩
  · simp only [vector_insert, List.length_append, List.length_cons]
    have := congrArg List.length hsplit
    simp only [List.length_append] at this
    omega
  · unfold find_id
    simp only [vector_insert]
    rw [findIdx_append_cons _ _ _ _ ?_ (by simp [hvid])]
    · rw [List.getElem?_append_right (Nat.le_refl _)]
      simp
    · intro y hy
      have := hne y (List.mem_append_left _ hy)
      rw [hvid] at this
      simpa using this

end

theorem is_sibling_iff (a : tr_url_parsed_t) (t : tracker_info) :
    is_sibling a t = true ↔ same_host_path t.announce a := by
  simp [is_sibling, same_host_path]

theorem getTier_resolved (s : tr_announce_list) (t : Nat) (a : tr_url_parsed_t) :
    TierResolved s.trackers_ a t (getTier s t a) := by
  unfold getTier
  cases hf : s.trackers_.find? (is_sibling a) with
  | none =>
    rw [List.find?_eq_none] at hf
    constructor
    · intro i r hr hsame _
      exact absurd ((is_sibling_iff a r).mpr hsame) (hf r (List.getElem?_mem hr))
    · intro _
      rfl
  | some b =>
    rw [List.find?_eq_some] at hf
    obtain ⟨hb, pre, post, hxs, hpre⟩ := hf
    have hbsame : same_host_path b.announce a := (is_sibling_iff a b).mp hb
    have hbget : s.trackers_[pre.length]? = some b := by
      rw [hxs, List.getElem?_append_right (Nat.le_refl _)]
      simp
    constructor
    · intro i r hr hsame hfirst
      rcases Nat.lt_trichotomy i pre.length with hlt | heq | hgt
      · have hmem : r ∈ pre := by
          rw [hxs, List.getElem?_append_left hlt] at hr
          exact List.getElem?_mem hr
        have := hpre r hmem
        rw [(is_sibling_iff a r).mpr hsame] at this
        exact absurd this (by decide)
      · rw [heq, hbget] at hr
        rw [Option.some.inj hr]
      · exact absurd hbsame (hfirst pre.length b hgt hbget)
    · intro hno
      exact absurd hbsame (hno b (by rw [hxs]; simp))

theorem vector_insert_mem {α : Type} (xs : List α) (k : Nat) (v : α) :
    v ∈ vector_insert xs k v := by
  simp [vector_insert]

theorem mem_vector_insert {α : Type} (xs : List α) (k : Nat) (v x : α)
    (h : x ∈ vector_insert xs k v) : x = v ∨ x ∈ xs := by
  simp only [vector_insert, List.mem_append, List.mem_cons] at h
  rcases h with h | h | h
  · exact Or.inr (List.mem_of_mem_take h)
  · exact Or.inl h
  · exact Or.inr (List.mem_of_mem_drop h)

section
variable (parse : Str → Option tr_url_parsed_t) (lt : tracker_info → tracker_info → Bool)

theorem replace_replaced (L : tr_announce_list) (id : Nat) (url : Str) (hids : IdsFresh L)
    (hok : (replace parse lt L id url).1 = true) :
    Replaced parse L (replace parse lt L id url).2 id url := by
  unfold replace at hok ⊢
  cases hp : parse url with
  | none => simp [hp] at hok
  | some a =>
    simp only [hp] at hok ⊢
    by_cases hc : canAdd L a = true
    · simp only [hc, Bool.not_true, Bool.false_eq_true, if_false] at hok ⊢
      by_cases hi : find_id L id < L.trackers_.length
      · simp only [hi, dite_true] at hok ⊢
        obtain ⟨pre, post, x, hxs, hpx, hpre, hlen, her⟩ :=
          findIdx_split (fun (tracker : tracker_info) => tracker.id == id) L.trackers_ hi
        have hxid : x.id = id := by simpa using hpx
        have hget : L.trackers_.get ⟨find_id L id, hi⟩ = x := by
          have h1 : L.trackers_[find_id L id]? = some x := by
            unfold find_id
            rw [← hlen]
            conv => lhs; rw [hxs]
            rw [List.getElem?_append_right (Nat.le_refl _)]
            simp
          rw [List.getElem?_eq_some_iff] at h1
          obtain ⟨_, h2⟩ := h1
          simpa using h2
        rw [hget]
        have her2 : L.trackers_.eraseIdx (find_id L id) = pre ++ post := her
        rw [her2]
        have hc2 : canAdd { L with trackers_ := pre ++ post } a = true := by
          rw [← her2]
          exact canAdd_eraseIdx L a _ hc
        rw [add_eq_insert parse lt _ x.tier url a hp hc2]
        simp only
        have hpw := hids.2
        rw [hxs, List.pairwise_append, List.pairwise_cons] at hpw
        have hrest : ∀ y ∈ pre ++ post, y.id ≠ id := by
          intro y hy
          rcases List.mem_append.mp hy with hy | hy
          · simpa using hpre y hy
          · rw [← hxid]
            exact fun h => hpw.2.1.1 y hy h.symm
        have hxlt : x.id < L.id := hids.1 x (by rw [hxs]; simp)
        refine ⟨a, x, new_tracker parse { L with trackers_ := pre ++ post } x.tier url a,
          pre, post, hp, hxs, hxid, ?_, vector_insert_mem _ _ _, rfl, ?_⟩
        · intro r hr
          rcases mem_vector_insert _ _ _ _ hr with rfl | hr
          · show L.id ≠ id
            omega
          · exact hrest r hr
        · exact getTier_resolved { L with trackers_ := pre ++ post } x.tier a
      · simp [hi] at hok
    · simp [hc] at hok

theorem nextTier_of_ordered (tier_bits : Nat) (s : tr_announce_list) (h : Ordered s)
    (hb : ∀ r ∈ s.trackers_, r.tier + 1 < 2 ^ tier_bits) :
    NextTierIsMaxPlusOne tier_bits s := by
  unfold NextTierIsMaxPlusOne nextTier
  constructor
  · intro he
    rw [he]
    rfl
  · intro hne
    cases hl : s.trackers_.getLast? with
    | none =>
      rw [List.getLast?_eq_none_iff] at hl
      exact absurd hl hne
    | some b =>
      simp only
      have hmem := List.mem_of_getLast?_eq_some hl
      rw [Nat.mod_eq_of_lt (hb b hmem)]
      rw [List.getLast?_eq_some_iff] at hl
      obtain ⟨ys, hys⟩ := hl
      have hpw := h.1
      rw [hys, List.pairwise_append] at hpw
      refine ⟨⟨b, hmem, rfl⟩, ?_⟩
      intro r hr
      rw [hys] at hr
      rcases List.mem_append.mp hr with hr | hr
      · rcases hpw.2.2 r hr b (by simp) with hlt | heq
        · omega
        · omega
      · rw [List.mem_singleton.mp hr]
        omega

theorem nextTier_reachable_below_largest (tier_bits : Nat) (s : tr_announce_list)
    (h : Reachable parse tracker_info.lt s)
    (hb : ∀ r ∈ s.trackers_, r.tier + 1 < 2 ^ tier_bits) :
    NextTierIsMaxPlusOne tier_bits s :=
  nextTier_of_ordered tier_bits s (reachable_ordered parse s h) hb

theorem findIdx_erasesFirst (L : tr_announce_list) (q : tracker_info → Bool) :
    ErasesFirst (fun r => q r = true) L
      (if L.trackers_.findIdx q = L.trackers_.length then (false, L)
        else (true, { L with trackers_ := L.trackers_.eraseIdx (L.trackers_.findIdx q) })) := by
  by_cases hi : L.trackers_.findIdx q = L.trackers_.length
  · rw [if_pos hi]
    exact ⟨fun h => absurd h Bool.false_ne_true, fun _ => rfl⟩
  · rw [if_neg hi]
    have hlt : L.trackers_.findIdx q < L.trackers_.length :=
      Nat.lt_of_le_of_ne (List.findIdx_le_length q) hi
    obtain ⟨pre, post, x, hxs, hpx, hpre, _, her⟩ := findIdx_split q L.trackers_ hlt
    refine ⟨fun _ => ⟨pre, post, x, hxs, hpx, ?_, by simp only [her]⟩,
      fun h => absurd h Bool.true_eq_false_eq_False⟩
    intro y hy
    simp [hpre y hy]

end

/-! ## Lemmas: what a failed parse leaves -/

theorem parseFiles_eq_with_files (ext : externals) (setme : tr_torrent_metainfo)
    (info_dict : tr_variant) (t0 : Nat) :
    ∃ files, (parseFiles ext setme info_dict t0).2.1 = { setme with files_ := files } := by
  unfold parseFiles
  simp only
  split
  · exact ⟨_, rfl⟩
  · split
    · exact ⟨_, rfl⟩
    · split
      · split <;> exact ⟨_, rfl⟩
      · exact ⟨_, rfl⟩

theorem parseImplFiles_failure_late (ext : externals) (s1 : tr_torrent_metainfo)
    (top info_dict : tr_variant) (piece_size : Nat)
    (h : (parseImplFiles ext s1 top info_dict piece_size).1 ≠ []) :
    (parseImplFiles ext s1 top info_dict piece_size).2.tiers_ = s1.tiers_ ∧
      (parseImplFiles ext s1 top info_dict piece_size).2.webseed_urls_ = s1.webseed_urls_ := by
  obtain ⟨files, hf⟩ := parseFiles_eq_with_files ext s1 info_dict 0
  unfold parseImplFiles at h ⊢
  simp only at h ⊢
  by_cases herr : (!(parseFiles ext s1 info_dict 0).1.isEmpty) = true
  · rw [if_pos herr, hf]
    exact ⟨rfl, rfl⟩
  · rw [if_neg herr] at h ⊢
    by_cases hnone : (parseFiles ext s1 info_dict 0).2.1.files_.isEmpty = true ∨
        (parseFiles ext s1 info_dict 0).2.2 = 0
    · rw [if_pos hnone, hf]
      exact ⟨rfl, rfl⟩
    · rw [if_neg hnone] at h ⊢
      by_cases hcount : (initSizes (parseFiles ext s1 info_dict 0).2.2 piece_size).n_pieces ≠
          (parseFiles ext s1 info_dict 0).2.1.pieces_.length
      · rw [if_pos hcount, hf]
        exact ⟨rfl, rfl⟩
      · rw [if_neg hcount] at h
        exact absurd rfl h

theorem parseImplSizes_failure_late (ext : externals) (setme : tr_torrent_metainfo)
    (top info_dict : tr_variant) (h : (parseImplSizes ext setme top info_dict).1 ≠ []) :
    (parseImplSizes ext setme top info_dict).2.tiers_ = setme.tiers_ ∧
      (parseImplSizes ext setme top info_dict).2.webseed_urls_ = setme.webseed_urls_ := by
  unfold parseImplSizes at h ⊢
  cases hpl : (tr_variantDictFindInt info_dict TR_KEY_piece_length).filter
      (fun i => decide (i.val > 0)) with
  | none => exact ⟨rfl, rfl⟩
  | some i =>
    simp only [hpl] at h ⊢
    cases hps : (tr_variantDictFindStrView info_dict TR_KEY_pieces).filter
        (fun sv => decide (sv.length % 20 = 0)) with
    | none => exact ⟨rfl, rfl⟩
    | some sv =>
      simp only [hps] at h ⊢
      exact parseImplFiles_failure_late ext _ top info_dict _ h

theorem parseImpl_failure_late (ext : externals) (setme : tr_torrent_metainfo)
    (top : tr_variant) (benc : Str) (h : (parseImpl ext setme top benc).1 ≠ []) :
    (parseImpl ext setme top benc).2.tiers_ = setme.tiers_ ∧
      (parseImpl ext setme top benc).2.webseed_urls_ = setme.webseed_urls_ := by
  unfold parseImpl at h ⊢
  cases hinfo : tr_variantDictFindDict top TR_KEY_info with
  | none => exact ⟨rfl, rfl⟩
  | some info_dict =>
    simp only [hinfo] at h ⊢
    cases hname : (tr_variantDictFindStrView info_dict TR_KEY_name_utf_8).orElse
        (fun _ => tr_variantDictFindStrView info_dict TR_KEY_name) with
    | none => exact ⟨rfl, rfl⟩
    | some sv =>
      simp only [hname] at h ⊢
      exact parseImplSizes_failure_late ext _ top info_dict h

theorem parseImpl_no_info (ext : externals) (setme : tr_torrent_metainfo)
    (top : tr_variant) (benc : Str) (h : tr_variantDictFindDict top TR_KEY_info = none) :
    (parseImpl ext setme top benc).2 = setme := by
  unfold parseImpl
  simp only [h]

theorem parseImpl_no_piece_length (ext : externals) (setme : tr_torrent_metainfo)
    (top info_dict : tr_variant) (benc sv : Str)
    (hinfo : tr_variantDictFindDict top TR_KEY_info = some info_dict)
    (hname : (tr_variantDictFindStrView info_dict TR_KEY_name_utf_8).orElse
      (fun _ => tr_variantDictFindStrView info_dict TR_KEY_name) = some sv)
    (hpl : (tr_variantDictFindInt info_dict TR_KEY_piece_length).filter
      (fun i => decide (i.val > 0)) = none) :
    (parseImpl ext setme top benc).2.pieces_ = setme.pieces_ ∧
      (parseImpl ext setme top benc).2.files_ = setme.files_ ∧
      (parseImpl ext setme top benc).2.block_info_ = setme.block_info_ ∧
      (parseImpl ext setme top benc).2.info_hash_ = ext.tr_sha1 (ext.tr_variantToStr info_dict) ∧
      (parseImpl ext setme top benc).2.name_ = (ext.tr_utf8clean sv).getD [] := by
  have h : ∃ s1 : tr_torrent_metainfo, parseImpl ext setme top benc =
      parseImplSizes ext s1 top info_dict ∧ s1.pieces_ = setme.pieces_ ∧
      s1.files_ = setme.files_ ∧ s1.block_info_ = setme.block_info_ ∧
      s1.info_hash_ = ext.tr_sha1 (ext.tr_variantToStr info_dict) ∧
      s1.name_ = (ext.tr_utf8clean sv).getD [] := by
    unfold parseImpl
    simp only [hinfo, hname]
    exact ⟨_, rfl, rfl, rfl, rfl, rfl, rfl⟩
  obtain ⟨s1, heq, h1, h2, h3, h4, h5⟩ := h
  have h2 : (parseImplSizes ext s1 top info_dict).2 = s1 := by
    unfold parseImplSizes
    simp only [hpl]
  rw [heq, h2]
  exact ⟨h1, by assumption, h3, h4, h5⟩

theorem parseBenc_eq_of_decode (ext : externals) (dec : Str → Option tr_variant)
    (this : tr_torrent_metainfo) (benc : Str) (top : tr_variant) (hdec : dec benc = some top) :
    parseBenc ext dec this benc =
      (if (!(parseImpl ext this top benc).1.isEmpty) = true then
        (false, (parseImpl ext this top benc).2)
      else (true, (parseImpl ext this top benc).2)) := by
  unfold parseBenc
  simp only [hdec]

theorem parseBenc_failureLeaves (ext : externals) (dec : Str → Option tr_variant)
    (this : tr_torrent_metainfo) (benc : Str) (h : (parseBenc ext dec this benc).1 = false) :
    FailureLeaves ext dec this benc (parseBenc ext dec this benc).2 := by
  unfold FailureLeaves
  cases hdec : dec benc with
  | none =>
    have hres : (parseBenc ext dec this benc).2 = this := by
      unfold parseBenc
      simp only [hdec]
    rw [hres]
    exact ⟨rfl, rfl, fun _ => rfl, fun top _ _ ht => absurd ht (by simp)⟩
  | some top =>
    rw [parseBenc_eq_of_decode ext dec this benc top hdec] at h ⊢
    by_cases herr : (!(parseImpl ext this top benc).1.isEmpty) = true
    · rw [if_pos herr]
      have hne : (parseImpl ext this top benc).1 ≠ [] := by
        intro h0
        rw [h0] at herr
        exact absurd herr (by decide)
      have hlate := parseImpl_failure_late ext this top benc hne
      refine ⟨hlate.1, hlate.2, ?_, ?_⟩
      · rintro (hnone | ⟨top2, htop, hinfo⟩)
        · exact absurd hnone (by simp)
        · rw [← Option.some.inj htop] at hinfo
          exact parseImpl_no_info ext this top benc hinfo
      · intro top2 info_dict sv htop hinfo hname hpl
        rw [← Option.some.inj htop] at hinfo
        exact parseImpl_no_piece_length ext this top info_dict benc sv hinfo hname hpl
    · rw [if_neg herr] at h
      exact absurd h Bool.true_eq_false_eq_False

theorem save_writesOnlyAfterVerify {FS : Type} (ext : externals) (sx : save_externals FS)
    (s : tr_announce_list) (fs : FS) (torrent_file : Str) :
    WritesOnlyAfterVerify ext sx s fs torrent_file := by
  unfold WritesOnlyAfterVerify save save_bytes
  refine ⟨fun h => by simp only [h], fun metainfo h hv => by simp [h, hv], ?_⟩
  cases hload : sx.tr_variantFromFile fs torrent_file with
  | none => exact fun h => absurd rfl h
  | some metainfo =>
    simp only
    by_cases hv : (parseBenc ext sx.tr_variantFromBuf emptyMetainfo
        (ext.tr_variantToStr (save_metainfo s metainfo))).1 = true
    · intro _
      exact ⟨metainfo, rfl, hv, by simp [hv]⟩
    · intro h
      simp [hv] at h

/-! ## Lemmas: the dictionary built by save -/

theorem urls_of_tier_append_ne (xs : List tracker_info) (x : tracker_info) (t : Nat)
    (h : x.tier ≠ t) : urls_of_tier (xs ++ [x]) t = urls_of_tier xs t := by
  simp [urls_of_tier, List.filter_append, List.filter_cons, h]

theorem urls_of_tier_append_eq (xs : List tracker_info) (x : tracker_info) :
    urls_of_tier (xs ++ [x]) x.tier = urls_of_tier xs x.tier ++ [x.announce_str] := by
  simp [urls_of_tier, List.filter_append, List.filter_cons]

theorem urls_of_tier_eq_nil (xs : List tracker_info) (t : Nat) (h : ∀ r ∈ xs, r.tier ≠ t) :
    urls_of_tier xs t = [] := by
  simp only [urls_of_tier, List.map_eq_nil_iff, List.filter_eq_nil_iff]
  intro r hr
  simpa using h r hr

theorem tier_le_last (ys : List tracker_info) (b : tracker_info)
    (hs : (ys ++ [b]).Pairwise (fun a c => a.tier ≤ c.tier)) :
    ∀ r ∈ ys ++ [b], r.tier ≤ b.tier := by
  rw [List.pairwise_append] at hs
  intro r hr
  rcases List.mem_append.mp hr with hr | hr
  · exact hs.2.2 r hr b (by simp)
  · rw [List.mem_singleton.mp hr]

theorem save_tier_step_grouped (xs : List tracker_info) (x : tracker_info)
    (st : List (List Str) × Option Nat)
    (hs : (xs ++ [x]).Pairwise (fun a c => a.tier ≤ c.tier)) (h : GroupedByTier xs st) :
    GroupedByTier (xs ++ [x]) (save_tier_step st x) := by
  obtain ⟨tiers, hpw, hmem, h1, h2, h3⟩ := h
  have hle := tier_le_last xs x hs
  have hsx : xs.Pairwise (fun a c => a.tier ≤ c.tier) := (List.pairwise_append.mp hs).1
  have hlast' : (xs ++ [x]).getLast?.map (fun r => r.tier) = some x.tier := by
    rw [List.getLast?_concat]
    rfl
  by_cases hlast : xs.getLast?.map (fun r => r.tier) = some x.tier
  · -- the record joins the last inner list
    rw [hlast] at h2 h3
    obtain ⟨init, hinit⟩ := List.getLast?_eq_some_iff.mp h3
    have hinit_lt : ∀ t ∈ init, t < x.tier := by
      intro t ht
      rw [hinit, List.pairwise_append] at hpw
      exact hpw.2.2 t ht x.tier (by simp)
    have hstep : save_tier_step st x =
        (init.map (urls_of_tier xs) ++ [urls_of_tier xs x.tier ++ [x.announce_str]],
          some x.tier) := by
      unfold save_tier_step
      have hne : st.1.isEmpty = false := by
        rw [h1, hinit]
        simp
      rw [if_neg (by simp [hne, h2])]
      rw [h1, hinit, h2]
      simp
    rw [hstep]
    refine ⟨tiers, hpw, ?_, ?_, hlast'.symm, by rw [h3, hlast']⟩
    · intro t
      rw [hmem t]
      constructor
      · rintro ⟨r, hr, hrt⟩
        exact ⟨r, List.mem_append_left _ hr, hrt⟩
      · rintro ⟨r, hr, hrt⟩
        rcases List.mem_append.mp hr with hr | hr
        · exact ⟨r, hr, hrt⟩
        · rw [List.mem_singleton.mp hr] at hrt
          rw [← hrt]
          exact (hmem x.tier).mp (by rw [hinit]; simp)
    · rw [hinit, List.map_append, List.map_singleton, urls_of_tier_append_eq]
      show _ ++ _ = _ ++ _
      congr 1
      apply List.map_congr_left
      intro t ht
      exact (urls_of_tier_append_ne xs x t (Nat.ne_of_gt (hinit_lt t ht))).symm
  · -- the record opens a new inner list
    have hstep : save_tier_step st x = (st.1 ++ [[x.announce_str]], some x.tier) := by
      unfold save_tier_step
      rw [if_pos (Or.inr (Or.inr (by rw [h2]; exact hlast)))]
    have hlt : ∀ r ∈ xs, r.tier < x.tier := by
      intro r hr
      apply Nat.lt_of_le_of_ne (hle r (List.mem_append_left _ hr))
      intro heq
      cases hl : xs.getLast? with
      | none =>
        rw [List.getLast?_eq_none_iff] at hl
        rw [hl] at hr
        exact absurd hr (List.not_mem_nil _)
      | some b =>
        obtain ⟨ys, hys⟩ := List.getLast?_eq_some_iff.mp hl
        have hb1 : r.tier ≤ b.tier := tier_le_last ys b (hys ▸ hsx) r (hys ▸ hr)
        have hb2 : b.tier ≤ x.tier := hle b (List.mem_append_left _ (by rw [hys]; simp))
        apply hlast
        rw [hl]
        simp only [Option.map_some', Option.some.injEq]
        omega
    have htiers_lt : ∀ t ∈ tiers, t < x.tier := by
      intro t ht
      obtain ⟨r, hr, hrt⟩ := (hmem t).mp ht
      rw [← hrt]
      exact hlt r hr
    rw [hstep]
    refine ⟨tiers ++ [x.tier], ?_, ?_, ?_, hlast'.symm, by rw [List.getLast?_concat, hlast']⟩
    · rw [List.pairwise_append]
      refine ⟨hpw, List.pairwise_singleton _ _, ?_⟩
      intro a ha b hb
      rw [List.mem_singleton.mp hb]
      exact htiers_lt a ha
    · intro t
      rw [List.mem_append, hmem t]
      constructor
      · rintro (⟨r, hr, hrt⟩ | ht)
        · exact ⟨r, List.mem_append_left _ hr, hrt⟩
        · exact ⟨x, by simp, (List.mem_singleton.mp ht).symm⟩
      · rintro ⟨r, hr, hrt⟩
        rcases List.mem_append.mp hr with hr | hr
        · exact Or.inl ⟨r, hr, hrt⟩
        · rw [List.mem_singleton.mp hr] at hrt
          exact Or.inr (by simp [hrt])
    · rw [List.map_append, List.map_singleton, urls_of_tier_append_eq,
        urls_of_tier_eq_nil xs x.tier (fun r hr => Nat.ne_of_lt (hlt r hr)), h1]
      show _ ++ _ = _ ++ _
      congr 1
      apply List.map_congr_left
      intro t ht
      exact (urls_of_tier_append_ne xs x t (Nat.ne_of_gt (htiers_lt t ht))).symm

theorem save_loop_grouped (xs : List tracker_info)
    (hs : xs.Pairwise (fun a c => a.tier ≤ c.tier)) :
    GroupedByTier xs (xs.foldl save_tier_step ([], none)) := by
  induction xs using List.reverseRecOn with
  | nil => exact ⟨[], List.Pairwise.nil, by simp, rfl, rfl, rfl⟩
  | append_singleton xs x ih =>
    rw [List.foldl_append]
    exact save_tier_step_grouped xs x _ hs (ih (List.pairwise_append.mp hs).1)

theorem dict_find_filter_ne (d : List (Str × tr_variant)) (k key : Str) (h : key ≠ k) :
    (d.filter (fun kv => !(kv.1 == k))).find? (fun kv => kv.1 == key) =
      d.find? (fun kv => kv.1 == key) := by
  induction d with
  | nil => rfl
  | cons e rest ih =>
    by_cases hk : e.1 = k
    · have hne : (e.1 == key) = false := by
        rw [beq_eq_false_iff_ne, hk]
        exact fun h2 => h h2.symm
      have hf : (!(e.1 == k)) = false := by simp [hk]
      rw [List.filter_cons, if_neg (by simp [hf]), List.find?_cons, hne, ih]
    · have hf : (!(e.1 == k)) = true := by simp [hk]
      rw [List.filter_cons, if_pos hf, List.find?_cons, List.find?_cons, ih]

theorem dict_find_filter_eq (d : List (Str × tr_variant)) (k : Str) :
    (d.filter (fun kv => !(kv.1 == k))).find? (fun kv => kv.1 == k) = none := by
  rw [List.find?_eq_none]
  intro x hx
  simpa using (List.mem_filter.mp hx).2

theorem find_removed (d : List (Str × tr_variant)) (key : Str) :
    tr_variantDictFind (tr_variantDictRemove (tr_variantDictRemove (.dict d) TR_KEY_announce)
        TR_KEY_announce_list) key =
      if key = TR_KEY_announce ∨ key = TR_KEY_announce_list then none
      else tr_variantDictFind (.dict d) key := by
  simp only [tr_variantDictRemove, tr_variantDictFind]
  by_cases h2 : key = TR_KEY_announce_list
  · rw [if_pos (Or.inr h2), h2, dict_find_filter_eq]
    rfl
  · rw [dict_find_filter_ne _ _ _ h2]
    by_cases h1 : key = TR_KEY_announce
    · rw [if_pos (Or.inl h1), h1, dict_find_filter_eq]
      rfl
    · rw [dict_find_filter_ne _ _ _ h1, if_neg (by simp [h1, h2])]

theorem find_added (d : List (Str × tr_variant)) (k key : Str) (c : tr_variant) :
    tr_variantDictFind (tr_variantDictAdd (.dict d) k c) key =
      (tr_variantDictFind (.dict d) key).or (if k = key then some c else none) := by
  simp only [tr_variantDictAdd, tr_variantDictFind, List.find?_append]
  cases hf : d.find? (fun kv => kv.1 == key) with
  | some x => simp
  | none =>
    by_cases hk : k = key
    · simp [hk]
    · simp [hk]

theorem removed_is_dict (d : List (Str × tr_variant)) :
    ∃ d2, tr_variantDictRemove (tr_variantDictRemove (.dict d) TR_KEY_announce)
      TR_KEY_announce_list = .dict d2 :=
  ⟨_, rfl⟩

theorem save_metainfo_saved (s : tr_announce_list) (d : List (Str × tr_variant))
    (hs : s.trackers_.Pairwise (fun a c => a.tier ≤ c.tier)) :
    SavedAnnounce s d (save_metainfo s (.dict d)) := by
  have hkeys : TR_KEY_announce ≠ TR_KEY_announce_list := by decide
  have hrem := find_removed d
  obtain ⟨d2, hd2⟩ := removed_is_dict d
  unfold save_metainfo
  simp only
  rw [hd2] at hrem ⊢
  by_cases h1 : s.trackers_.length = 1
  · rw [dif_pos h1]
    have hfind : ∀ key, tr_variantDictFind (tr_variantDictAdd (.dict d2) TR_KEY_announce
        (.str (s.trackers_.get ⟨0, by omega⟩).announce_str)) key =
        (tr_variantDictFind (.dict d2) key).or (if TR_KEY_announce = key then
          some (.str (s.trackers_.get ⟨0, by omega⟩).announce_str) else none) :=
      fun key => find_added d2 _ key _
    refine ⟨?_, ?_, ?_, ?_⟩
    · intro key hk1 hk2
      rw [hfind, hrem, if_neg (by simp [hk1, hk2]), if_neg (fun h => hk1 h.symm)]
      simp
    · intro he
      rw [he] at h1
      exact absurd h1 (by decide)
    · intro t ht
      rw [hfind, hfind, hrem, hrem]
      simp only [true_or, or_true, if_true, if_neg hkeys]
      simp [ht]
    · intro hlt
      omega
  · rw [dif_neg h1]
    by_cases h2 : s.trackers_.length > 1
    · rw [if_pos h2]
      have hfind := fun key => find_added d2 TR_KEY_announce_list key
        (.list ((save_tier_list s.trackers_).map (fun urls => .list (urls.map .str))))
      refine ⟨?_, ?_, ?_, ?_⟩
      · intro key hk1 hk2
        rw [hfind, hrem, if_neg (by simp [hk1, hk2]), if_neg (fun h => hk2 h.symm)]
        simp
      · intro he
        rw [he] at h2
        exact absurd h2 (by decide)
      · intro t ht
        rw [ht] at h1
        exact absurd rfl h1
      · intro _
        obtain ⟨tiers, hpw, hmem, hg, _, _⟩ := save_loop_grouped s.trackers_ hs
        refine ⟨?_, tiers, hpw, hmem, ?_⟩
        · rw [hfind, hrem]
          simp only [true_or, if_true, if_neg hkeys.symm]
          rfl
        · rw [hfind, hrem]
          simp only [or_true, if_true]
          unfold save_tier_list
          rw [hg]
          simp
    · rw [if_neg h2]
      have hnil : s.trackers_ = [] := by
        apply List.eq_nil_of_length_eq_zero
        omega
      refine ⟨?_, ?_, ?_, ?_⟩
      · intro key hk1 hk2
        rw [hrem, if_neg (by simp [hk1, hk2])]
      · intro _
        rw [hrem, hrem]
        simp
      · intro t ht
        rw [ht] at hnil
        exact absurd hnil (by simp)
      · intro hlt
        omega


/-! ## Lemmas: the hash forms -/

theorem hex_value_hex_digit : ∀ v, v < 16 → hex_value (hex_digit v) = v := by
  decide

theorem tr_hex_to_sha1_hexForm (d : Str) (h : ∀ c ∈ d, c.toNat < 256) :
    tr_hex_to_sha1 (hexForm d) = d := by
  induction d with
  | nil => rfl
  | cons c d ih =>
    have hc : c.toNat < 256 := h c (List.mem_cons_self _ _)
    have h1 : hexForm (c :: d)
        = hex_digit (c.toNat / 16) :: hex_digit (c.toNat % 16) :: hexForm d := by
      simp [hexForm, List.flatMap_cons]
    rw [h1, tr_hex_to_sha1, ih (fun x hx => h x (List.mem_cons_of_mem _ hx)),
      hex_value_hex_digit _ (by omega), hex_value_hex_digit _ (by omega)]
    have h2 : c.toNat / 16 * 16 + c.toNat % 16 = c.toNat := by omega
    rw [h2, Char.ofNat_toNat]

theorem hexForm_length (d : Str) : (hexForm d).length = 2 * d.length := by
  induction d with
  | nil => rfl
  | cons c d ih =>
    have h1 : hexForm (c :: d)
        = hex_digit (c.toNat / 16) :: hex_digit (c.toNat % 16) :: hexForm d := by
      simp [hexForm, List.flatMap_cons]
    rw [h1]
    simp only [List.length_cons, ih]
    omega

theorem base32_lookup_alphabet : ∀ v, v < 32 →
    ¬ (base32Alphabet.getD v 'A').toNat < '0'.toNat ∧
      Base32Lookup.getD ((base32Alphabet.getD v 'A').toNat - '0'.toNat) 0xFF = v := by
  decide

theorem lor_eq_add (k a b : Nat) (ha : a % 2 ^ k = 0) (hb : b < 2 ^ k) : a ||| b = a + b := by
  have h := Nat.mul_add_lt_is_or hb (a / 2 ^ k)
  have h2 : 2 ^ k * (a / 2 ^ k) = a := by
    have := Nat.div_add_mod a (2 ^ k)
    omega
  rw [h2] at h
  exact h.symm

theorem or_into_at (D : List Nat) (cur : Nat) (zs : List Nat) (n v : Nat) (hn : n = D.length) :
    or_into (D ++ cur :: zs) n v = D ++ ((cur ||| v) % 256) :: zs := by
  subst hn
  have h1 : (D ++ cur :: zs).getD D.length 0 = cur := by
    rw [List.getD_eq_getElem?_getD, List.getElem?_append_right (Nat.le_refl _)]
    simp
  unfold or_into
  rw [h1]
  simp

theorem base32_loop_digit (ch : Char) (rest : List Char) (st : base32_state) (v : Nat)
    (hv : v < 32) (hch : ¬ ch.toNat < '0'.toNat)
    (hd : Base32Lookup.getD (ch.toNat - '0'.toNat) 0xFF = v) :
    base32_loop (ch :: rest) st =
      if st.index ≤ 3 then
        if (st.index + 5) % 8 = 0 then
          if st.offset + 1 ≥ 20 then ⟨or_into st.out st.offset v, (st.index + 5) % 8, st.offset + 1⟩
          else base32_loop rest ⟨or_into st.out st.offset v, (st.index + 5) % 8, st.offset + 1⟩
        else
          base32_loop rest
            ⟨or_into st.out st.offset (v <<< (8 - (st.index + 5) % 8)), (st.index + 5) % 8,
              st.offset⟩
      else
        if st.offset + 1 ≥ 20 then
          ⟨or_into st.out st.offset (v >>> ((st.index + 5) % 8)), (st.index + 5) % 8,
            st.offset + 1⟩
        else
          base32_loop rest
            ⟨or_into (or_into st.out st.offset (v >>> ((st.index + 5) % 8))) (st.offset + 1)
              (v <<< (8 - (st.index + 5) % 8)), (st.index + 5) % 8, st.offset + 1⟩ := by
  have hne : v ≠ 0xFF := by omega
  rw [base32_loop]
  simp only [hd, if_neg hch, if_neg hne]

theorem base32_step_lo (D : List Nat) (cur : Nat) (zs : List Nat) (idx : Nat) (ch : Char)
    (rest : List Char) (v : Nat) (hv : v < 32) (hch : ¬ ch.toNat < '0'.toNat)
    (hd : Base32Lookup.getD (ch.toNat - '0'.toNat) 0xFF = v) (hidx : idx < 3) :
    base32_loop (ch :: rest) ⟨D ++ cur :: zs, idx, D.length⟩ =
      base32_loop rest ⟨D ++ ((cur ||| v <<< (3 - idx)) % 256) :: zs, idx + 5, D.length⟩ := by
  rw [base32_loop_digit ch rest _ v hv hch hd]
  have h1 : (idx + 5) % 8 = idx + 5 := by omega
  have h2 : 8 - (idx + 5) = 3 - idx := by omega
  simp only [h1, h2]
  rw [if_pos (by omega), if_neg (by omega), or_into_at D cur zs _ _ rfl]

theorem base32_step_eq (D : List Nat) (cur : Nat) (zs : List Nat) (ch : Char)
    (rest : List Char) (v : Nat) (hv : v < 32) (hch : ¬ ch.toNat < '0'.toNat)
    (hd : Base32Lookup.getD (ch.toNat - '0'.toNat) 0xFF = v) :
    base32_loop (ch :: rest) ⟨D ++ cur :: zs, 3, D.length⟩ =
      if D.length + 1 ≥ 20 then ⟨D ++ ((cur ||| v) % 256) :: zs, 0, D.length + 1⟩
      else base32_loop rest ⟨D ++ ((cur ||| v) % 256) :: zs, 0, D.length + 1⟩ := by
  rw [base32_loop_digit ch rest _ v hv hch hd]
  simp only [Nat.le_refl, if_true, Nat.reduceAdd, Nat.mod_self, or_into_at D cur zs _ _ rfl]

theorem base32_step_hi (D : List Nat) (cur z : Nat) (zs : List Nat) (idx : Nat) (ch : Char)
    (rest : List Char) (v : Nat) (hv : v < 32) (hch : ¬ ch.toNat < '0'.toNat)
    (hd : Base32Lookup.getD (ch.toNat - '0'.toNat) 0xFF = v) (h4 : 4 ≤ idx) (h8 : idx < 8)
    (hlen : D.length + 1 < 20) :
    base32_loop (ch :: rest) ⟨D ++ cur :: z :: zs, idx, D.length⟩ =
      base32_loop rest
        ⟨(D ++ [(cur ||| v >>> (idx - 3)) % 256]) ++ ((z ||| v <<< (11 - idx)) % 256) :: zs,
          idx - 3, (D ++ [(cur ||| v >>> (idx - 3)) % 256]).length⟩ := by
  rw [base32_loop_digit ch rest _ v hv hch hd]
  have h1 : (idx + 5) % 8 = idx - 3 := by omega
  have h2 : 8 - (idx - 3) = 11 - idx := by omega
  simp only [h1, h2]
  rw [if_neg (by omega), if_neg (by omega), or_into_at D cur (z :: zs) _ _ rfl]
  have h3 : D ++ ((cur ||| v >>> (idx - 3)) % 256) :: z :: zs
      = (D ++ [(cur ||| v >>> (idx - 3)) % 256]) ++ z :: zs := by simp
  rw [h3, or_into_at _ z zs _ _ (by simp)]
  simp

theorem base32_loop_block (D zs : List Nat) (rest : List Char) (v0 v1 v2 v3 v4 v5 v6 v7 : Nat)
    (h0 : v0 < 32) (h1 : v1 < 32) (h2 : v2 < 32) (h3 : v3 < 32) (h4 : v4 < 32) (h5 : v5 < 32)
    (h6 : v6 < 32) (h7 : v7 < 32) (hlen : D.length + 5 ≤ 20) :
    base32_loop
        (base32Alphabet.getD v0 'A' :: base32Alphabet.getD v1 'A' :: base32Alphabet.getD v2 'A' ::
          base32Alphabet.getD v3 'A' :: base32Alphabet.getD v4 'A' :: base32Alphabet.getD v5 'A' ::
          base32Alphabet.getD v6 'A' :: base32Alphabet.getD v7 'A' :: rest)
        ⟨D ++ 0 :: 0 :: 0 :: 0 :: 0 :: zs, 0, D.length⟩ =
      if D.length + 5 ≥ 20 then
        ⟨D ++ (((0 ||| v0 <<< 3) % 256 ||| v1 >>> 2) % 256) ::
            ((((0 ||| v1 <<< 6) % 256 ||| v2 <<< 1) % 256 ||| v3 >>> 4) % 256) ::
            (((0 ||| v3 <<< 4) % 256 ||| v4 >>> 1) % 256) ::
            ((((0 ||| v4 <<< 7) % 256 ||| v5 <<< 2) % 256 ||| v6 >>> 3) % 256) ::
            (((0 ||| v6 <<< 5) % 256 ||| v7) % 256) :: zs, 0, D.length + 5⟩
      else
        base32_loop rest
          ⟨D ++ (((0 ||| v0 <<< 3) % 256 ||| v1 >>> 2) % 256) ::
            ((((0 ||| v1 <<< 6) % 256 ||| v2 <<< 1) % 256 ||| v3 >>> 4) % 256) ::
            (((0 ||| v3 <<< 4) % 256 ||| v4 >>> 1) % 256) ::
            ((((0 ||| v4 <<< 7) % 256 ||| v5 <<< 2) % 256 ||| v6 >>> 3) % 256) ::
            (((0 ||| v6 <<< 5) % 256 ||| v7) % 256) :: zs, 0, D.length + 5⟩ := by
  have l0 := base32_lookup_alphabet v0 h0
  have l1 := base32_lookup_alphabet v1 h1
  have l2 := base32_lookup_alphabet v2 h2
  have l3 := base32_lookup_alphabet v3 h3
  have l4 := base32_lookup_alphabet v4 h4
  have l5 := base32_lookup_alphabet v5 h5
  have l6 := base32_lookup_alphabet v6 h6
  have l7 := base32_lookup_alphabet v7 h7
  rw [base32_step_lo D 0 _ 0 _ _ v0 h0 l0.1 l0.2 (by omega)]
  simp only [Nat.reduceAdd, Nat.reduceSub]
  rw [base32_step_hi D _ 0 _ 5 _ _ v1 h1 l1.1 l1.2 (by omega) (by omega) (by omega)]
  simp only [Nat.reduceAdd, Nat.reduceSub]
  rw [base32_step_lo _ _ _ 2 _ _ v2 h2 l2.1 l2.2 (by omega)]
  simp only [Nat.reduceAdd, Nat.reduceSub]
  rw [base32_step_hi _ _ 0 _ 7 _ _ v3 h3 l3.1 l3.2 (by omega) (by omega)
    (by simp only [List.length_append, List.length_singleton]; omega)]
  simp only [Nat.reduceAdd, Nat.reduceSub]
  rw [base32_step_hi _ _ 0 _ 4 _ _ v4 h4 l4.1 l4.2 (by omega) (by omega)
    (by simp only [List.length_append, List.length_singleton]; omega)]
  simp only [Nat.reduceAdd, Nat.reduceSub]
  rw [base32_step_lo _ _ _ 1 _ _ v5 h5 l5.1 l5.2 (by omega)]
  simp only [Nat.reduceAdd, Nat.reduceSub]
  rw [base32_step_hi _ _ 0 _ 6 _ _ v6 h6 l6.1 l6.2 (by omega) (by omega)
    (by simp only [List.length_append, List.length_singleton]; omega)]
  simp only [Nat.reduceAdd, Nat.reduceSub]
  rw [base32_step_eq _ _ _ _ _ v7 h7 l7.1 l7.2]
  simp only [List.length_append, List.length_singleton, List.length_cons, List.length_nil,
    List.append_assoc, List.singleton_append, List.cons_append, List.nil_append, Nat.add_assoc,
    Nat.reduceAdd]

theorem base32_byte0 (b0 b1 : Nat) (h0 : b0 < 256) (h1 : b1 < 256) :
    ((0 ||| (b0 / 8) <<< 3) % 256 ||| ((b0 % 8) * 4 + b1 / 64) >>> 2) % 256 = b0 := by
  rw [Nat.zero_or, Nat.shiftLeft_eq, Nat.shiftRight_eq_div_pow]
  simp only [Nat.reducePow]
  rw [lor_eq_add 3 _ _ (by simp only [Nat.reducePow]; omega) (by simp only [Nat.reducePow]; omega)]
  omega

theorem base32_byte1 (b0 b1 b2 : Nat) (h1 : b1 < 256) (h2 : b2 < 256) :
    (((0 ||| ((b0 % 8) * 4 + b1 / 64) <<< 6) % 256 ||| ((b1 / 2) % 32) <<< 1) % 256 |||
      ((b1 % 2) * 16 + b2 / 16) >>> 4) % 256 = b1 := by
  rw [Nat.zero_or, Nat.shiftLeft_eq, Nat.shiftLeft_eq, Nat.shiftRight_eq_div_pow]
  simp only [Nat.reducePow]
  rw [lor_eq_add 6 _ (b1 / 2 % 32 * 2) (by simp only [Nat.reducePow]; omega)
    (by simp only [Nat.reducePow]; omega)]
  rw [lor_eq_add 1 _ _ (by simp only [Nat.reducePow]; omega) (by simp only [Nat.reducePow]; omega)]
  omega

theorem base32_byte2 (b1 b2 b3 : Nat) (h2 : b2 < 256) (h3 : b3 < 256) :
    ((0 ||| ((b1 % 2) * 16 + b2 / 16) <<< 4) % 256 ||| ((b2 % 16) * 2 + b3 / 128) >>> 1) % 256
      = b2 := by
  rw [Nat.zero_or, Nat.shiftLeft_eq, Nat.shiftRight_eq_div_pow]
  simp only [Nat.reducePow]
  rw [lor_eq_add 4 _ _ (by simp only [Nat.reducePow]; omega) (by simp only [Nat.reducePow]; omega)]
  omega

theorem base32_byte3 (b2 b3 b4 : Nat) (h3 : b3 < 256) (h4 : b4 < 256) :
    (((0 ||| ((b2 % 16) * 2 + b3 / 128) <<< 7) % 256 ||| ((b3 / 4) % 32) <<< 2) % 256 |||
      ((b3 % 4) * 8 + b4 / 32) >>> 3) % 256 = b3 := by
  rw [Nat.zero_or, Nat.shiftLeft_eq, Nat.shiftLeft_eq, Nat.shiftRight_eq_div_pow]
  simp only [Nat.reducePow]
  rw [lor_eq_add 7 _ (b3 / 4 % 32 * 4) (by simp only [Nat.reducePow]; omega)
    (by simp only [Nat.reducePow]; omega)]
  rw [lor_eq_add 2 _ _ (by simp only [Nat.reducePow]; omega) (by simp only [Nat.reducePow]; omega)]
  omega

theorem base32_byte4 (b3 b4 : Nat) (h4 : b4 < 256) :
    ((0 ||| ((b3 % 4) * 8 + b4 / 32) <<< 5) % 256 ||| b4 % 32) % 256 = b4 := by
  rw [Nat.zero_or, Nat.shiftLeft_eq]
  simp only [Nat.reducePow]
  rw [lor_eq_add 5 _ _ (by simp only [Nat.reducePow]; omega) (by simp only [Nat.reducePow]; omega)]
  omega

theorem base32_loop_groups (n : Nat) : ∀ (bs D : List Nat), bs.length = 5 * n →
    (∀ b ∈ bs, b < 256) → D.length + 5 * n = 20 →
    (base32_loop ((base32Groups bs).map (fun v => base32Alphabet.getD v 'A'))
      ⟨D ++ List.replicate (5 * n) 0, 0, D.length⟩).out = D ++ bs := by
  induction n with
  | zero =>
    intro bs D hbs _ _
    have : bs = [] := List.length_eq_zero.mp (by simpa using hbs)
    subst this
    simp [base32Groups, base32_loop]
  | succ n ih =>
    intro bs D hbs hlt hD
    match bs, hbs, hlt with
    | b0 :: b1 :: b2 :: b3 :: b4 :: bs, hbs, hlt =>
      have hb0 : b0 < 256 := hlt b0 (by simp)
      have hb1 : b1 < 256 := hlt b1 (by simp)
      have hb2 : b2 < 256 := hlt b2 (by simp)
      have hb3 : b3 < 256 := hlt b3 (by simp)
      have hb4 : b4 < 256 := hlt b4 (by simp)
      have hbs2 : bs.length = 5 * n := by
        simp only [List.length_cons] at hbs
        omega
      have hrep : List.replicate (5 * (n + 1)) 0
          = 0 :: 0 :: 0 :: 0 :: 0 :: List.replicate (5 * n) (0 : Nat) := by
        have : 5 * (n + 1) = 5 * n + 1 + 1 + 1 + 1 + 1 := by omega
        rw [this]
        simp only [List.replicate_succ]
      rw [hrep]
      simp only [base32Groups, base32Group, List.map_append, List.map_cons, List.map_nil,
        List.cons_append, List.nil_append]
      rw [base32_loop_block D _ _ _ _ _ _ _ _ _ _ (by omega) (by omega) (by omega) (by omega)
        (by omega) (by omega) (by omega) (by omega) (by omega)]
      rw [base32_byte0 b0 b1 hb0 hb1, base32_byte1 b0 b1 b2 hb1 hb2, base32_byte2 b1 b2 b3 hb2 hb3,
        base32_byte3 b2 b3 b4 hb3 hb4, base32_byte4 b3 b4 hb4]
      by_cases hend : D.length + 5 ≥ 20
      · rw [if_pos hend]
        have hn : n = 0 := by omega
        subst hn
        have : bs = [] := List.length_eq_zero.mp (by simpa using hbs2)
        subst this
        simp
      · rw [if_neg hend]
        have h1 : D ++ b0 :: b1 :: b2 :: b3 :: b4 :: List.replicate (5 * n) 0
            = (D ++ [b0, b1, b2, b3, b4]) ++ List.replicate (5 * n) 0 := by simp
        have h2 : D.length + 5 = (D ++ [b0, b1, b2, b3, b4]).length := by simp
        rw [h1, h2, ih bs (D ++ [b0, b1, b2, b3, b4]) hbs2
          (fun b hb => hlt b (by simp [hb])) (by simp; omega)]
        simp

theorem base32_to_sha1_base32Form (d : Str) (h : IsDigest d) :
    (base32_to_sha1 (base32Form d)).map Char.ofNat = d := by
  have h1 := base32_loop_groups 4 (d.map Char.toNat) [] (by simp [h.1])
    (by simpa using h.2) (by simp)
  have h2 : base32_to_sha1 (base32Form d) = d.map Char.toNat := by
    unfold base32_to_sha1 base32Form
    simpa using h1
  rw [h2, List.map_map]
  have : (Char.ofNat ∘ Char.toNat) = id := by
    funext c
    simp [Char.ofNat_toNat]
  rw [this, List.map_id]

theorem base32Form_length (d : Str) (h : IsDigest d) : (base32Form d).length = 32 := by
  obtain ⟨hl, _⟩ := h
  match d, hl with
  | [_, _, _, _, _, _, _, _, _, _, _, _, _, _, _, _, _, _, _, _], _ =>
    simp [base32Form, base32Groups, base32Group]

/-! ## Lemmas: the magnet link -/

section
variable (tier_bits : Nat) (parse : Str → Option tr_url_parsed_t)
  (lt : tracker_info → tracker_info → Bool) (ext : externals) (mext : magnet_externals)

theorem parseMagnet_step_unrecognized (st : magnet_loop_t) (kv : Str × Str)
    (h : ¬ RecognizedXt kv) :
    (parseMagnet_step tier_bits parse lt ext mext st kv).got_checksum = st.got_checksum ∧
      (parseMagnet_step tier_bits parse lt ext mext st kv).this.info_hash
        = st.this.info_hash := by
  unfold parseMagnet_step
  simp only
  split_ifs with h1 h2 h3 h4 h5 h6 h7 h8
  · exact ⟨rfl, rfl⟩
  · exact ⟨rfl, rfl⟩
  · exact ⟨rfl, rfl⟩
  · exact ⟨rfl, rfl⟩
  · exact absurd ⟨h5, h6, Or.inl h7⟩ h
  · exact absurd ⟨h5, h6, Or.inr h8⟩ h
  · exact ⟨rfl, rfl⟩
  · exact ⟨rfl, rfl⟩
  · exact ⟨rfl, rfl⟩

theorem parseMagnet_foldl_unrecognized (kvs : List (Str × Str)) :
    ∀ (st : magnet_loop_t), (∀ kv ∈ kvs, ¬ RecognizedXt kv) →
    (kvs.foldl (parseMagnet_step tier_bits parse lt ext mext) st).got_checksum
        = st.got_checksum ∧
      (kvs.foldl (parseMagnet_step tier_bits parse lt ext mext) st).this.info_hash
        = st.this.info_hash := by
  induction kvs with
  | nil => intro st _; exact ⟨rfl, rfl⟩
  | cons kv kvs ih =>
    intro st h
    rw [List.foldl_cons]
    have h1 := ih (parseMagnet_step tier_bits parse lt ext mext st kv)
      (fun x hx => h x (List.mem_cons_of_mem _ hx))
    have h2 := parseMagnet_step_unrecognized tier_bits parse lt ext mext st kv
      (h kv (List.mem_cons_self _ _))
    exact ⟨h1.1.trans h2.1, h1.2.trans h2.2⟩

theorem parseMagnet_step_xt (st : magnet_loop_t) (hash : Str) :
    parseMagnet_step tier_bits parse lt ext mext st ("xt".toList, ValPrefix_ ++ hash) =
      if hash.length = 40 then
        { st with this := { st.this with info_hash := tr_hex_to_sha1 hash }, got_checksum := true }
      else if hash.length = 32 then
        { st with
          this := { st.this with info_hash := (base32_to_sha1 hash).map Char.ofNat }
          got_checksum := true }
      else st := by
  have h1 : tr_strvStartsWith (ValPrefix_ ++ hash) ValPrefix_ = true := by
    unfold tr_strvStartsWith
    rw [List.isPrefixOf_iff_prefix]
    exact List.prefix_append _ _
  have h2 : (ValPrefix_ ++ hash).drop ValPrefix_.length = hash := List.drop_left _ _
  have h3 : ¬ ("xt".toList = "dn".toList) := by decide
  have h4 : ¬ ("xt".toList = "tr".toList ∨ tr_strvStartsWith "xt".toList "tr.".toList = true) := by
    decide
  have h5 : ¬ ("xt".toList = "ws".toList) := by decide
  unfold parseMagnet_step
  simp only [h1, h2, if_neg h3, if_neg h4, if_neg h5, if_true]

theorem parseMagnet_of_view (this : magnet_t) (link q : Str)
    (h : mext.tr_urlParse link = some ("magnet".toList, q)) :
    parseMagnet tier_bits parse lt ext mext this link =
      (((mext.tr_url_query_view q).foldl (parseMagnet_step tier_bits parse lt ext mext)
          ⟨this, 0, false⟩).got_checksum,
        ((mext.tr_url_query_view q).foldl (parseMagnet_step tier_bits parse lt ext mext)
          ⟨this, 0, false⟩).this) := by
  unfold parseMagnet
  rw [h]
  simp

theorem parseMagnet_xt_last (this : magnet_t) (link q hash : Str)
    (before after : List (Str × Str))
    (h : mext.tr_urlParse link = some ("magnet".toList, q))
    (hq : mext.tr_url_query_view q = before ++ ("xt".toList, ValPrefix_ ++ hash) :: after)
    (hafter : ∀ kv ∈ after, ¬ RecognizedXt kv) :
    (hash.length = 40 → (parseMagnet tier_bits parse lt ext mext this link).1 = true ∧
      (parseMagnet tier_bits parse lt ext mext this link).2.info_hash = tr_hex_to_sha1 hash) ∧
    (hash.length = 32 → (parseMagnet tier_bits parse lt ext mext this link).1 = true ∧
      (parseMagnet tier_bits parse lt ext mext this link).2.info_hash
        = (base32_to_sha1 hash).map Char.ofNat) := by
  rw [parseMagnet_of_view tier_bits parse lt ext mext this link q h, hq, List.foldl_append,
    List.foldl_cons]
  have h1 := parseMagnet_foldl_unrecognized tier_bits parse lt ext mext after
    (parseMagnet_step tier_bits parse lt ext mext
      (before.foldl (parseMagnet_step tier_bits parse lt ext mext) ⟨this, 0, false⟩)
      ("xt".toList, ValPrefix_ ++ hash)) hafter
  simp only
  rw [h1.1, h1.2, parseMagnet_step_xt]
  constructor
  · intro h40
    rw [if_pos h40]
    exact ⟨rfl, rfl⟩
  · intro h32
    rw [if_neg (by omega), if_pos h32]
    exact ⟨rfl, rfl⟩

theorem parseMagnet_no_xt (this : magnet_t) (link : Str)
    (h : ∀ parsed, mext.tr_urlParse link = some parsed → parsed.1 = "magnet".toList →
      ∀ kv ∈ mext.tr_url_query_view parsed.2, ¬ RecognizedXt kv) :
    (parseMagnet tier_bits parse lt ext mext this link).1 = false := by
  unfold parseMagnet
  cases hp : mext.tr_urlParse link with
  | none => rfl
  | some parsed =>
    simp only
    by_cases hs : parsed.1 = "magnet".toList
    · rw [if_neg (by simpa using hs)]
      exact (parseMagnet_foldl_unrecognized tier_bits parse lt ext mext _ ⟨this, 0, false⟩
        (h parsed hp hs)).1
    · rw [if_pos (by simpa using hs)]

end

theorem foldl_append_flatMap {α : Type} (f : α → Str) (l : List α) :
    ∀ s : Str, l.foldl (fun s x => s ++ f x) s = s ++ l.flatMap f := by
  induction l with
  | nil => intro s; simp
  | cons x l ih =>
    intro s
    rw [List.foldl_cons, ih, List.flatMap_cons, List.append_assoc]

theorem magnet_eq_query_text (esc : Str → Str) (tm : tr_torrent_metainfo) :
    magnet esc tm = "magnet:?".toList ++ query_text (magnet_pairs esc tm) := by
  have hin : ∀ (tier : List tier_entry) (s : Str),
      tier.foldl (fun s torrent => s ++ "&tr=".toList ++ esc torrent.1) s
        = s ++ tier.flatMap (fun torrent => "&tr=".toList ++ esc torrent.1) := by
    intro tier s
    rw [← foldl_append_flatMap]
    congr 1
    funext s x
    rw [List.append_assoc]
  have hws : ∀ (s : Str),
      tm.webseed_urls_.foldl (fun s webseed => s ++ "&ws=".toList ++ esc webseed) s
        = s ++ tm.webseed_urls_.flatMap (fun webseed => "&ws=".toList ++ esc webseed) := by
    intro s
    rw [← foldl_append_flatMap]
    congr 1
    funext s x
    rw [List.append_assoc]
  have hout : ∀ (s : Str),
      tm.tiers_.foldl (fun s tier =>
          tier.foldl (fun s torrent => s ++ "&tr=".toList ++ esc torrent.1) s) s
        = s ++ tm.tiers_.flatMap
          (fun tier => tier.flatMap (fun torrent => "&tr=".toList ++ esc torrent.1)) := by
    intro s
    rw [← foldl_append_flatMap]
    congr 1
    funext s x
    rw [hin]
  unfold magnet
  simp only [hws, hout]
  unfold magnet_pairs query_text magnet_urls
  by_cases hn : tm.name_.isEmpty = true
  · simp [hn, List.flatMap_map, List.flatMap_assoc, List.flatMap_append, ValPrefix_]
  · simp [hn, List.flatMap_map, List.flatMap_assoc, List.flatMap_append, ValPrefix_]

/-! ## Theorems: add, remove, replace and nextTier -/

/-- C12: for every reachable announce list `L`, tier and URL that parses as a tracker URL
and matches no record of `L` on scheme, host, port and path (whatever the record comparison
is): `add` returns true, the size grows by exactly one, every record of `L` is still there,
unchanged and in the same relative order, looking up the newly assigned id finds a record
whose announce string is the URL, and that id differs from the id of every other record. -/
theorem add_success (parse : Str → Option tr_url_parsed_t)
    (lt : tracker_info → tracker_info → Bool) (L : tr_announce_list) (t : Nat) (url : Str)
    (a : tr_url_parsed_t) (hL : Reachable parse lt L) (hp : parse url = some a)
    (hnew : ∀ r ∈ L.trackers_, ¬ same_endpoint r.announce a) :
    (add parse lt L t url).1 = true ∧ AddedOne L (add parse lt L t url).2 url :=
  ⟨add_fst_true parse lt L t url a hp ((canAdd_iff L a).mpr hnew),
    add_addedOne parse lt L t url a (reachable_idsFresh parse lt L hL).1 hp
      ((canAdd_iff L a).mpr hnew)⟩

/-- C12, at a concrete input: adding `http://b/announce` to the list that holds
`http://a/announce`. -/
theorem add_success_witness :
    Reachable sampleParse tracker_info.lt listA ∧ sampleParse urlB = some recB.announce ∧
      (∀ r ∈ listA.trackers_, ¬ same_endpoint r.announce recB.announce) ∧
      (add sampleParse tracker_info.lt listA 0 urlB).1 = true ∧
      AddedOne listA (add sampleParse tracker_info.lt listA 0 urlB).2 urlB :=
  ⟨Reachable.add _ _ _ (Reachable.empty 0), by decide, by decide,
    add_success sampleParse tracker_info.lt listA 0 urlB recB.announce
      (Reachable.add _ _ _ (Reachable.empty 0)) (by decide) (by decide)⟩

/-- C13: for every successful `add(t, url)` the tier of the new record is the tier of the
first record of the list, in list order, that has the same host and path as `url` (the
scheme is ignored), and it is `t` when the list has no such record. -/
theorem add_tier_resolution (parse : Str → Option tr_url_parsed_t)
    (lt : tracker_info → tracker_info → Bool) (L : tr_announce_list) (t : Nat) (url : Str)
    (hok : (add parse lt L t url).1 = true) :
    ∃ (a : tr_url_parsed_t) (pre post : List tracker_info) (new : tracker_info),
      parse url = some a ∧ L.trackers_ = pre ++ post ∧
        (add parse lt L t url).2.trackers_ = pre ++ new :: post ∧ new.announce_str = url ∧
        TierResolved L.trackers_ a t new.tier := by
  obtain ⟨a, hp, hc⟩ := add_true_inv parse lt L t url hok
  rw [add_eq_insert parse lt L t url a hp hc]
  exact ⟨a, _, _, new_tracker parse L t url a, hp, (List.take_append_drop _ _).symm, rfl, rfl,
    getTier_resolved L t a⟩

/-- C13, at a concrete input: `https://a/announce` added with tier 7 to the list that holds
`http://a/announce` in tier 0. -/
theorem add_tier_resolution_witness :
    (add sampleParse tracker_info.lt listA 7 urlAs).1 = true ∧
      ∃ (a : tr_url_parsed_t) (pre post : List tracker_info) (new : tracker_info),
        sampleParse urlAs = some a ∧ listA.trackers_ = pre ++ post ∧
          (add sampleParse tracker_info.lt listA 7 urlAs).2.trackers_ = pre ++ new :: post ∧
          new.announce_str = urlAs ∧ TierResolved listA.trackers_ a 7 new.tier :=
  ⟨by decide, add_tier_resolution sampleParse tracker_info.lt listA 7 urlAs (by decide)⟩

/-- C14, as stated, fails: in the list with `http://a/announce` in tier 0 and
`http://b/announce` in tier 1, replacing the record of tier 1 by `https://a/announce`
succeeds, and the record for the new URL has tier 0, not 1. -/
theorem replace_tier_counterexample :
    (replace sampleParse tracker_info.lt listA0B1 1 urlAs).1 = true ∧
      (∃ r ∈ listA0B1.trackers_, r.id = 1 ∧ r.tier = 1) ∧
      ∀ r ∈ (replace sampleParse tracker_info.lt listA0B1 1 urlAs).2.trackers_,
        r.announce_str = urlAs → r.tier = 0 := by
  decide

/-- C14, amended: whenever `replace(id, newUrl)` returns true on a reachable list, no record
with that id remains and the list holds a record for `newUrl` whose tier is the tier of the
first remaining record with the same host and path as `newUrl`, or, when there is no such
record, the tier the replaced record had. -/
theorem replace_success (parse : Str → Option tr_url_parsed_t)
    (lt : tracker_info → tracker_info → Bool) (L : tr_announce_list) (id : Nat) (newUrl : Str)
    (hL : Reachable parse lt L) (hok : (replace parse lt L id newUrl).1 = true) :
    Replaced parse L (replace parse lt L id newUrl).2 id newUrl :=
  replace_replaced parse lt L id newUrl (reachable_idsFresh parse lt L hL) hok

/-- C14 amended, at a concrete input: the replacement of the counterexample. -/
theorem replace_success_witness :
    Reachable sampleParse tracker_info.lt listA0B1 ∧
      (replace sampleParse tracker_info.lt listA0B1 1 urlAs).1 = true ∧
      Replaced sampleParse listA0B1 (replace sampleParse tracker_info.lt listA0B1 1 urlAs).2 1
        urlAs :=
  ⟨Reachable.add _ _ _ (Reachable.add _ _ _ (Reachable.empty 0)), by decide,
    replace_success sampleParse tracker_info.lt listA0B1 1 urlAs
      (Reachable.add _ _ _ (Reachable.add _ _ _ (Reachable.empty 0))) (by decide)⟩

/-- C15, as stated, fails for `remove(url)`: the list that holds `http://a/announce` has a
record with the scheme, host, port and path of `http://a:80/announce`, yet removing
`http://a:80/announce` returns false and leaves the list as it is. -/
theorem remove_url_counterexample :
    (∃ a r, sampleParse urlA80 = some a ∧ r ∈ listA.trackers_ ∧ same_endpoint r.announce a) ∧
      remove_url listA urlA80 = (false, listA) :=
  ⟨⟨_, recA, rfl, by decide, by decide⟩, by decide⟩

/-- C15, amended: `remove(id)` returns true exactly when a record has that id, and
`remove(url)` returns true exactly when the full announce URL of a record equals `url` as a
string; when true, exactly the first such record is erased and the other records keep their
fields and relative order; when false the list is unchanged. -/
theorem remove_erases_first_match (L : tr_announce_list) (id : Nat) (url : Str) :
    ((remove_id L id).1 = true ↔ ∃ r ∈ L.trackers_, r.id = id) ∧
      ErasesFirst (fun r => r.id = id) L (remove_id L id) ∧
      ((remove_url L url).1 = true ↔ ∃ r ∈ L.trackers_, r.announce.full = url) ∧
      ErasesFirst (fun r => r.announce.full = url) L (remove_url L url) := by
  have hid := findIdx_erasesFirst L (fun tracker => tracker.id == id)
  have hurl := findIdx_erasesFirst L (fun tracker => url == tracker.announce.full)
  simp only [beq_iff_eq] at hid hurl
  have hurl2 : ErasesFirst (fun r => r.announce.full = url) L (remove_url L url) := by
    unfold ErasesFirst at hurl ⊢
    unfold remove_url find_url
    refine ⟨fun h => ?_, hurl.2⟩
    obtain ⟨pre, post, x, h1, h2, h3, h4⟩ := hurl.1 h
    exact ⟨pre, post, x, h1, h2.symm, fun y hy h => h3 y hy h.symm, h4⟩
  refine ⟨?_, hid, ?_, hurl2⟩
  · unfold remove_id find_id
    rw [← not_iff_not]
    simp only [Bool.not_eq_true, not_exists, not_and]
    by_cases hi : L.trackers_.findIdx (fun tracker => tracker.id == id) = L.trackers_.length
    · simp only [hi, if_true, true_iff]
      intro r hr
      simpa using (findIdx_eq_length_iff _ _).mp hi r hr
    · simp only [hi, if_false]
      refine ⟨fun h => absurd h Bool.true_eq_false_eq_False, fun hall => ?_⟩
      exact absurd ((findIdx_eq_length_iff _ _).mpr (fun x hx => by simpa using hall x hx)) hi
  · unfold remove_url find_url
    rw [← not_iff_not]
    simp only [Bool.not_eq_true, not_exists, not_and]
    by_cases hi : L.trackers_.findIdx (fun tracker => url == tracker.announce.full)
        = L.trackers_.length
    · simp only [hi, if_true, true_iff]
      intro r hr h
      have := (findIdx_eq_length_iff _ _).mp hi r hr
      simp [h] at this
    · simp only [hi, if_false]
      refine ⟨fun h => absurd h Bool.true_eq_false_eq_False, fun hall => ?_⟩
      apply absurd _ hi
      apply (findIdx_eq_length_iff _ _).mpr
      intro x hx
      have := hall x hx
      simp only [beq_eq_false_iff_ne, ne_eq]
      exact fun h => this h.symm

/-- C11, as stated, fails: on a torrent with an `info` dictionary and the name `n` but no
`piece length`, `parseBenc` returns false and the object, whose name was empty before the
call, has the name `n` afterwards. -/
theorem parseBenc_failure_counterexample :
    (parseBenc sampleExternals (fun _ => some noPieceLengthTorrent) emptyMetainfo []).1 = false ∧
      emptyMetainfo.name_ = [] ∧
      (parseBenc sampleExternals (fun _ => some noPieceLengthTorrent) emptyMetainfo []).2.name_
        = "n".toList := by
  decide

/-- C11, amended: whenever `parseBenc` fails, the fields that the parse writes only after
the failing check have their values from before the call: always the tiers and webseeds; the
whole object when the input does not decode or has no `info` dictionary; pieces, files and
block sizes when `piece length` is missing or not positive. The fields written before the
failing check (then: the info hash and the name) hold what the failed parse wrote. -/
theorem parseBenc_failure_leaves (ext : externals) (tr_variantFromBuf : Str → Option tr_variant)
    (this : tr_torrent_metainfo) (benc : Str)
    (h : (parseBenc ext tr_variantFromBuf this benc).1 = false) :
    FailureLeaves ext tr_variantFromBuf this benc
      (parseBenc ext tr_variantFromBuf this benc).2 :=
  parseBenc_failureLeaves ext tr_variantFromBuf this benc h

/-- C11 amended, at a concrete input: the torrent of the counterexample. -/
theorem parseBenc_failure_leaves_witness :
    (parseBenc sampleExternals (fun _ => some noPieceLengthTorrent) emptyMetainfo []).1 = false ∧
      FailureLeaves sampleExternals (fun _ => some noPieceLengthTorrent) emptyMetainfo []
        (parseBenc sampleExternals (fun _ => some noPieceLengthTorrent) emptyMetainfo []).2 :=
  ⟨by decide,
    parseBenc_failure_leaves sampleExternals (fun _ => some noPieceLengthTorrent) emptyMetainfo
      [] (by decide)⟩

/-- C17: with the record comparison and the dictionary helpers modelled from the
specification, for every reachable announce list and every loaded dictionary the dictionary
that `save` builds has every key other than `announce` and `announce-list` unchanged; with
no tracker neither key; with one tracker `announce` with its URL and no `announce-list`;
with more than one no `announce` and an `announce-list` with one inner list per distinct
tier, in ascending order of tier, each holding the URLs of that tier in list order. -/
theorem save_builds_announce_fields (parse : Str → Option tr_url_parsed_t)
    (s : tr_announce_list) (d : List (Str × tr_variant))
    (h : Reachable parse tracker_info.lt s) :
    SavedAnnounce s d (save_metainfo s (.dict d)) := by
  apply save_metainfo_saved
  apply List.Pairwise.imp _ (reachable_ordered parse s h).1
  intro a b hab
  rcases hab with h1 | h1
  · exact Nat.le_of_lt h1
  · exact Nat.le_of_eq h1.1

/-- C17, at a concrete input: the list with `http://a/announce` in tier 0 and
`http://b/announce` in tier 1 and a dictionary with an old `announce` and a `comment`; the
tier list built is one inner list for each of the two tiers. -/
theorem save_builds_announce_fields_witness :
    Reachable sampleParse tracker_info.lt listA0B1 ∧
      SavedAnnounce listA0B1 [entry "announce" (.str urlB), entry "comment" (.str urlA)]
        (save_metainfo listA0B1
          (.dict [entry "announce" (.str urlB), entry "comment" (.str urlA)])) ∧
      save_tier_list listA0B1.trackers_ = [[urlA], [urlB]] :=
  ⟨Reachable.add _ _ _ (Reachable.add _ _ _ (Reachable.empty 0)),
    save_builds_announce_fields sampleParse listA0B1 _
      (Reachable.add _ _ _ (Reachable.add _ _ _ (Reachable.empty 0))), by decide⟩

/-- C18: with the file system as explicit state: when loading the target file fails, or the
re-encoded bytes fail to parse back, `save` returns false and the file system is what it was
before the call; a file system that differs afterwards is the result of the write, which is
performed only after the load and the verify-parse succeeded. -/
theorem save_writes_only_after_verify {FS : Type} (ext : externals) (sx : save_externals FS)
    (s : tr_announce_list) (fs : FS) (torrent_file : Str) :
    WritesOnlyAfterVerify ext sx s fs torrent_file :=
  save_writesOnlyAfterVerify ext sx s fs torrent_file

/-- C18, at concrete inputs: saving to a path that cannot be loaded, and saving to a path
whose rebuilt bytes do not parse back; both return false and keep the file system. -/
theorem save_writes_only_after_verify_witness :
    WritesOnlyAfterVerify sampleExternals sampleSaveExternals listA [] urlA ∧
      save sampleExternals sampleSaveExternals listA [] urlA = (false, []) ∧
      (save sampleExternals sampleSaveExternals listA [(urlA, singleFileTorrent)] urlA).1
        = false :=
  ⟨save_writes_only_after_verify sampleExternals sampleSaveExternals listA [] urlA, rfl, rfl⟩


/-! ## Theorems: the magnet link -/

/-- C20: for every 20-byte digest `d`, a magnet link whose query holds the pair `xt` with the
value `urn:btih:` followed by the 40-character hex form of `d`, or by its 32-character base32
form, and no recognized `xt` pair after it, parses with the flag true and the info hash `d`;
a link that `tr_urlParse` rejects, whose scheme is not `magnet`, or whose query holds no
recognized `xt` pair (no `xt` key, another prefix, or a hash of a length other than 40 and
32) parses with the flag false. -/
theorem parseMagnet_hash_forms (tier_bits : Nat) (parse : Str → Option tr_url_parsed_t)
    (lt : tracker_info → tracker_info → Bool) (ext : externals) (mext : magnet_externals)
    (this : magnet_t) (link d q : Str) (before after : List (Str × Str))
    (parsed : Str × Str) :
    (IsDigest d → mext.tr_urlParse link = some ("magnet".toList, q) →
      (∀ kv ∈ after, ¬ RecognizedXt kv) →
      (mext.tr_url_query_view q = before ++ ("xt".toList, ValPrefix_ ++ hexForm d) :: after ∨
        mext.tr_url_query_view q
          = before ++ ("xt".toList, ValPrefix_ ++ base32Form d) :: after) →
      (parseMagnet tier_bits parse lt ext mext this link).1 = true ∧
        (parseMagnet tier_bits parse lt ext mext this link).2.info_hash = d) ∧
    (mext.tr_urlParse link = none →
      (parseMagnet tier_bits parse lt ext mext this link).1 = false) ∧
    (mext.tr_urlParse link = some parsed →
      (parsed.1 ≠ "magnet".toList ∨
        ∀ kv ∈ mext.tr_url_query_view parsed.2, ¬ RecognizedXt kv) →
      (parseMagnet tier_bits parse lt ext mext this link).1 = false) := by
  refine ⟨fun hd hurl hafter hq => ?_, fun hnone => ?_, fun hsome hbad => ?_⟩
  · rcases hq with hq | hq
    · have h := (parseMagnet_xt_last tier_bits parse lt ext mext this link q _ before after
        hurl hq hafter).1 (by rw [hexForm_length, hd.1])
      rw [tr_hex_to_sha1_hexForm d hd.2] at h
      exact h
    · have h := (parseMagnet_xt_last tier_bits parse lt ext mext this link q _ before after
        hurl hq hafter).2 (base32Form_length d hd)
      rw [base32_to_sha1_base32Form d hd] at h
      exact h
  · apply parseMagnet_no_xt
    intro p hp
    rw [hnone] at hp
    exact absurd hp (by simp)
  · apply parseMagnet_no_xt
    intro p hp hs
    rw [hsome] at hp
    cases hp
    rcases hbad with hbad | hbad
    · exact absurd hs hbad
    · exact hbad

set_option maxRecDepth 100000 in
/-- C20, at concrete inputs: the two links of the repository's test, which hold the digest
`d2354010a3ca4ade5b7427bb093a62a3899ff381` in hex and in base32 form, and a link whose hash
has 4 characters. -/
theorem parseMagnet_hash_forms_witness :
    IsDigest testDigest ∧
      (parseMagnet 32 sampleUrlParse tracker_info.lt sampleExternals sampleMagnetExternals
        emptyMagnet hexLink).1 = true ∧
      (parseMagnet 32 sampleUrlParse tracker_info.lt sampleExternals sampleMagnetExternals
        emptyMagnet hexLink).2.info_hash = testDigest ∧
      (parseMagnet 32 sampleUrlParse tracker_info.lt sampleExternals sampleMagnetExternals
        emptyMagnet base32Link).1 = true ∧
      (parseMagnet 32 sampleUrlParse tracker_info.lt sampleExternals sampleMagnetExternals
        emptyMagnet base32Link).2.info_hash = testDigest ∧
      (parseMagnet 32 sampleUrlParse tracker_info.lt sampleExternals sampleMagnetExternals
        emptyMagnet shortHashLink).1 = false :=
  have hhex := (parseMagnet_hash_forms 32 sampleUrlParse tracker_info.lt sampleExternals
    sampleMagnetExternals emptyMagnet hexLink testDigest (hexLink.drop 8) [] testPairs
    ([], [])).1 (by decide) (by decide) (by decide) (Or.inl (by decide))
  have hb32 := (parseMagnet_hash_forms 32 sampleUrlParse tracker_info.lt sampleExternals
    sampleMagnetExternals emptyMagnet base32Link testDigest (base32Link.drop 8) []
    [testPairs.get ⟨0, by decide⟩, testPairs.get ⟨1, by decide⟩, testPairs.get ⟨3, by decide⟩,
      testPairs.get ⟨2, by decide⟩] ([], [])).1
    (by decide) (by decide) (by decide) (Or.inr (by decide))
  ⟨by decide, hhex.1, hhex.2, hb32.1, hb32.2,
    (parseMagnet_hash_forms 32 sampleUrlParse tracker_info.lt sampleExternals
      sampleMagnetExternals emptyMagnet shortHashLink testDigest [] [] []
      ("magnet".toList, shortHashLink.drop 8)).2.2 (by decide) (Or.inr (by decide))⟩

/-! ## Lemmas: what the sanitizer appends -/

theorem appended_eq (out c : Str) :
    appended out c = munge_reserved (sanitizedForm c) 0 ReservedNames := by
  unfold appended
  rw [appendSanitizedComponent_out, List.drop_left]

theorem legal_char_legal (x : Char) :
    (if x ∈ ['<', '>', ':', '"', '/', '\\', '|', '?', '*'] ∨ x.toNat < 0x20 then '_' else x)
        ∉ ['<', '>', ':', '"', '/', '\\', '|', '?', '*'] ∧
      0x20 ≤ (if x ∈ ['<', '>', ':', '"', '/', '\\', '|', '?', '*'] ∨ x.toNat < 0x20
        then '_' else x).toNat := by
  by_cases h : x ∈ ['<', '>', ':', '"', '/', '\\', '|', '?', '*'] ∨ x.toNat < 0x20
  · rw [if_pos h]
    decide
  · rw [if_neg h]
    exact ⟨fun hx => h (Or.inl hx), by omega⟩

theorem legal_char_id (x : Char)
    (h : x ∉ ['<', '>', ':', '"', '/', '\\', '|', '?', '*'] ∧ 0x20 ≤ x.toNat) :
    (if x ∈ ['<', '>', ':', '"', '/', '\\', '|', '?', '*'] ∨ x.toNat < 0x20 then '_' else x)
      = x := by
  rw [if_neg]
  rintro (h1 | h1)
  · exact h.1 h1
  · omega

theorem legal_char_isspace (x : Char) (h : isspace x = false) :
    isspace (if x ∈ ['<', '>', ':', '"', '/', '\\', '|', '?', '*'] ∨ x.toNat < 0x20
      then '_' else x) = false := by
  by_cases hx : x ∈ ['<', '>', ':', '"', '/', '\\', '|', '?', '*'] ∨ x.toNat < 0x20
  · rw [if_pos hx]
    decide
  · rw [if_neg hx]
    exact h

theorem legal_char_ne_dot (x : Char) (h : x ≠ '.') :
    (if x ∈ ['<', '>', ':', '"', '/', '\\', '|', '?', '*'] ∨ x.toNat < 0x20 then '_' else x)
      ≠ '.' := by
  by_cases hx : x ∈ ['<', '>', ':', '"', '/', '\\', '|', '?', '*'] ∨ x.toNat < 0x20
  · rw [if_pos hx]
    decide
  · rw [if_neg hx]
    exact h

theorem sanitizedForm_chars (c : Str) :
    ∀ ch ∈ sanitizedForm c,
      ch ∉ ['<', '>', ':', '"', '/', '\\', '|', '?', '*'] ∧ 0x20 ≤ ch.toNat := by
  intro ch hch
  unfold sanitizedForm at hch
  rw [List.mem_map] at hch
  obtain ⟨x, _, rfl⟩ := hch
  exact legal_char_legal x

theorem sanitizedForm_head (c : Str) (ch : Char) (h : (sanitizedForm c).head? = some ch) :
    isspace ch = false := by
  unfold sanitizedForm at h
  rw [List.head?_map] at h
  cases hx : ((c.dropWhile isspace).rdropWhile (fun ch => isspace ch || ch == '.')).head? with
  | none => rw [hx] at h; cases h
  | some x =>
    rw [hx] at h
    cases h
    apply legal_char_isspace
    have hpre := List.rdropWhile_prefix (fun ch => isspace ch || ch == '.') (c.dropWhile isspace)
    obtain ⟨t, ht⟩ := hpre
    have hne : (c.dropWhile isspace).rdropWhile (fun ch => isspace ch || ch == '.') ≠ [] := by
      intro h0
      rw [h0] at hx
      cases hx
    have h1 : (c.dropWhile isspace).head? = some x := by
      rw [← ht, List.head?_append, hx]
      rfl
    have h2 := List.head?_dropWhile_not isspace c
    rw [h1] at h2
    exact h2

theorem sanitizedForm_last (c : Str) (ch : Char) (h : (sanitizedForm c).getLast? = some ch) :
    isspace ch = false ∧ ch ≠ '.' := by
  unfold sanitizedForm at h
  rw [List.getLast?_map] at h
  by_cases hne : (c.dropWhile isspace).rdropWhile (fun ch => isspace ch || ch == '.') = []
  · rw [hne] at h
    cases h
  · have h1 := List.rdropWhile_last_not (fun ch => isspace ch || ch == '.')
      (c.dropWhile isspace) hne
    rw [List.getLast?_eq_getLast _ hne] at h
    cases h
    simp only [Bool.or_eq_true, beq_iff_eq, not_or, Bool.not_eq_true] at h1
    exact ⟨legal_char_isspace _ h1.1, legal_char_ne_dot _ h1.2⟩

theorem sanitizedForm_eq_nil_iff (c : Str) :
    sanitizedForm c = [] ↔ ∀ ch ∈ c.dropWhile isspace, isspace ch = true ∨ ch = '.' := by
  unfold sanitizedForm
  rw [List.map_eq_nil_iff, List.rdropWhile_eq_nil_iff]
  simp only [Bool.or_eq_true, beq_iff_eq]

theorem reserved_names_shape : ∀ name ∈ ReservedNames, 3 ≤ name.length ∧ '_' ∉ name := by
  decide

theorem munge_cases (form : Str) (h0 : NUL ∉ form) :
    (munge_reserved form 0 ReservedNames = form ∧
        ∀ name ∈ ReservedNames, ¬ beginsWithReserved form name) ∨
      ∃ name ∈ ReservedNames, beginsWithReserved form name ∧
        munge_reserved form 0 ReservedNames = vector_insert form name.length '_' := by
  by_cases h : ∃ name ∈ ReservedNames, beginsWithReserved form name
  · obtain ⟨name, hmem, hmatch⟩ := h
    exact Or.inr ⟨name, hmem, hmatch,
      munge_reserved_some form ReservedNames name reserved_chars h0 hmem hmatch⟩
  · have hno : ∀ name ∈ ReservedNames, ¬ beginsWithReserved form name :=
      fun name hmem hmatch => h ⟨name, hmem, hmatch⟩
    exact Or.inl ⟨munge_reserved_none form ReservedNames reserved_chars h0 hno, hno⟩

theorem legalComponent_of (a : Str)
    (hc : ∀ ch ∈ a, ch ∉ ['<', '>', ':', '"', '/', '\\', '|', '?', '*'] ∧ 0x20 ≤ ch.toNat)
    (hh : ∀ ch, a.head? = some ch → isspace ch = false)
    (hl : ∀ ch, a.getLast? = some ch → isspace ch = false ∧ ch ≠ '.') : LegalComponent a := by
  refine ⟨hc, hh, hl, ?_, ?_, ?_, ?_⟩
  · intro h
    exact (hl '.' (by rw [h]; rfl)).2 rfl
  · intro h
    exact (hl '.' (by rw [h]; rfl)).2 rfl
  · intro h
    exact (hc _ h).1 (by decide)
  · intro h
    exact (hc _ h).1 (by decide)

theorem vector_insert_legal (form : Str) (k : Nat) (hk : 3 ≤ k) (hkl : k ≤ form.length)
    (hc : ∀ ch ∈ form, ch ∉ ['<', '>', ':', '"', '/', '\\', '|', '?', '*'] ∧ 0x20 ≤ ch.toNat)
    (hh : ∀ ch, form.head? = some ch → isspace ch = false)
    (hl : ∀ ch, form.getLast? = some ch → isspace ch = false ∧ ch ≠ '.') :
    LegalComponent (vector_insert form k '_') := by
  apply legalComponent_of
  · intro ch hch
    unfold vector_insert at hch
    rcases List.mem_append.mp hch with h | h
    · exact hc ch (List.mem_of_mem_take h)
    · rcases List.mem_cons.mp h with h | h
      · rw [h]
        decide
      · exact hc ch (List.mem_of_mem_drop h)
  · intro ch hch
    apply hh
    unfold vector_insert at hch
    cases form with
    | nil =>
      simp only [List.length_nil] at hkl
      omega
    | cons x rest =>
      cases k with
      | zero => omega
      | succ k =>
        simp only [List.take_succ_cons, List.cons_append, List.head?_cons] at hch
        simpa using hch
  · intro ch hch
    unfold vector_insert at hch
    rw [List.getLast?_append] at hch
    by_cases hd : form.drop k = []
    · rw [hd] at hch
      simp only [List.getLast?_singleton, Option.or_some] at hch
      cases hch
      decide
    · apply hl
      have h1 : ('_' :: form.drop k).getLast? = (form.drop k).getLast? := by
        cases hdk : form.drop k with
        | nil => exact absurd hdk hd
        | cons y ys => simp [List.getLast?_cons_cons]
      have h2 : (form.drop k).getLast? = form.getLast? := by
        have := List.take_append_drop k form
        conv_rhs => rw [← this]
        rw [List.getLast?_append]
        cases hg : (form.drop k).getLast? with
        | none => exact absurd (List.getLast?_eq_none_iff.mp hg) hd
        | some y => rfl
      rw [h1, h2] at hch
      cases hg : form.getLast? with
      | none =>
        rw [List.getLast?_eq_none_iff.mp hg] at hd
        exact absurd (List.drop_nil) hd
      | some y =>
        rw [hg] at hch
        simpa using hch

theorem appended_legal (out c : Str) : LegalComponent (appended out c) := by
  rw [appended_eq]
  rcases munge_cases (sanitizedForm c) (NUL_not_mem_sanitizedForm c) with ⟨h, _⟩ | ⟨n, hn, hm, h⟩
  · rw [h]
    exact legalComponent_of _ (sanitizedForm_chars c) (sanitizedForm_head c)
      (sanitizedForm_last c)
  · rw [h]
    exact vector_insert_legal _ _ (reserved_names_shape n hn).1
      (take_map_length_le _ _ hm.1) (sanitizedForm_chars c) (sanitizedForm_head c)
      (sanitizedForm_last c)

theorem appended_eq_nil_iff (out c : Str) : appended out c = [] ↔ sanitizedForm c = [] := by
  rw [appended_eq]
  rcases munge_cases (sanitizedForm c) (NUL_not_mem_sanitizedForm c) with ⟨h, _⟩ | ⟨n, hn, hm, h⟩
  · rw [h]
  · rw [h]
    have h3 := (reserved_names_shape n hn).1
    have h4 := take_map_length_le _ _ hm.1
    constructor
    · intro h5
      unfold vector_insert at h5
      simp at h5
    · intro h5
      rw [h5, List.length_nil] at h4
      omega

theorem vector_insert_getElem?_lt {α : Type} (l : List α) (k i : Nat) (x : α) (hi : i < k)
    (hk : k ≤ l.length) : (vector_insert l k x)[i]? = l[i]? := by
  unfold vector_insert
  rw [List.getElem?_append_left (by rw [List.length_take]; omega), List.getElem?_take,
    if_pos hi]

theorem vector_insert_getElem?_eq {α : Type} (l : List α) (k : Nat) (x : α)
    (hk : k ≤ l.length) : (vector_insert l k x)[k]? = some x := by
  unfold vector_insert
  rw [List.getElem?_append_right (by rw [List.length_take]; omega)]
  simp [List.length_take, Nat.min_eq_left hk]

theorem vector_insert_length {α : Type} (l : List α) (k : Nat) (x : α) :
    (vector_insert l k x).length = l.length + 1 := by
  unfold vector_insert
  simp only [List.length_append, List.length_take, List.length_cons, List.length_drop]
  omega

theorem no_match_after_insert (form name n2 : Str) (hname : name ∈ ReservedNames)
    (hn2 : n2 ∈ ReservedNames) (hm : beginsWithReserved form name) :
    ¬ beginsWithReserved (vector_insert form name.length '_') n2 := by
  have hk : name.length ≤ form.length := take_map_length_le _ _ hm.1
  rintro ⟨h1, h2⟩
  rw [vector_insert_length] at h2
  rcases Nat.lt_trichotomy n2.length name.length with hlt | heq | hgt
  · rcases h2 with h2 | h2
    · omega
    · rw [vector_insert_getElem?_lt _ _ _ _ hlt hk] at h2
      have h3 := congrArg (fun l => l[n2.length]?) hm.1
      simp only [List.getElem?_map, List.getElem?_take, if_pos hlt, h2, Option.map_some'] at h3
      have h4 : '.' ∈ name := by
        have : '.'.toUpper = '.' := by decide
        rw [this] at h3
        exact List.getElem?_mem h3.symm
      exact (reserved_chars name hname '.' h4).2.2 rfl
  · rcases h2 with h2 | h2
    · omega
    · rw [heq, vector_insert_getElem?_eq _ _ _ hk] at h2
      exact absurd (Option.some.inj h2) (by decide)
  · have h3 := congrArg (fun l => l[name.length]?) h1
    simp only [List.getElem?_map, List.getElem?_take, if_pos hgt,
      vector_insert_getElem?_eq _ _ _ hk, Option.map_some'] at h3
    have h4 : '_' ∈ n2 := by
      have : '_'.toUpper = '_' := by decide
      rw [this] at h3
      exact List.getElem?_mem h3.symm
    exact (reserved_names_shape n2 hn2).2 h4

theorem appended_no_match (out c : Str) :
    ∀ name ∈ ReservedNames, ¬ beginsWithReserved (appended out c) name := by
  intro n2 hn2
  rw [appended_eq]
  rcases munge_cases (sanitizedForm c) (NUL_not_mem_sanitizedForm c) with ⟨h, hno⟩ | ⟨n, hn, hm, h⟩
  · rw [h]
    exact hno n2 hn2
  · rw [h]
    exact no_match_after_insert _ n n2 hn hn2 hm

theorem sanitizedForm_id (a : Str) (h : LegalComponent a) : sanitizedForm a = a := by
  obtain ⟨hc, hh, hl, _⟩ := h
  have h1 : a.dropWhile isspace = a := by
    rw [List.dropWhile_eq_self_iff]
    intro hlen
    have := hh (a.get ⟨0, hlen⟩) (by
      cases a with
      | nil => simp at hlen
      | cons x xs => rfl)
    rw [this]
    exact Bool.false_ne_true
  have h2 : a.rdropWhile (fun ch => isspace ch || ch == '.') = a := by
    rw [List.rdropWhile_eq_self_iff]
    intro hne
    have := hl (a.getLast hne) (List.getLast?_eq_getLast _ hne)
    simp [this.1, this.2]
  unfold sanitizedForm
  rw [h1, h2]
  conv_rhs => rw [← List.map_id a]
  apply List.map_congr_left
  intro x hx
  exact legal_char_id x (hc x hx)

theorem c_str_id (a : Str) (h : NUL ∉ a) : c_str a = a := by
  unfold c_str
  rw [List.takeWhile_eq_self_iff]
  intro x hx
  simp only [bne_iff_ne, ne_eq]
  intro h2
  exact h (h2 ▸ hx)

theorem legal_no_NUL (a : Str) (h : LegalComponent a) : NUL ∉ a := by
  intro h2
  have := (h.1 NUL h2).2
  exact absurd this (by decide)

theorem appendSanitizedComponent_fixed (a : Str) (hl : LegalComponent a)
    (hno : ∀ name ∈ ReservedNames, ¬ beginsWithReserved a name) :
    (appendSanitizedComponent [] a).out = a ∧
      (appendSanitizedComponent [] a).is_adjusted = false := by
  have h1 : (appendSanitizedComponent [] a).out = a := by
    rw [appendSanitizedComponent_out, sanitizedForm_id a hl,
      munge_reserved_none a ReservedNames reserved_chars (legal_no_NUL a hl) hno]
    rfl
  refine ⟨h1, ?_⟩
  have h2 : (appendSanitizedComponent [] a).is_adjusted
      = (a != c_str ((appendSanitizedComponent [] a).out.drop ([] : Str).length)) := rfl
  rw [h2, h1]
  simp [c_str_id a (legal_no_NUL a hl)]

/-! ## Lemmas: tiers along an announce list -/

theorem tierFirst_lt : TierFirst tracker_info.lt := by
  intro a b
  constructor
  · intro h
    simp [tracker_info.lt, h]
  · intro h
    simp only [tracker_info.lt, Bool.or_eq_false_iff, decide_eq_false_iff_not,
      Bool.and_eq_false_imp, beq_iff_eq]
    exact ⟨by omega, fun h2 => by omega⟩

theorem lower_bound_split_tier (lt : tracker_info → tracker_info → Bool) (hlt : TierFirst lt)
    (xs : List tracker_info) (v : tracker_info) (hs : TiersAscend xs) :
    (∀ x ∈ xs.take (lower_bound lt xs v), x.tier ≤ v.tier) ∧
      (∀ x ∈ xs.drop (lower_bound lt xs v), v.tier ≤ x.tier) := by
  induction xs with
  | nil => simp [lower_bound]
  | cons b l ih =>
    unfold TiersAscend at hs
    rw [List.pairwise_cons] at hs
    have ih2 := ih hs.2
    unfold lower_bound at ih2 ⊢
    rw [List.findIdx_cons]
    by_cases hb : lt b v = true
    · have hle : b.tier ≤ v.tier := by
        by_contra hcon
        have := (hlt b v).2 (by omega)
        rw [hb] at this
        exact absurd this (by decide)
      simp only [hb, Bool.not_true, cond_false, List.take_succ_cons, List.drop_succ_cons]
      refine ⟨?_, ih2.2⟩
      intro x hx
      rcases List.mem_cons.mp hx with rfl | hx
      · exact hle
      · exact ih2.1 x hx
    · have hge : v.tier ≤ b.tier := by
        by_contra hcon
        exact hb ((hlt b v).1 (by omega))
      simp only [hb, Bool.not_false, cond_true, List.take_zero, List.drop_zero]
      refine ⟨by simp, ?_⟩
      intro x hx
      rcases List.mem_cons.mp hx with rfl | hx
      · exact hge
      · exact Nat.le_trans hge (hs.1 x hx)

section
variable (parse : Str → Option tr_url_parsed_t) (lt : tracker_info → tracker_info → Bool)

theorem add_tiersAscend (hlt : TierFirst lt) (s : tr_announce_list) (t : Nat) (url : Str)
    (h : TiersAscend s.trackers_) : TiersAscend (add parse lt s t url).2.trackers_ := by
  unfold add
  cases hp : parse url with
  | none => simpa using h
  | some a =>
    by_cases hc : canAdd s a = true
    · simp only [hc, Bool.not_true, Bool.false_eq_true, if_false]
      have hsplit := lower_bound_split_tier lt hlt s.trackers_ (new_tracker parse s t url a) h
      exact pairwise_vector_insert _ _ _ h hsplit.1 hsplit.2
    · simpa [hc] using h

theorem foldl_add_tiersAscend (hlt : TierFirst lt) (entries : List (Nat × Str))
    (s : tr_announce_list) (h : TiersAscend s.trackers_) :
    TiersAscend (entries.foldl (fun acc e => (add parse lt acc e.1 e.2).2) s).trackers_ := by
  induction entries generalizing s with
  | nil => simpa using h
  | cons e es ih =>
    simp only [List.foldl_cons]
    exact ih _ (add_tiersAscend parse lt hlt s e.1 e.2 h)

theorem replace_tiersAscend (hlt : TierFirst lt) (s : tr_announce_list) (id : Nat) (url : Str)
    (h : TiersAscend s.trackers_) : TiersAscend (replace parse lt s id url).2.trackers_ := by
  unfold replace
  cases hp : parse url with
  | none => simpa using h
  | some a =>
    by_cases hc : canAdd s a = true
    · simp only [hc, Bool.not_true, Bool.false_eq_true, if_false]
      by_cases hi : find_id s id < s.trackers_.length
      · simp only [hi, dite_true]
        exact add_tiersAscend parse lt hlt _ _ _
          (List.Pairwise.sublist (List.eraseIdx_sublist _ _) h)
      · simpa [hi] using h
    · simpa [hc] using h

theorem reachable_tiersAscend (hlt : TierFirst lt) (s : tr_announce_list)
    (h : Reachable parse lt s) : TiersAscend s.trackers_ := by
  induction h with
  | empty n => exact List.Pairwise.nil
  | other_id s _ ih => exact ih
  | add s t url _ ih => exact add_tiersAscend parse lt hlt s t url ih
  | set s entries _ ih =>
    exact foldl_add_tiersAscend parse lt hlt entries _ List.Pairwise.nil
  | remove_url s url _ ih =>
    unfold remove_url
    by_cases hi : find_url s url = s.trackers_.length
    · simpa [hi] using ih
    · simpa [hi] using List.Pairwise.sublist (List.eraseIdx_sublist _ _) ih
  | remove_id s id _ ih =>
    unfold remove_id
    by_cases hi : find_id s id = s.trackers_.length
    · simpa [hi] using ih
    · simpa [hi] using List.Pairwise.sublist (List.eraseIdx_sublist _ _) ih
  | replace s id url _ ih => exact replace_tiersAscend parse lt hlt s id url ih

end

/-! ## Lemmas: the magnet text and the trackers of a magnet link -/

theorem magnet_eq_reference (esc : Str → Str) (tm : tr_torrent_metainfo) :
    magnet esc tm = magnetReference esc tm.info_hash_chars_ tm.name_
      (tm.tiers_.map (fun tier => tier.map (fun torrent => torrent.1))) tm.webseed_urls_ := by
  have hin : ∀ (tier : List tier_entry) (s : Str),
      tier.foldl (fun s torrent => s ++ "&tr=".toList ++ esc torrent.1) s
        = s ++ tier.flatMap (fun torrent => "&tr=".toList ++ esc torrent.1) := by
    intro tier s
    rw [← foldl_append_flatMap]
    congr 1
    funext s x
    rw [List.append_assoc]
  have hws : ∀ (s : Str),
      tm.webseed_urls_.foldl (fun s webseed => s ++ "&ws=".toList ++ esc webseed) s
        = s ++ tm.webseed_urls_.flatMap (fun webseed => "&ws=".toList ++ esc webseed) := by
    intro s
    rw [← foldl_append_flatMap]
    congr 1
    funext s x
    rw [List.append_assoc]
  have hout : ∀ (s : Str),
      tm.tiers_.foldl (fun s tier =>
          tier.foldl (fun s torrent => s ++ "&tr=".toList ++ esc torrent.1) s) s
        = s ++ tm.tiers_.flatMap
          (fun tier => tier.flatMap (fun torrent => "&tr=".toList ++ esc torrent.1)) := by
    intro s
    rw [← foldl_append_flatMap]
    congr 1
    funext s x
    rw [hin]
  unfold magnet magnetReference
  simp only [hws, hout]
  by_cases hn : tm.name_ = []
  · simp [hn, List.flatMap_map]
  · have : tm.name_.isEmpty = false := by
      cases h : tm.name_ with
      | nil => exact absurd h hn
      | cons x xs => rfl
    simp [hn, this, List.flatMap_map]

theorem is_tr_key_dn : is_tr_key "dn".toList = false := by decide

section
variable (tier_bits : Nat) (parse : Str → Option tr_url_parsed_t)
  (lt : tracker_info → tracker_info → Bool) (ext : externals) (mext : magnet_externals)

theorem parseMagnet_step_announce_list (st : magnet_loop_t) (kv : Str × Str) :
    (parseMagnet_step tier_bits parse lt ext mext st kv).this.announce_list =
        (if is_tr_key kv.1 then
          (add parse lt st.this.announce_list st.tier (mext.tr_urlPercentDecode kv.2)).2
        else st.this.announce_list) ∧
      (parseMagnet_step tier_bits parse lt ext mext st kv).tier
        = if is_tr_key kv.1 then (st.tier + 1) % 2 ^ tier_bits else st.tier := by
  unfold parseMagnet_step
  simp only
  by_cases h1 : kv.1 = "dn".toList
  · rw [if_pos h1, h1, is_tr_key_dn]
    exact ⟨rfl, rfl⟩
  · rw [if_neg h1]
    by_cases h2 : kv.1 = "tr".toList ∨ tr_strvStartsWith kv.1 "tr.".toList = true
    · have h3 : is_tr_key kv.1 = true := by
        unfold is_tr_key
        simpa using h2
      rw [if_pos h2, h3]
      exact ⟨rfl, rfl⟩
    · have h3 : is_tr_key kv.1 = false := by
        unfold is_tr_key
        simpa using h2
      rw [if_neg h2, h3]
      simp only [Bool.false_eq_true, if_false]
      split_ifs <;> exact ⟨rfl, rfl⟩

theorem add_by_occurrence_cons (L : tr_announce_list) (n : Nat) (u : Str) (us : List Str) :
    add_by_occurrence tier_bits parse lt L n (u :: us)
      = add_by_occurrence tier_bits parse lt (add parse lt L (n % 2 ^ tier_bits) u).2 (n + 1)
        us := by
  unfold add_by_occurrence
  rw [List.enumFrom_cons, List.foldl_cons]

theorem tr_values_cons (kv : Str × Str) (kvs : List (Str × Str)) :
    tr_values mext (kv :: kvs)
      = if is_tr_key kv.1 then mext.tr_urlPercentDecode kv.2 :: tr_values mext kvs
        else tr_values mext kvs := by
  unfold tr_values
  by_cases hk : is_tr_key kv.1 = true
  · simp [hk]
  · simp [hk]

theorem tr_values_append (xs ys : List (Str × Str)) :
    tr_values mext (xs ++ ys) = tr_values mext xs ++ tr_values mext ys := by
  unfold tr_values
  rw [List.filter_append, List.map_append]

theorem parseMagnet_foldl_announce_list (kvs : List (Str × Str)) :
    ∀ (st : magnet_loop_t) (n : Nat), st.tier = n % 2 ^ tier_bits →
    (kvs.foldl (parseMagnet_step tier_bits parse lt ext mext) st).this.announce_list
      = add_by_occurrence tier_bits parse lt st.this.announce_list n (tr_values mext kvs) := by
  induction kvs with
  | nil => intro st n _; rfl
  | cons kv kvs ih =>
    intro st n hn
    have hstep := parseMagnet_step_announce_list tier_bits parse lt ext mext st kv
    rw [List.foldl_cons, tr_values_cons]
    by_cases hk : is_tr_key kv.1 = true
    · rw [hk] at hstep
      simp only [if_true] at hstep
      rw [if_pos hk, ih _ (n + 1) (by rw [hstep.2, hn, Nat.mod_add_mod]), hstep.1, hn,
        add_by_occurrence_cons]
    · simp only [hk, if_false, Bool.false_eq_true] at hstep
      rw [if_neg hk, ih _ n (by rw [hstep.2]; exact hn), hstep.1]

theorem parseMagnet_step_name (st : magnet_loop_t) (kv : Str × Str)
    (h : kv.1 ≠ "dn".toList) :
    (parseMagnet_step tier_bits parse lt ext mext st kv).this.name = st.this.name := by
  unfold parseMagnet_step
  simp only [if_neg h]
  split_ifs <;> rfl

theorem parseMagnet_foldl_name (kvs : List (Str × Str)) :
    ∀ (st : magnet_loop_t), (∀ kv ∈ kvs, kv.1 ≠ "dn".toList) →
    (kvs.foldl (parseMagnet_step tier_bits parse lt ext mext) st).this.name = st.this.name := by
  induction kvs with
  | nil => intro st _; rfl
  | cons kv kvs ih =>
    intro st h
    rw [List.foldl_cons, ih _ (fun x hx => h x (List.mem_cons_of_mem _ hx)),
      parseMagnet_step_name tier_bits parse lt ext mext st kv (h kv (List.mem_cons_self _ _))]

theorem parseMagnet_step_dn (st : magnet_loop_t) (v : Str) :
    (parseMagnet_step tier_bits parse lt ext mext st ("dn".toList, v)).this.name
      = mext.tr_urlPercentDecode v := by
  unfold parseMagnet_step
  simp

theorem add_scrapeDerived (s : tr_announce_list) (t : Nat) (url : Str)
    (h : ScrapeDerived parse s.trackers_) :
    ScrapeDerived parse (add parse lt s t url).2.trackers_ := by
  by_cases hok : (add parse lt s t url).1 = true
  · obtain ⟨a, hp, hc⟩ := add_true_inv parse lt s t url hok
    rw [add_eq_insert parse lt s t url a hp hc]
    intro r hr
    rcases mem_vector_insert _ _ _ _ hr with hr | hr
    · rw [hr]
      exact ⟨rfl, rfl⟩
    · exact h r hr
  · rw [add_fst_false_snd parse lt s t url (by simpa using hok)]
    exact h

theorem add_by_occurrence_scrapeDerived (urls : List Str) :
    ∀ (L : tr_announce_list) (n : Nat), ScrapeDerived parse L.trackers_ →
    ScrapeDerived parse (add_by_occurrence tier_bits parse lt L n urls).trackers_ := by
  induction urls with
  | nil => intro L n h; exact h
  | cons u us ih =>
    intro L n h
    rw [add_by_occurrence_cons]
    exact ih _ _ (add_scrapeDerived parse lt L _ u h)

theorem add_by_occurrence_append (L : tr_announce_list) (n : Nat) (xs ys : List Str) :
    add_by_occurrence tier_bits parse lt L n (xs ++ ys)
      = add_by_occurrence tier_bits parse lt (add_by_occurrence tier_bits parse lt L n xs)
        (n + xs.length) ys := by
  unfold add_by_occurrence
  rw [List.enumFrom_append, List.foldl_append]

theorem addedInTurn (L : tr_announce_list) (urls : List Str) :
    AddedInTurn tier_bits parse lt L urls := by
  intro pre post u _
  have hstep : add_by_occurrence tier_bits parse lt L 0 (pre ++ [u])
      = (add parse lt (add_by_occurrence tier_bits parse lt L 0 pre)
          (pre.length % 2 ^ tier_bits) u).2 := by
    rw [add_by_occurrence_append, Nat.zero_add]
    rfl
  rw [hstep]
  constructor
  · intro h
    apply add_fst_false_snd
    rcases h with h | ⟨a, ha, r, hr, hsame⟩
    · simp [add, h]
    · have hc : canAdd (add_by_occurrence tier_bits parse lt L 0 pre) a = false := by
        cases hcan : canAdd (add_by_occurrence tier_bits parse lt L 0 pre) a with
        | false => rfl
        | true => exact absurd hsame ((canAdd_iff _ a).mp hcan r hr)
      simp [add, ha, hc]
  · intro a ha hnew
    have hc := (canAdd_iff (add_by_occurrence tier_bits parse lt L 0 pre) a).mpr hnew
    rw [add_eq_insert parse lt _ _ u a ha hc]
    refine ⟨_, _, _, (List.take_append_drop _ _).symm, rfl, rfl, rfl, ?_⟩
    exact getTier_resolved _ _ a

theorem add_fresh_tier (hlt : TierFirst lt) (L : tr_announce_list) (n : Nat) (u : Str)
    (a : tr_url_parsed_t) (ha : parse u = some a) (htier : ∀ r ∈ L.trackers_, r.tier < n)
    (hsib : ∀ r ∈ L.trackers_, ¬ same_host_path r.announce a) :
    (add parse lt L n u).2 = ⟨L.trackers_ ++ [new_tracker parse L n u a], L.id + 1⟩ ∧
      (new_tracker parse L n u a).tier = n := by
  have hc : canAdd L a = true := by
    rw [canAdd_iff]
    intro t ht hsame
    exact hsib t ht ⟨hsame.2.1, hsame.2.2.2⟩
  have hget : (new_tracker parse L n u a).tier = n := by
    show getTier L n a = n
    unfold getTier
    have hnone : L.trackers_.find? (is_sibling a) = none := by
      rw [List.find?_eq_none]
      intro r hr hs
      exact hsib r hr ((is_sibling_iff a r).mp hs)
    rw [hnone]
  have hlb : lower_bound lt L.trackers_ (new_tracker parse L n u a) = L.trackers_.length := by
    unfold lower_bound
    rw [findIdx_eq_length_iff]
    intro x hx
    have := (hlt x (new_tracker parse L n u a)).1 (by rw [hget]; exact htier x hx)
    simp [this]
  refine ⟨?_, hget⟩
  rw [add_eq_insert parse lt L n u a ha hc, hlb]
  simp [vector_insert]

theorem add_by_occurrence_fresh (hlt : TierFirst lt) (urls : List Str) :
    ∀ (L : tr_announce_list) (n : Nat), (∀ r ∈ L.trackers_, r.tier < n) →
      (∀ r ∈ L.trackers_, ∀ u ∈ urls, ∀ a ∈ parse u, ¬ same_host_path r.announce a) →
      EachItsOwnHostPath parse urls → n + urls.length ≤ 2 ^ tier_bits →
      urls_and_tiers (add_by_occurrence tier_bits parse lt L n urls)
        = urls_and_tiers L ++ (urls.enumFrom n).map (fun p => (p.2, p.1)) := by
  induction urls with
  | nil =>
    intro L n _ _ _ _
    simp [add_by_occurrence]
  | cons u us ih =>
    intro L n htier hsib hown hlen
    obtain ⟨a, ha⟩ := Option.isSome_iff_exists.mp (hown.1 u (List.mem_cons_self _ _))
    have hn : n % 2 ^ tier_bits = n := by
      apply Nat.mod_eq_of_lt
      rw [List.length_cons] at hlen
      omega
    have hpw := hown.2
    rw [List.pairwise_cons] at hpw
    obtain ⟨hadd, hget⟩ := add_fresh_tier parse lt hlt L n u a ha htier
      (fun r hr => hsib r hr u (List.mem_cons_self _ _) a ha)
    rw [add_by_occurrence_cons, hn, hadd,
      ih ⟨L.trackers_ ++ [new_tracker parse L n u a], L.id + 1⟩ (n + 1)
        (by
          intro r hr
          rcases List.mem_append.mp hr with hr | hr
          · exact Nat.lt_succ_of_lt (htier r hr)
          · rw [List.mem_singleton.mp hr, hget]
            exact Nat.lt_succ_self n)
        (by
          intro r hr v hv b hb
          rcases List.mem_append.mp hr with hr | hr
          · exact hsib r hr v (List.mem_cons_of_mem _ hv) b hb
          · rw [List.mem_singleton.mp hr]
            exact hpw.1 v hv a ha b hb)
        ⟨fun v hv => hown.1 v (List.mem_cons_of_mem _ hv), hpw.2⟩
        (by rw [List.length_cons] at hlen; omega)]
    unfold urls_and_tiers
    simp only [List.map_append, List.map_cons, List.map_nil, List.enumFrom_cons,
      List.append_assoc, List.singleton_append]
    rw [hget]
    rfl

theorem urls_of_tier_enum (us : List Str) :
    ∀ (xs : List tracker_info) (n : Nat),
      xs.map (fun r => (r.announce_str, r.tier)) = (us.enumFrom n).map (fun p => (p.2, p.1)) →
      ∀ k, urls_of_tier xs k = if n ≤ k then (us[k - n]?).toList else [] := by
  induction us with
  | nil =>
    intro xs n h k
    rw [List.enumFrom_nil, List.map_nil, List.map_eq_nil_iff] at h
    rw [h]
    simp [urls_of_tier]
  | cons u us ih =>
    intro xs n h k
    cases xs with
    | nil => simp [List.enumFrom_cons] at h
    | cons x xs =>
      rw [List.enumFrom_cons, List.map_cons, List.map_cons, List.cons.injEq] at h
      obtain ⟨hx, hrest⟩ := h
      have hx1 : x.announce_str = u := congrArg Prod.fst hx
      have hx2 : x.tier = n := congrArg Prod.snd hx
      have ih2 := ih xs (n + 1) hrest k
      unfold urls_of_tier at ih2 ⊢
      rw [List.filter_cons]
      by_cases hk : k = n
      · have h1 : (x.tier == k) = true := by simp [hx2, hk]
        rw [if_pos h1, List.map_cons, ih2, if_neg (by omega), if_pos (by omega), hx1, hk]
        simp
      · have h1 : ¬ ((x.tier == k) = true) := by
          simp only [beq_iff_eq]
          omega
        rw [if_neg h1, ih2]
        by_cases hle : n ≤ k
        · have h2 : k - n = (k - (n + 1)) + 1 := by omega
          rw [if_pos (by omega), if_pos hle, h2, List.getElem?_cons_succ]
        · rw [if_neg (by omega), if_neg hle]

theorem tiers_of_one (tiers : List (List tier_entry)) (h : ∀ tier ∈ tiers, tier.length = 1) :
    ∀ k, (tiers.map (fun tier => tier.map (fun torrent => torrent.1))).getD k []
      = ((tiers.flatMap (fun tier => tier.map (fun torrent => torrent.1)))[k]?).toList := by
  induction tiers with
  | nil => intro k; simp
  | cons tier tiers ih =>
    intro k
    have h1 := h tier (List.mem_cons_self _ _)
    have ih2 := ih (fun t ht => h t (List.mem_cons_of_mem _ ht))
    obtain ⟨e, he⟩ := List.length_eq_one.mp h1
    rw [he]
    cases k with
    | zero => simp
    | succ k =>
      rw [List.map_cons, List.getD_cons_succ, ih2 k]
      simp

end

section
variable (tier_bits : Nat) (parse : Str → Option tr_url_parsed_t)
  (lt : tracker_info → tracker_info → Bool) (ext : externals) (mext : magnet_externals)

theorem tr_values_magnet_pairs (tm : tr_torrent_metainfo)
    (hdec : ∀ s ∈ magnet_urls tm, mext.tr_urlPercentDecode (mext.tr_http_escape s) = s) :
    tr_values mext (magnet_pairs mext.tr_http_escape tm) = magnet_urls tm := by
  have hxt : is_tr_key "xt".toList = false := by decide
  have hdn : is_tr_key "dn".toList = false := by decide
  have hws : is_tr_key "ws".toList = false := by decide
  have htr : is_tr_key "tr".toList = true := by decide
  have h1 : tr_values mext (if tm.name_.isEmpty then []
      else [("dn".toList, mext.tr_http_escape tm.name_)]) = [] := by
    split_ifs
    · rfl
    · rw [tr_values_cons, hdn]
      rfl
  have h2 : ∀ ws : List Str,
      tr_values mext (ws.map (fun w => ("ws".toList, mext.tr_http_escape w))) = [] := by
    intro ws
    induction ws with
    | nil => rfl
    | cons w ws ih => rw [List.map_cons, tr_values_cons, hws]; exact ih
  have h3 : ∀ us : List Str,
      (∀ s ∈ us, mext.tr_urlPercentDecode (mext.tr_http_escape s) = s) →
      tr_values mext (us.map (fun u => ("tr".toList, mext.tr_http_escape u))) = us := by
    intro us
    induction us with
    | nil => intro _; rfl
    | cons u us ih =>
      intro hd
      rw [List.map_cons, tr_values_cons, htr, if_pos rfl, hd u (List.mem_cons_self _ _),
        ih (fun s hs => hd s (List.mem_cons_of_mem _ hs))]
  unfold magnet_pairs
  rw [tr_values_cons, hxt, tr_values_append, tr_values_append, h1, h2, h3 _ hdec]
  simp

theorem parseMagnet_round_trip (tm : tr_torrent_metainfo) (q : Str)
    (hhash : IsDigest tm.info_hash_ ∧ tm.info_hash_chars_ = hexForm tm.info_hash_)
    (hurl : mext.tr_urlParse (magnet mext.tr_http_escape tm) = some ("magnet".toList, q))
    (hview : mext.tr_url_query_view q = magnet_pairs mext.tr_http_escape tm)
    (hdec : ∀ s ∈ tm.name_ :: magnet_urls tm,
      mext.tr_urlPercentDecode (mext.tr_http_escape s) = s) :
    MagnetRoundTrip tier_bits parse lt tm
      (parseMagnet tier_bits parse lt ext mext emptyMagnet (magnet mext.tr_http_escape tm)) := by
  have hlen : tm.info_hash_chars_.length = 40 := by
    rw [hhash.2, hexForm_length, hhash.1.1]
  have hhex : tr_hex_to_sha1 tm.info_hash_chars_ = tm.info_hash_ := by
    rw [hhash.2, tr_hex_to_sha1_hexForm _ hhash.1.2]
  have hdn : ¬ RecognizedXt ("dn".toList, mext.tr_http_escape tm.name_) := fun h =>
    absurd h.1 (show ¬ ("dn".toList = "xt".toList) by decide)
  have hafter : ∀ kv ∈ (if tm.name_.isEmpty then []
        else [("dn".toList, mext.tr_http_escape tm.name_)]) ++
      (magnet_urls tm).map (fun u => ("tr".toList, mext.tr_http_escape u)) ++
      tm.webseed_urls_.map (fun w => ("ws".toList, mext.tr_http_escape w)),
      ¬ RecognizedXt kv := by
    intro kv hkv h
    rcases List.mem_append.mp hkv with hkv | hkv
    · rcases List.mem_append.mp hkv with hkv | hkv
      · split_ifs at hkv
        · simp at hkv
        · rw [List.mem_singleton.mp hkv] at h
          exact hdn h
      · obtain ⟨u, _, rfl⟩ := List.mem_map.mp hkv
        exact absurd h.1 (show ¬ ("tr".toList = "xt".toList) by decide)
    · obtain ⟨u, _, rfl⟩ := List.mem_map.mp hkv
      exact absurd h.1 (show ¬ ("ws".toList = "xt".toList) by decide)
  have hxt := (parseMagnet_xt_last tier_bits parse lt ext mext emptyMagnet
    (magnet mext.tr_http_escape tm) q tm.info_hash_chars_ [] _ hurl
    (by rw [hview]; rfl) hafter).1 hlen
  rw [hhex] at hxt
  have hlist : (parseMagnet tier_bits parse lt ext mext emptyMagnet
      (magnet mext.tr_http_escape tm)).2.announce_list
      = add_by_occurrence tier_bits parse lt ⟨[], 0⟩ 0 (magnet_urls tm) := by
    rw [parseMagnet_of_view tier_bits parse lt ext mext emptyMagnet _ q hurl, hview]
    simp only
    rw [parseMagnet_foldl_announce_list tier_bits parse lt ext mext _ ⟨emptyMagnet, 0, false⟩ 0
      (Nat.zero_mod _).symm,
      tr_values_magnet_pairs mext tm (fun s hs => hdec s (List.mem_cons_of_mem _ hs))]
    rfl
  have hname : (parseMagnet tier_bits parse lt ext mext emptyMagnet
      (magnet mext.tr_http_escape tm)).2.name = tm.name_ := by
    rw [parseMagnet_of_view tier_bits parse lt ext mext emptyMagnet _ q hurl, hview]
    simp only
    unfold magnet_pairs
    rw [List.foldl_cons, List.foldl_append,
      parseMagnet_foldl_name tier_bits parse lt ext mext _ _ (by
        intro kv hkv
        obtain ⟨u, _, rfl⟩ := List.mem_map.mp hkv
        exact (show "ws".toList ≠ "dn".toList by decide)),
      List.foldl_append,
      parseMagnet_foldl_name tier_bits parse lt ext mext _ _ (by
        intro kv hkv
        obtain ⟨u, _, rfl⟩ := List.mem_map.mp hkv
        exact (show "tr".toList ≠ "dn".toList by decide))]
    by_cases hn : tm.name_.isEmpty = true
    · rw [if_pos hn, List.foldl_nil,
        parseMagnet_step_name tier_bits parse lt ext mext _ _
          (show "xt".toList ≠ "dn".toList by decide),
        List.isEmpty_iff.mp hn]
      rfl
    · rw [if_neg hn, List.foldl_cons, List.foldl_nil, parseMagnet_step_dn,
        hdec _ (List.mem_cons_self _ _)]
  refine ⟨hxt.1, hxt.2, hname, hlist, addedInTurn tier_bits parse lt _ _, ?_⟩
  intro hlt hown hcount
  have hmap := add_by_occurrence_fresh tier_bits parse lt hlt (magnet_urls tm) ⟨[], 0⟩ 0
    (by simp) (by simp) hown (by omega)
  rw [hlist]
  have hmap2 : urls_and_tiers (add_by_occurrence tier_bits parse lt ⟨[], 0⟩ 0 (magnet_urls tm))
      = (magnet_urls tm).enum.map (fun p => (p.2, p.1)) := by
    rw [hmap]
    rfl
  refine ⟨hmap2, ?_⟩
  intro hone k
  rw [urls_of_tier_enum (magnet_urls tm) _ 0 hmap2 k, tiers_of_one tm.tiers_ hone k]
  simp [magnet_urls]

theorem parseMagnet_trackersByOccurrence (this : magnet_t) (link q : Str)
    (hurl : mext.tr_urlParse link = some ("magnet".toList, q)) :
    TrackersByOccurrence tier_bits parse lt mext (mext.tr_url_query_view q) this
      (parseMagnet tier_bits parse lt ext mext this link).2 := by
  have hlist : (parseMagnet tier_bits parse lt ext mext this link).2.announce_list
      = add_by_occurrence tier_bits parse lt this.announce_list 0
        (tr_values mext (mext.tr_url_query_view q)) := by
    rw [parseMagnet_of_view tier_bits parse lt ext mext this link q hurl]
    simp only
    rw [parseMagnet_foldl_announce_list tier_bits parse lt ext mext _ ⟨this, 0, false⟩ 0
      (Nat.zero_mod _).symm]
  refine ⟨hlist, addedInTurn tier_bits parse lt _ _, ?_, ?_⟩
  · intro h
    rw [hlist]
    exact add_by_occurrence_scrapeDerived tier_bits parse lt _ _ 0 h
  · intro hlt hempty hown hcount
    have hmap := add_by_occurrence_fresh tier_bits parse lt hlt
      (tr_values mext (mext.tr_url_query_view q)) this.announce_list 0
      (by rw [hempty]; simp) (by rw [hempty]; simp) hown (by omega)
    rw [hlist, hmap]
    unfold urls_and_tiers
    rw [hempty]
    rfl

end

/-! ## Lemmas: the parsed files and webseeds -/

theorem parseFilesLoop_length (ext : externals) (root_name : Str) (entries : List tr_variant)
    (files : List file_t) (total_size : Nat)
    (h : (parseFilesLoop ext root_name entries files total_size).1 = []) :
    (parseFilesLoop ext root_name entries files total_size).2.1.length
      = files.length + entries.length := by
  induction entries generalizing files total_size with
  | nil => simp [parseFilesLoop]
  | cons e rest ih =>
    rw [parseFilesLoop] at h ⊢
    by_cases hd : (!tr_variantIsDict e) = true
    · rw [if_pos hd] at h
      exact absurd h (List.cons_ne_nil _ _)
    · rw [if_neg hd] at h ⊢
      cases hl : tr_variantDictFindInt e TR_KEY_length with
      | none =>
        simp only [hl] at h
        exact absurd h (List.cons_ne_nil _ _)
      | some len =>
        simp only [hl] at h ⊢
        cases hpv : (tr_variantDictFindList e TR_KEY_path_utf_8).orElse
            (fun _ => tr_variantDictFindList e TR_KEY_path) with
        | none =>
          simp only [hpv] at h
          exact absurd h (List.cons_ne_nil _ _)
        | some path_variant =>
          simp only [hpv] at h ⊢
          cases hpath : parsePath ext root_name path_variant with
          | none =>
            simp only [hpath] at h
            exact absurd h (List.cons_ne_nil _ _)
          | some path =>
            simp only [hpath] at h ⊢
            rw [ih _ _ h]
            simp only [List.length_append, List.length_cons, List.length_nil]
            omega

theorem parseFiles_single (ext : externals) (setme : tr_torrent_metainfo)
    (info_dict : tr_variant) (total_size0 : Nat) (len : int64_t)
    (hlen : tr_variantDictFindInt info_dict TR_KEY_length = some len)
    (hname : (appendSanitizedComponent [] setme.name_).ret = true) :
    parseFiles ext setme info_dict total_size0 =
      ([], { setme with
        files_ := [⟨(appendSanitizedComponent [] setme.name_).out, toU64 len⟩] }, toU64 len) := by
  unfold parseFiles
  simp only [hname, hlen, Bool.not_true, Bool.false_eq_true, if_false, List.nil_append]

theorem parseFiles_single_nonneg (ext : externals) (setme : tr_torrent_metainfo)
    (info_dict : tr_variant) (total_size0 : Nat) (len : int64_t)
    (hlen : tr_variantDictFindInt info_dict TR_KEY_length = some len)
    (hname : (appendSanitizedComponent [] setme.name_).ret = true) (h0 : 0 ≤ len.val) :
    ∃ size : Nat, (size : Int) = len.val ∧
      parseFiles ext setme info_dict total_size0 =
        ([], { setme with
          files_ := [⟨(appendSanitizedComponent [] setme.name_).out, size⟩] }, size) := by
  refine ⟨toU64 len, ?_, parseFiles_single ext setme info_dict total_size0 len hlen hname⟩
  have hr := len.range
  unfold toU64
  norm_num at hr ⊢
  omega

theorem parseFiles_success_files (ext : externals) (setme : tr_torrent_metainfo)
    (info_dict : tr_variant) (h : (parseFiles ext setme info_dict 0).1 = []) :
    ((∃ len, tr_variantDictFindInt info_dict TR_KEY_length = some len) →
        (parseFiles ext setme info_dict 0).2.1.files_.length = 1) ∧
      ∀ entries, tr_variantDictFindInt info_dict TR_KEY_length = none →
        tr_variantDictFindList info_dict TR_KEY_files = some entries →
        (parseFiles ext setme info_dict 0).2.1.files_.length
          = (tr_variantListChildren entries).length := by
  have hname : (appendSanitizedComponent [] setme.name_).ret = true := by
    by_contra hcon
    unfold parseFiles at h
    simp only at h
    rw [if_pos (by simpa using hcon)] at h
    exact absurd h (List.cons_ne_nil _ _)
  constructor
  · rintro ⟨len, hlen⟩
    rw [parseFiles_single ext setme info_dict 0 len hlen hname]
    rfl
  · intro entries hlen hfiles
    unfold parseFiles at h ⊢
    simp only [hname, hlen, hfiles, Bool.not_true, Bool.false_eq_true, if_false] at h ⊢
    by_cases hok : List.isEmpty (parseFilesLoop ext (appendSanitizedComponent [] setme.name_).out
        (tr_variantListChildren entries) [] 0).1 = true
    · rw [if_pos hok]
      simp only
      rw [parseFilesLoop_length ext _ _ [] 0 (List.isEmpty_iff.mp hok)]
      simp
    · rw [if_neg hok] at h
      simp only at h
      rw [h] at hok
      exact absurd rfl hok

theorem parseImplFiles_tail (ext : externals) (s1 : tr_torrent_metainfo)
    (top info_dict : tr_variant) (piece_size : Nat)
    (h : (parseImplFiles ext s1 top info_dict piece_size).1 = []) :
    (parseFiles ext s1 info_dict 0).1 = [] ∧
      ∃ s2 : tr_torrent_metainfo, s2.files_ = (parseFiles ext s1 info_dict 0).2.1.files_ ∧
        (parseImplFiles ext s1 top info_dict piece_size).2
          = parseWebseeds ext (parseAnnounce ext s2 top) top := by
  unfold parseImplFiles at h ⊢
  simp only at h ⊢
  by_cases herr : (!(parseFiles ext s1 info_dict 0).1.isEmpty) = true
  · rw [if_pos herr] at h
    simp only at h
    rw [h] at herr
    exact absurd herr (by decide)
  · rw [if_neg herr] at h ⊢
    have hok : (parseFiles ext s1 info_dict 0).1 = [] := by
      simpa using herr
    by_cases hnone : (parseFiles ext s1 info_dict 0).2.1.files_.isEmpty = true ∨
        (parseFiles ext s1 info_dict 0).2.2 = 0
    · rw [if_pos hnone] at h
      exact absurd h (List.cons_ne_nil _ _)
    · rw [if_neg hnone] at h ⊢
      by_cases hcount : (initSizes (parseFiles ext s1 info_dict 0).2.2 piece_size).n_pieces ≠
          (parseFiles ext s1 info_dict 0).2.1.pieces_.length
      · rw [if_pos hcount] at h
        exact absurd h (List.cons_ne_nil _ _)
      · rw [if_neg hcount]
        exact ⟨hok, { (parseFiles ext s1 info_dict 0).2.1 with
          block_info_ := initSizes (parseFiles ext s1 info_dict 0).2.2 piece_size }, rfl, rfl⟩

theorem parseImpl_tail (ext : externals) (setme : tr_torrent_metainfo) (top : tr_variant)
    (benc : Str) (h : (parseImpl ext setme top benc).1 = []) :
    ∃ (info_dict : tr_variant) (s1 s2 : tr_torrent_metainfo),
      tr_variantDictFindDict top TR_KEY_info = some info_dict ∧
      (parseFiles ext s1 info_dict 0).1 = [] ∧
      s2.files_ = (parseFiles ext s1 info_dict 0).2.1.files_ ∧
      (parseImpl ext setme top benc).2 = parseWebseeds ext (parseAnnounce ext s2 top) top := by
  obtain ⟨info_dict, setme1, hinfo, heq⟩ := parseImpl_success ext setme top benc h
  rw [heq] at h ⊢
  unfold parseImplSizes at h ⊢
  cases hpl : (tr_variantDictFindInt info_dict TR_KEY_piece_length).filter
      (fun i => decide (i.val > 0)) with
  | none =>
    simp only [hpl] at h
    exact absurd h (List.cons_ne_nil _ _)
  | some i =>
    simp only [hpl] at h ⊢
    cases hps : (tr_variantDictFindStrView info_dict TR_KEY_pieces).filter
        (fun sv => decide (sv.length % 20 = 0)) with
    | none =>
      simp only [hps] at h
      exact absurd h (List.cons_ne_nil _ _)
    | some sv =>
      simp only [hps] at h ⊢
      obtain ⟨hok, s2, hs2, htail⟩ := parseImplFiles_tail ext _ top info_dict _ h
      exact ⟨info_dict, _, s2, hinfo, hok, hs2, htail⟩

theorem parseWebseeds_fold (ext : externals) (children : List tr_variant) :
    ∀ acc : tr_torrent_metainfo,
    children.foldl
        (fun (acc : tr_torrent_metainfo) child =>
          match tr_variantGetStrView (some child) with
          | some url =>
            if ext.tr_urlIsValid url then
              { acc with webseed_urls_ := acc.webseed_urls_ ++ [fixWebseedUrl ext acc url] }
            else acc
          | none => acc)
        acc
      = { acc with
          webseed_urls_ := acc.webseed_urls_ ++
            (children.filterMap (fun child =>
              match tr_variantGetStrView (some child) with
              | some url => if ext.tr_urlIsValid url then some url else none
              | none => none)).map (fixWebseedUrl ext acc) } := by
  induction children with
  | nil => intro acc; simp
  | cons child rest ih =>
    intro acc
    rw [List.foldl_cons, ih, List.filterMap_cons]
    cases hs : tr_variantGetStrView (some child) with
    | none => simp only
    | some url =>
      simp only
      by_cases hv : ext.tr_urlIsValid url = true
      · simp only [hv, if_true, List.map_cons, List.append_assoc, List.singleton_append]
        rfl
      · simp only [hv, if_false, Bool.false_eq_true]

theorem parseWebseeds_eq (ext : externals) (setme : tr_torrent_metainfo) (top : tr_variant) :
    parseWebseeds ext setme top
      = { setme with
          webseed_urls_ := (webseed_candidates ext top).map (fixWebseedUrl ext setme) } := by
  unfold parseWebseeds webseed_candidates
  cases hl : tr_variantDictFindList top TR_KEY_url_list with
  | some urls =>
    simp only
    rw [parseWebseeds_fold]
    rfl
  | none =>
    simp only
    cases hs : tr_variantDictFindStrView top TR_KEY_url_list with
    | none => rfl
    | some url =>
      simp only
      by_cases hv : ext.tr_urlIsValid url = true
      · simp only [hv, if_true, List.nil_append, List.map_cons, List.map_nil]
        rfl
      · simp only [hv, if_false, Bool.false_eq_true, List.map_nil]

theorem fixWebseedUrl_ends (ext : externals) (tm : tr_torrent_metainfo) (url : Str)
    (h : 1 < tm.files_.length) :
    fixWebseedUrl ext tm url = [] ∨ (fixWebseedUrl ext tm url).getLast? = some '/' := by
  unfold fixWebseedUrl
  simp only
  by_cases hc : tm.files_.length > 1 ∧ ¬ (ext.tr_strvStrip url).isEmpty = true ∧
      (ext.tr_strvStrip url).getLast? ≠ some '/'
  · rw [if_pos hc]
    right
    simp
  · rw [if_neg hc]
    by_cases he : (ext.tr_strvStrip url) = []
    · exact Or.inl he
    · right
      by_contra hl
      exact hc ⟨h, by simpa using he, hl⟩

theorem fixWebseedUrl_single (ext : externals) (tm : tr_torrent_metainfo) (url : Str)
    (h : tm.files_.length ≤ 1) : fixWebseedUrl ext tm url = ext.tr_strvStrip url := by
  unfold fixWebseedUrl
  simp only
  rw [if_neg]
  intro hc
  omega

theorem parseImpl_webseedsFixed (ext : externals) (setme : tr_torrent_metainfo)
    (top : tr_variant) (benc : Str) (h : (parseImpl ext setme top benc).1 = []) :
    WebseedsFixed ext top (parseImpl ext setme top benc).2 := by
  obtain ⟨info_dict, s1, s2, hinfo, hok, hs2, htail⟩ := parseImpl_tail ext setme top benc h
  have hfiles : (parseImpl ext setme top benc).2.files_ = s2.files_ := by
    have := parseWebseeds_sizeFields ext (parseAnnounce ext s2 top) top
    rw [parseAnnounce_sizeFields, ← htail] at this
    exact congrArg (fun p => p.2.1) this
  have hweb : (parseImpl ext setme top benc).2.webseed_urls_
      = (webseed_candidates ext top).map
        (fixWebseedUrl ext (parseImpl ext setme top benc).2) := by
    have hfix : fixWebseedUrl ext (parseImpl ext setme top benc).2
        = fixWebseedUrl ext (parseAnnounce ext s2 top) := by
      funext url
      unfold fixWebseedUrl
      have hf2 : (parseAnnounce ext s2 top).files_ = s2.files_ :=
        congrArg (fun p => p.2.1) (parseAnnounce_sizeFields ext s2 top)
      rw [hfiles, hf2]
    rw [hfix]
    conv_lhs => rw [htail, parseWebseeds_eq]
  refine ⟨hweb, ?_, ?_, ?_⟩
  · intro hmany w hw
    rw [hweb, List.mem_map] at hw
    obtain ⟨url, _, rfl⟩ := hw
    exact fixWebseedUrl_ends ext _ url hmany
  · intro hone
    rw [hweb]
    apply List.map_congr_left
    intro url _
    exact fixWebseedUrl_single ext _ url hone
  · intro d hd
    rw [hinfo] at hd
    cases hd
    rw [hfiles, hs2]
    exact parseFiles_success_files ext s1 info_dict hok

/-! ## Lemmas: the parsed announce tiers -/

theorem parseAnnounceTier_urls (ext : externals) (hemp : EmplaceAdds ext.tier_emplace)
    (children : List tr_variant) : ∀ (tier : List tier_entry) (buf : Str) (u : Str),
    (∃ e ∈ (parseAnnounceTier ext children tier buf).1, e.1 = u) ↔
      (∃ e ∈ tier, e.1 = u) ∨ u ∈ kept_tracker_urls ext children := by
  induction children with
  | nil =>
    intro tier buf u
    simp [parseAnnounceTier, kept_tracker_urls]
  | cons child rest ih =>
    intro tier buf u
    rw [parseAnnounceTier]
    unfold kept_tracker_urls at ih ⊢
    rw [List.filterMap_cons]
    cases hs : tr_variantGetStrView (some child) with
    | none =>
      simp only
      exact ih tier buf u
    | some url =>
      simp only
      by_cases hv : ext.tr_urlIsValidTracker (ext.tr_strvStrip url) = true
      · simp only [hv, if_true]
        rw [ih]
        have he : (announce_entry ext buf (ext.tr_strvStrip url)).1.1 = ext.tr_strvStrip url :=
          rfl
        constructor
        · rintro (⟨e, hmem, heq⟩ | h)
          · rcases (hemp _ _ _).mp hmem with h1 | h1
            · exact Or.inl ⟨e, h1, heq⟩
            · right
              rw [List.mem_cons]
              left
              rw [← heq, h1, he]
          · exact Or.inr (List.mem_cons_of_mem _ h)
        · rintro (⟨e, hmem, heq⟩ | h)
          · exact Or.inl ⟨e, (hemp _ _ _).mpr (Or.inl hmem), heq⟩
          · rcases List.mem_cons.mp h with h1 | h1
            · exact Or.inl ⟨_, (hemp _ _ _).mpr (Or.inr rfl), by rw [he, h1]⟩
            · exact Or.inr h1
      · simp only [hv, if_false, Bool.false_eq_true]
        exact ih tier buf u

theorem parseAnnounceTier_holds (ext : externals) (hemp : EmplaceAdds ext.tier_emplace)
    (children : List tr_variant) (buf : Str) :
    ((parseAnnounceTier ext children [] buf).1.isEmpty = true ↔
        (kept_tracker_urls ext children).isEmpty = true) ∧
      ((parseAnnounceTier ext children [] buf).1.isEmpty = false →
        HoldsUrls (parseAnnounceTier ext children [] buf).1 (kept_tracker_urls ext children)) := by
  have h := parseAnnounceTier_urls ext hemp children [] buf
  simp only [List.not_mem_nil, false_and, exists_false, false_or] at h
  constructor
  · rw [List.isEmpty_iff, List.isEmpty_iff]
    constructor
    · intro h1
      rw [List.eq_nil_iff_forall_not_mem]
      intro u hu
      obtain ⟨e, he, _⟩ := (h u).mpr hu
      rw [h1] at he
      exact absurd he (List.not_mem_nil _)
    · intro h1
      rw [List.eq_nil_iff_forall_not_mem]
      intro e he
      have := (h e.1).mp ⟨e, he, rfl⟩
      rw [h1] at this
      exact absurd this (List.not_mem_nil _)
  · intro hne
    refine ⟨?_, h⟩
    intro h0
    rw [h0] at hne
    exact absurd hne (by decide)

theorem parseAnnounceTiers_holds (ext : externals) (hemp : EmplaceAdds ext.tier_emplace)
    (tier_vs : List tr_variant) : ∀ (tiers : List (List tier_entry)) (buf : Str),
    ∃ new, (parseAnnounceTiers ext tier_vs tiers buf).1 = tiers ++ new ∧
      List.Forall₂ HoldsUrls new
        ((tier_vs.map (fun tier_v =>
          kept_tracker_urls ext (tr_variantListChildren tier_v))).filter
          (fun urls => !urls.isEmpty)) := by
  induction tier_vs with
  | nil =>
    intro tiers buf
    exact ⟨[], by simp [parseAnnounceTiers], List.Forall₂.nil⟩
  | cons tier_v rest ih =>
    intro tiers buf
    rw [parseAnnounceTiers]
    have hh := parseAnnounceTier_holds ext hemp (tr_variantListChildren tier_v) buf
    by_cases he : (parseAnnounceTier ext (tr_variantListChildren tier_v) [] buf).1.isEmpty = true
    · rw [if_pos he]
      obtain ⟨new, h1, h2⟩ := ih tiers
        (parseAnnounceTier ext (tr_variantListChildren tier_v) [] buf).2
      refine ⟨new, h1, ?_⟩
      rw [List.map_cons, List.filter_cons, if_neg (by simp [hh.1.mp he])]
      exact h2
    · rw [if_neg he]
      obtain ⟨new, h1, h2⟩ := ih
        (tiers ++ [(parseAnnounceTier ext (tr_variantListChildren tier_v) [] buf).1])
        (parseAnnounceTier ext (tr_variantListChildren tier_v) [] buf).2
      refine ⟨(parseAnnounceTier ext (tr_variantListChildren tier_v) [] buf).1 :: new,
        by rw [h1, List.append_assoc]; rfl, ?_⟩
      have hk : (kept_tracker_urls ext (tr_variantListChildren tier_v)).isEmpty = false := by
        cases hk : (kept_tracker_urls ext (tr_variantListChildren tier_v)).isEmpty with
        | false => rfl
        | true => exact absurd (hh.1.mpr hk) he
      rw [List.map_cons, List.filter_cons, if_pos (by simp [hk])]
      exact List.Forall₂.cons (hh.2 (by simpa using he)) h2

theorem parseAnnounce_holds (ext : externals) (hemp : EmplaceAdds ext.tier_emplace)
    (setme : tr_torrent_metainfo) (top : tr_variant) :
    List.Forall₂ HoldsUrls (parseAnnounce ext setme top).tiers_ (announceReference ext top) := by
  have key : ∀ (r : List (List tier_entry) × Str) (from_list : List (List Str)),
      List.Forall₂ HoldsUrls r.1 from_list →
      List.Forall₂ HoldsUrls
        (if ({ setme with tiers_ := r.1 } : tr_torrent_metainfo).tiers_.isEmpty then
          match tr_variantDictFindStrView top TR_KEY_announce with
          | some url =>
            if ext.tr_urlIsValidTracker (ext.tr_strvStrip url) then
              ({ setme with
                tiers_ := r.1 ++ [ext.tier_emplace []
                  (announce_entry ext r.2 (ext.tr_strvStrip url)).1] } : tr_torrent_metainfo)
            else ({ setme with tiers_ := r.1 } : tr_torrent_metainfo)
          | none => ({ setme with tiers_ := r.1 } : tr_torrent_metainfo)
        else ({ setme with tiers_ := r.1 } : tr_torrent_metainfo)).tiers_
        (if from_list.isEmpty then
          match tr_variantDictFindStrView top TR_KEY_announce with
          | some url =>
            if ext.tr_urlIsValidTracker (ext.tr_strvStrip url) then [[ext.tr_strvStrip url]]
            else []
          | none => []
        else from_list) := by
    intro r from_list hf
    have hlen := hf.length_eq
    by_cases he : r.1 = []
    · have hfl : from_list = [] := by
        rw [he] at hlen
        exact List.length_eq_zero.mp hlen.symm
      simp only [he, hfl, List.isEmpty_nil, if_true, List.nil_append]
      cases hs : tr_variantDictFindStrView top TR_KEY_announce with
      | none => exact List.Forall₂.nil
      | some url =>
        simp only
        by_cases hv : ext.tr_urlIsValidTracker (ext.tr_strvStrip url) = true
        · simp only [hv, if_true]
          refine List.Forall₂.cons ⟨?_, ?_⟩ List.Forall₂.nil
          · intro h0
            have := (hemp [] (announce_entry ext r.2 (ext.tr_strvStrip url)).1
              (announce_entry ext r.2 (ext.tr_strvStrip url)).1).mpr (Or.inr rfl)
            rw [h0] at this
            exact absurd this (List.not_mem_nil _)
          · intro u
            simp only [List.mem_singleton]
            constructor
            · rintro ⟨e, hmem, rfl⟩
              rcases (hemp _ _ _).mp hmem with h1 | h1
              · exact absurd h1 (List.not_mem_nil _)
              · rw [h1]
                rfl
            · intro hu
              exact ⟨_, (hemp _ _ _).mpr (Or.inr rfl), by rw [hu]; rfl⟩
        · simp only [hv, if_false, Bool.false_eq_true]
          exact List.Forall₂.nil
    · have hfl : from_list ≠ [] := by
        intro h0
        rw [h0] at hlen
        exact he (List.length_eq_zero.mp hlen)
      have h1 : r.1.isEmpty = false := by
        cases h : r.1 with
        | nil => exact absurd h he
        | cons x xs => rfl
      have h2 : from_list.isEmpty = false := by
        cases h : from_list with
        | nil => exact absurd h hfl
        | cons x xs => rfl
      simp only [h1, h2, if_false, Bool.false_eq_true]
      exact hf
  unfold parseAnnounce announceReference
  cases hl : tr_variantDictFindList top TR_KEY_announce_list with
  | none =>
    simp only
    exact key ([], []) [] List.Forall₂.nil
  | some tiers =>
    simp only
    obtain ⟨new, h1, h2⟩ := parseAnnounceTiers_holds ext hemp (tr_variantListChildren tiers) [] []
    rw [List.nil_append] at h1
    apply key
    rw [h1]
    exact h2

/-! ## Theorems: what the sanitizer appends -/

/-- C26: for every buffer `out` and component `c`, the buffer afterwards is `out` followed by
the appended characters; `appendSanitizedComponent` returns true exactly when it appended at
least one character, and false exactly when the component, after its leading whitespace, is
made of whitespace and `.` only, in which case the buffer is unchanged. -/
theorem appendSanitizedComponent_return_value (out c : Str) :
    (appendSanitizedComponent out c).out = out ++ appended out c ∧
      ((appendSanitizedComponent out c).ret = true ↔ appended out c ≠ []) ∧
      ((appendSanitizedComponent out c).ret = false ↔
        ∀ ch ∈ c.dropWhile isspace, isspace ch = true ∨ ch = '.') ∧
      ((∀ ch ∈ c.dropWhile isspace, isspace ch = true ∨ ch = '.') →
        (appendSanitizedComponent out c).out = out) := by
  have hout : (appendSanitizedComponent out c).out = out ++ appended out c := by
    unfold appended
    rw [appendSanitizedComponent_out, List.drop_left]
  have hret : (appendSanitizedComponent out c).ret
      = decide ((appendSanitizedComponent out c).out.length > out.length) := rfl
  have hlen : (appendSanitizedComponent out c).out.length
      = out.length + (appended out c).length := by
    conv_lhs => rw [hout]
    rw [List.length_append]
  refine ⟨hout, ?_, ?_, ?_⟩
  · rw [hret, decide_eq_true_eq, hlen, ← List.length_pos]
    omega
  · rw [← sanitizedForm_eq_nil_iff, ← appended_eq_nil_iff out c, hret, decide_eq_false_iff_not,
      hlen, ← List.length_eq_zero]
    omega
  · intro h
    rw [hout, (appended_eq_nil_iff out c).mpr ((sanitizedForm_eq_nil_iff c).mpr h),
      List.append_nil]

/-- C26, at concrete inputs: a component of spaces, a tab and dots leaves the buffer `n` as
it is and returns false; the component `a.` appends `a` and returns true. -/
theorem appendSanitizedComponent_return_value_witness :
    (∀ ch ∈ dotsAndSpaces.dropWhile isspace, isspace ch = true ∨ ch = '.') ∧
      (appendSanitizedComponent "n".toList dotsAndSpaces).out = "n".toList ∧
      (appendSanitizedComponent "n".toList dotsAndSpaces).ret = false ∧
      (appendSanitizedComponent "n".toList "a.".toList).out = "na".toList ∧
      (appendSanitizedComponent "n".toList "a.".toList).ret = true :=
  ⟨by decide,
    (appendSanitizedComponent_return_value "n".toList dotsAndSpaces).2.2.2 (by decide),
    by decide, by decide, by decide⟩

/-- C29: for every buffer and every component, the characters that `appendSanitizedComponent`
appends hold none of `< > : " / \ | ? *` and no character below 0x20, do not begin with
whitespace, do not end with whitespace or `.`, are neither `.` nor `..`, and hold no path
separator; the component of the specification's example comes out as `a_b_c___`. -/
theorem appended_component_is_legal (out c : Str) :
    LegalComponent (appended out c) ∧ appended "n".toList messyComponent = "a_b_c___".toList :=
  ⟨appended_legal out c, by decide⟩

/-- C30: the sanitizer is idempotent: for every component `c`, sanitizing into an empty
buffer the text that sanitizing `c` produced gives that text again and reports no adjustment,
and that text begins with no reserved name followed by its end or by `.`; for example
`CON` gives `CON_`, which stays `CON_`. -/
theorem sanitize_idempotent (c : Str) :
    (appendSanitizedComponent [] (appendSanitizedComponent [] c).out).out
        = (appendSanitizedComponent [] c).out ∧
      (appendSanitizedComponent [] (appendSanitizedComponent [] c).out).is_adjusted = false ∧
      (∀ name ∈ ReservedNames, ¬ beginsWithReserved (appendSanitizedComponent [] c).out name) ∧
      (appendSanitizedComponent [] "CON".toList).out = "CON_".toList ∧
      (appendSanitizedComponent [] "CON_".toList).out = "CON_".toList := by
  have h : (appendSanitizedComponent [] c).out = appended [] c := rfl
  rw [h]
  have h1 := appendSanitizedComponent_fixed (appended [] c) (appended_legal [] c)
    (appended_no_match [] c)
  exact ⟨h1.1, h1.2, appended_no_match [] c, by decide, by decide⟩

/-! ## Theorems: tiers along an announce list -/

/-- C28: for every comparison of records that orders by tier first, in every announce list
reachable from the empty list by `set`, `add`, `remove` and `replace` the tier values do not
decrease along the records: the tier of a record is at most the tier of every later record,
in particular of the next one. -/
theorem reachable_tiers_nondecreasing (parse : Str → Option tr_url_parsed_t)
    (lt : tracker_info → tracker_info → Bool) (s : tr_announce_list) (hlt : TierFirst lt)
    (h : Reachable parse lt s) :
    TiersAscend s.trackers_ ∧
      ∀ (i : Nat) (a b : tracker_info), s.trackers_[i]? = some a →
        s.trackers_[i + 1]? = some b → a.tier ≤ b.tier := by
  have h1 := reachable_tiersAscend parse lt hlt s h
  refine ⟨h1, ?_⟩
  intro i a b ha hb
  unfold TiersAscend at h1
  rw [List.pairwise_iff_getElem] at h1
  obtain ⟨hi, rfl⟩ := List.getElem?_eq_some_iff.mp ha
  obtain ⟨hj, rfl⟩ := List.getElem?_eq_some_iff.mp hb
  exact h1 i (i + 1) hi hj (Nat.lt_succ_self i)

/-- C28, at a concrete input: the list with tiers 0 and 1 under the comparison by tier and
then id. -/
theorem reachable_tiers_nondecreasing_witness :
    TierFirst tracker_info.lt ∧ Reachable sampleParse tracker_info.lt listA0B1 ∧
      TiersAscend listA0B1.trackers_ ∧ listA0B1.trackers_.map (fun r => r.tier) = [0, 1] :=
  ⟨tierFirst_lt, Reachable.add _ _ _ (Reachable.add _ _ _ (Reachable.empty 0)),
    (reachable_tiers_nondecreasing sampleParse tracker_info.lt listA0B1 tierFirst_lt
      (Reachable.add _ _ _ (Reachable.add _ _ _ (Reachable.empty 0)))).1, by decide⟩

/-! ## Theorems: the magnet text and the trackers of a magnet link -/

set_option maxRecDepth 100000 in
/-- C21, as stated, fails: the link `siblingLink` has three tracker keys, with the decoded
values `http://a/announce`, `https://a/announce` and `http://a/announce`; parsing it
succeeds with two records, both in tier 0: the second occurrence is not alone in tier 1, and
the third gives no tracker. -/
theorem parseMagnet_siblings_counterexample :
    tr_values sampleMagnetExternals
        (sampleMagnetExternals.tr_url_query_view (siblingLink.drop 8)) = [urlA, urlAs, urlA] ∧
      (parseMagnet 32 sampleParse tracker_info.lt sampleExternals sampleMagnetExternals
        emptyMagnet siblingLink).1 = true ∧
      urls_and_tiers (parseMagnet 32 sampleParse tracker_info.lt sampleExternals
        sampleMagnetExternals emptyMagnet siblingLink).2.announce_list
          = [(urlA, 0), (urlAs, 0)] := by
  decide

/-- C21, amended: for every magnet link, whatever pairs stand between the pairs with the key
`tr` or a key starting with `tr.`, the announce list afterwards is the one that `add` builds
when the decoded values of these pairs are added in order, the value number `k` (from 0) with
`k` as the tier asked for: a value that is not a tracker URL, or that names an endpoint
already held, gives no tracker, and any other value gives one tracker, in the tier of the
first record with its host and path, or in tier `k` when there is none. The scrape fields of
every record are derived from its announce URL; and when the values are tracker URLs no two
of which have the same host and path (and the object had no trackers), the tracker of the
occurrence number `k` is alone in tier `k`. -/
theorem parseMagnet_trackers_by_occurrence (tier_bits : Nat)
    (parse : Str → Option tr_url_parsed_t) (lt : tracker_info → tracker_info → Bool)
    (ext : externals) (mext : magnet_externals) (this : magnet_t) (link q : Str)
    (hurl : mext.tr_urlParse link = some ("magnet".toList, q)) :
    TrackersByOccurrence tier_bits parse lt mext (mext.tr_url_query_view q) this
      (parseMagnet tier_bits parse lt ext mext this link).2 :=
  parseMagnet_trackersByOccurrence tier_bits parse lt ext mext this link q hurl

set_option maxRecDepth 100000 in
/-- C21 amended, at concrete inputs: the two links of the repository's test, which differ
in the form of the hash and in the place of `ws`, give the same two trackers in tiers 0 and
1, with the scrape URLs that the test expects. -/
theorem parseMagnet_trackers_by_occurrence_witness :
    sampleMagnetExternals.tr_urlParse hexLink = some ("magnet".toList, hexLink.drop 8) ∧
      urls_and_tiers (parseMagnet 32 sampleUrlParse tracker_info.lt sampleExternals
        sampleMagnetExternals emptyMagnet hexLink).2.announce_list
          = [("http://tracker.openbittorrent.com/announce".toList, 0),
            ("http://tracker.opentracker.org/announce".toList, 1)] ∧
      tracker_view (parseMagnet 32 sampleUrlParse tracker_info.lt sampleExternals
        sampleMagnetExternals emptyMagnet hexLink).2.announce_list = testTrackers ∧
      tracker_view (parseMagnet 32 sampleUrlParse tracker_info.lt sampleExternals
        sampleMagnetExternals emptyMagnet base32Link).2.announce_list = testTrackers :=
  ⟨by decide,
    ((parseMagnet_trackers_by_occurrence 32 sampleUrlParse tracker_info.lt sampleExternals
      sampleMagnetExternals emptyMagnet hexLink (hexLink.drop 8) (by decide)).2.2.2
        tierFirst_lt rfl (by decide) (by decide)).trans (by decide),
    by decide, by decide⟩

set_option maxRecDepth 100000 in
/-- C19, as stated, fails: the model `twoInOneTier` holds its two trackers in one tier, and
parsing the link that `magnet` builds from it gives the first tracker in tier 0 and the
second in tier 1; the model `siblingTiers` holds `http://a/announce` and `https://a/announce`
in two tiers, and parsing its link gives both in tier 0. -/
theorem magnet_round_trip_counterexample :
    twoInOneTier.tiers_.map (fun tier => tier.map (fun torrent => torrent.1))
        = [[urlA, urlB]] ∧
      urls_and_tiers (parseMagnet 32 sampleParse tracker_info.lt sampleExternals
        sampleMagnetExternals emptyMagnet
          (magnet samplePercentEncode twoInOneTier)).2.announce_list = [(urlA, 0), (urlB, 1)] ∧
      siblingTiers.tiers_.map (fun tier => tier.map (fun torrent => torrent.1))
        = [[urlA], [urlAs]] ∧
      urls_and_tiers (parseMagnet 32 sampleParse tracker_info.lt sampleExternals
        sampleMagnetExternals emptyMagnet
          (magnet samplePercentEncode siblingTiers)).2.announce_list
            = [(urlA, 0), (urlAs, 0)] := by
  decide

/-- C19, amended: for every model whose hash string is the hex form of its 20-byte info
hash, and for URL functions that split the built link into the pairs that were written and
decode what was escaped, the link that `magnet` builds is `magnet:?` followed by those pairs,
and parsing it into an empty object gives the flag true, the info hash and the name of the
model, and the announce list that `add` builds from the tracker URLs of the model in their
order, the URL number `k` with `k` as the tier asked for: a URL that is not a tracker URL, or
that names an endpoint already held, is dropped, and any other URL gives one tracker, in the
tier of the first record with its host and path, or in tier `k` when there is none. When
the URLs are tracker URLs no two of which have the same host and path, the tracker number
`k` comes back alone in tier `k`, and if moreover every tier of the model holds one tracker,
the tiers come back as they were. -/
theorem magnet_round_trip (tier_bits : Nat) (parse : Str → Option tr_url_parsed_t)
    (lt : tracker_info → tracker_info → Bool) (ext : externals) (mext : magnet_externals)
    (tm : tr_torrent_metainfo) (q : Str)
    (hhash : IsDigest tm.info_hash_ ∧ tm.info_hash_chars_ = hexForm tm.info_hash_)
    (hurl : mext.tr_urlParse (magnet mext.tr_http_escape tm) = some ("magnet".toList, q))
    (hview : mext.tr_url_query_view q = magnet_pairs mext.tr_http_escape tm)
    (hdec : ∀ s ∈ tm.name_ :: magnet_urls tm,
      mext.tr_urlPercentDecode (mext.tr_http_escape s) = s) :
    magnet mext.tr_http_escape tm
        = "magnet:?".toList ++ query_text (magnet_pairs mext.tr_http_escape tm) ∧
      MagnetRoundTrip tier_bits parse lt tm
        (parseMagnet tier_bits parse lt ext mext emptyMagnet (magnet mext.tr_http_escape tm)) :=
  ⟨magnet_eq_query_text mext.tr_http_escape tm,
    parseMagnet_round_trip tier_bits parse lt ext mext tm q hhash hurl hview hdec⟩

set_option maxRecDepth 100000 in
/-- C19 amended, at a concrete input: the model `twoTiers`, with the percent codec and the
query splitting of the sample URL functions; its two tiers come back as they were. -/
theorem magnet_round_trip_witness :
    (IsDigest twoTiers.info_hash_ ∧ twoTiers.info_hash_chars_ = hexForm twoTiers.info_hash_) ∧
      sampleMagnetExternals.tr_urlParse (magnet samplePercentEncode twoTiers)
        = some ("magnet".toList, (magnet samplePercentEncode twoTiers).drop 8) ∧
      sampleMagnetExternals.tr_url_query_view ((magnet samplePercentEncode twoTiers).drop 8)
        = magnet_pairs samplePercentEncode twoTiers ∧
      (∀ s ∈ twoTiers.name_ :: magnet_urls twoTiers,
        samplePercentDecode (samplePercentEncode s) = s) ∧
      MagnetRoundTrip 32 sampleParse tracker_info.lt twoTiers
        (parseMagnet 32 sampleParse tracker_info.lt sampleExternals sampleMagnetExternals
          emptyMagnet (magnet samplePercentEncode twoTiers)) ∧
      urls_and_tiers (parseMagnet 32 sampleParse tracker_info.lt sampleExternals
        sampleMagnetExternals emptyMagnet
          (magnet samplePercentEncode twoTiers)).2.announce_list = [(urlA, 0), (urlB, 1)] :=
  have h := magnet_round_trip 32 sampleParse tracker_info.lt sampleExternals
    sampleMagnetExternals twoTiers ((magnet samplePercentEncode twoTiers).drop 8)
    (by decide) (by decide) (by decide) (by decide)
  ⟨by decide, by decide, by decide, by decide, h.2,
    ((h.2.2.2.2.2.2 tierFirst_lt (by decide) (by decide)).1).trans (by decide)⟩

/-- C22: for every magnet model and every escaping function, `magnet()` returns exactly the
text of the specification: `magnet:?xt=urn:btih:` and the hash string, then `&dn=` and the
escaped name if and only if the name is not empty, then `&tr=` and the escaped announce URL
for each tracker in tier order and in the order within its tier, then `&ws=` and the escaped
URL for each webseed in list order; the hash string has 40 characters when it is the hex form
of the 20-byte info hash. -/
theorem magnet_text (tr_http_escape : Str → Str) (tm : tr_torrent_metainfo) :
    magnet tr_http_escape tm = magnetReference tr_http_escape tm.info_hash_chars_ tm.name_
        (tm.tiers_.map (fun tier => tier.map (fun torrent => torrent.1))) tm.webseed_urls_ ∧
      (IsDigest tm.info_hash_ → tm.info_hash_chars_ = hexForm tm.info_hash_ →
        tm.info_hash_chars_.length = 40) :=
  ⟨magnet_eq_reference tr_http_escape tm, fun hd hc => by rw [hc, hexForm_length, hd.1]⟩

set_option maxRecDepth 100000 in
/-- C22, at a concrete input: the model with the test digest, the name `Display Name` and
two trackers in one tier. -/
theorem magnet_text_witness :
    IsDigest twoInOneTier.info_hash_ ∧
      twoInOneTier.info_hash_chars_ = hexForm twoInOneTier.info_hash_ ∧
      twoInOneTier.info_hash_chars_.length = 40 ∧
      magnet samplePercentEncode twoInOneTier =
        ("magnet:?xt=urn:btih:d2354010a3ca4ade5b7427bb093a62a3899ff381&dn=Display%20Name" ++
          "&tr=http%3A%2F%2Fa%2Fannounce&tr=http%3A%2F%2Fb%2Fannounce").toList :=
  ⟨by decide, by decide,
    (magnet_text samplePercentEncode twoInOneTier).2 (by decide) (by decide), by decide⟩

/-! ## Theorems: the parsed files and webseeds -/

/-- C23, the code at the failing input: for the info dictionary with `length` -1, the name
`n` and a `files` list, file-list parsing succeeds with one file named `n`, and its size and
the total size are 2^64 - 1. -/
theorem single_file_negative_length :
    (tr_variantDictFindInt negativeSingleFile TR_KEY_length).map int64_t.val = some (-1) ∧
      (appendSanitizedComponent [] "n".toList).ret = true ∧
      (parseFiles sampleExternals { emptyMetainfo with name_ := "n".toList }
        negativeSingleFile 0).1 = [] ∧
      (parseFiles sampleExternals { emptyMetainfo with name_ := "n".toList }
        negativeSingleFile 0).2.1.files_ = [⟨"n".toList, 2 ^ 64 - 1⟩] ∧
      (parseFiles sampleExternals { emptyMetainfo with name_ := "n".toList }
        negativeSingleFile 0).2.2 = 2 ^ 64 - 1 := by
  decide

/-- C24, as stated, fails: the torrent `oneFileListTorrent` uses the `files` layout, with one
entry; it parses successfully and its webseed `http://w` is kept without a `/` at the
end. -/
theorem webseed_slash_counterexample :
    (∃ info_dict entries, tr_variantDictFindDict oneFileListTorrent TR_KEY_info = some info_dict ∧
        tr_variantDictFindInt info_dict TR_KEY_length = none ∧
        tr_variantDictFindList info_dict TR_KEY_files = some entries) ∧
      (parseImpl sampleExternals emptyMetainfo oneFileListTorrent []).1 = [] ∧
      (parseImpl sampleExternals emptyMetainfo oneFileListTorrent []).2.webseed_urls_
        = ["http://w".toList] :=
  ⟨⟨_, _, rfl, rfl, rfl⟩, by decide, by decide⟩

/-- C24, amended: for every successfully parsed torrent, the webseeds are the valid URLs of
`url-list` passed through `fixWebseedUrl`: when the torrent has more than one file, every
kept webseed is empty or ends with `/` (one is appended when missing); when it has one file,
the kept webseeds are the stripped URLs with nothing appended. A torrent with the `length`
key has one file, and a torrent in the `files` layout has as many files as `files` has
entries, so a `files` list with one entry gets no `/` appended. -/
theorem webseeds_of_parsed_torrent (ext : externals) (setme : tr_torrent_metainfo)
    (top : tr_variant) (benc : Str) (h : (parseImpl ext setme top benc).1 = []) :
    WebseedsFixed ext top (parseImpl ext setme top benc).2 :=
  parseImpl_webseedsFixed ext setme top benc h

/-- C24 amended, at concrete inputs: the torrent with two files gets `/` appended to
`http://w` and keeps `http://v/`. -/
theorem webseeds_of_parsed_torrent_witness :
    (parseImpl sampleExternals emptyMetainfo twoFileTorrent []).1 = [] ∧
      WebseedsFixed sampleExternals twoFileTorrent
        (parseImpl sampleExternals emptyMetainfo twoFileTorrent []).2 ∧
      (parseImpl sampleExternals emptyMetainfo twoFileTorrent []).2.webseed_urls_
        = ["http://w/".toList, "http://v/".toList] :=
  ⟨by decide,
    webseeds_of_parsed_torrent sampleExternals emptyMetainfo twoFileTorrent [] (by decide),
    by decide⟩

/-! ## Theorems: the parsed announce tiers -/

/-- C25: for every metainfo dictionary, when `tier_t::emplace` adds the tracker to what the
tier holds, the tiers that announce parsing yields correspond one to one and in order to the
tiers of the specification: the tiers of `announce-list` in input order, each reduced to its
stripped valid tracker URLs, without those left empty, and, only when that gives no tier, one
tier holding the stripped `announce` if it is a valid tracker URL; each tier holds exactly
the URLs of its counterpart, and no tier is empty. -/
theorem parseAnnounce_tiers (ext : externals) (setme : tr_torrent_metainfo) (top : tr_variant)
    (hemp : EmplaceAdds ext.tier_emplace) :
    List.Forall₂ HoldsUrls (parseAnnounce ext setme top).tiers_ (announceReference ext top) ∧
      ∀ t ∈ (parseAnnounce ext setme top).tiers_, t ≠ [] := by
  have h := parseAnnounce_holds ext hemp setme top
  refine ⟨h, ?_⟩
  generalize (parseAnnounce ext setme top).tiers_ = tiers at h
  generalize announceReference ext top = urls at h
  induction h with
  | nil => intro t ht; exact absurd ht (List.not_mem_nil _)
  | cons hx _ ih =>
    intro t ht
    rcases List.mem_cons.mp ht with rfl | ht
    · exact hx.1
    · exact ih t ht

/-- C25, at a concrete input: of three tiers in `announce-list`, the second keeps no URL and
is dropped, the first keeps its stripped URL, and the singular `announce` is not used. -/
theorem parseAnnounce_tiers_witness :
    EmplaceAdds strippingExternals.tier_emplace ∧
      announceReference strippingExternals threeTierTorrent
        = [["http://a/announce".toList], ["http://b/announce".toList]] ∧
      (parseAnnounce strippingExternals emptyMetainfo threeTierTorrent).tiers_.map
          (fun tier => tier.map (fun e => e.1))
        = [["http://a/announce".toList], ["http://b/announce".toList]] ∧
      List.Forall₂ HoldsUrls
        (parseAnnounce strippingExternals emptyMetainfo threeTierTorrent).tiers_
        (announceReference strippingExternals threeTierTorrent) :=
  ⟨fun t e x => by simp [strippingExternals, sampleExternals], by decide, by decide,
    (parseAnnounce_tiers strippingExternals emptyMetainfo threeTierTorrent
      (fun t e x => by simp [strippingExternals, sampleExternals])).1⟩

/-! ## Theorems: the pieces offset -/

set_option maxRecDepth 100000 in
/-- C27, the code at the failing input: the torrent whose name is `6:pieces` parses
successfully, and its encoded info dictionary occurs in the input at the recorded offset 7;
the encoded `pieces` string (`40:` and the forty characters of the digests) starts at offset
61, but the recorded pieces offset is 35, where the input goes on with `12:piece length`: the
search finds `6:pieces` first inside the name. -/
theorem pieces_offset_points_after_name :
    (parseImpl bencodingExternals emptyMetainfo piecesInNameTorrent piecesInNameBenc).1 = [] ∧
      (parseImpl bencodingExternals emptyMetainfo piecesInNameTorrent
        piecesInNameBenc).2.info_dict_offset_ = 7 ∧
      (piecesInNameBenc.drop 7).take (sampleBencode piecesInNameInfo).length
        = sampleBencode piecesInNameInfo ∧
      (piecesInNameBenc.drop 61).take 43 = "40:".toList ++ List.replicate 40 'x' ∧
      (parseImpl bencodingExternals emptyMetainfo piecesInNameTorrent
        piecesInNameBenc).2.pieces_offset_ = 35 ∧
      (piecesInNameBenc.drop 35).take 15 = "12:piece length".toList ∧
      (parseImpl bencodingExternals emptyMetainfo piecesInNameTorrent
        piecesInNameBenc).2.pieces_ = [List.replicate 20 'x', List.replicate 20 'x'] := by
  decide

/-! ## Lemmas: the two scrape derivations and replace -/

theorem convertAnnounceToScrape_flag (buildBuf : Str → List Str → Str) (out in_ : Str) :
    (convertAnnounceToScrape buildBuf out in_).1 = (announceToScrape in_).isSome := by
  unfold convertAnnounceToScrape announceToScrape
  simp only
  cases (match sv_rfind in_ (oldval.headD NUL) with
    | some pos => if sv_find in_ oldval pos = some pos then some pos else none
    | none => none : Option Nat) with
  | some pos => rfl
  | none =>
    simp only
    by_cases hu : tr_strvStartsWith in_ "udp:".toList = true
    · rw [if_pos hu, if_pos hu]
      rfl
    · rw [if_neg hu, if_neg hu]
      rfl

theorem convertAnnounceToScrape_string (buildBuf : Str → List Str → Str)
    (hb : BuildsJoin buildBuf) (out in_ s : Str) (h : announceToScrape in_ = some s) :
    (convertAnnounceToScrape buildBuf out in_).2 = s := by
  unfold convertAnnounceToScrape
  unfold announceToScrape at h
  simp only at h ⊢
  cases hh : (match sv_rfind in_ (oldval.headD NUL) with
    | some pos => if sv_find in_ oldval pos = some pos then some pos else none
    | none => none : Option Nat) with
  | some pos =>
    rw [hh] at h
    simp only at h ⊢
    rw [hb, ← Option.some.inj h]
    simp
  | none =>
    rw [hh] at h
    simp only at h ⊢
    by_cases hu : tr_strvStartsWith in_ "udp:".toList = true
    · rw [if_pos hu] at h ⊢
      exact Option.some.inj h
    · rw [if_neg hu] at h
      cases h

theorem convertAnnounceToScrape_none (buildBuf : Str → List Str → Str) (out in_ : Str)
    (h : announceToScrape in_ = none) : (convertAnnounceToScrape buildBuf out in_).2 = out := by
  unfold convertAnnounceToScrape
  unfold announceToScrape at h
  simp only at h ⊢
  cases hh : (match sv_rfind in_ (oldval.headD NUL) with
    | some pos => if sv_find in_ oldval pos = some pos then some pos else none
    | none => none : Option Nat) with
  | some pos =>
    rw [hh] at h
    cases h
  | none =>
    rw [hh] at h
    simp only at h ⊢
    by_cases hu : tr_strvStartsWith in_ "udp:".toList = true
    · rw [if_pos hu] at h
      cases h
    · rw [if_neg hu]

section
variable (parse : Str → Option tr_url_parsed_t) (lt : tracker_info → tracker_info → Bool)

theorem replace_true_iff_canReplace (L : tr_announce_list) (id : Nat) (newUrl : Str) :
    (replace parse lt L id newUrl).1 = true ↔ CanReplace parse L id newUrl := by
  unfold CanReplace
  constructor
  · intro h
    unfold replace at h
    cases hp : parse newUrl with
    | none =>
      rw [hp] at h
      exact absurd h Bool.false_ne_true
    | some a =>
      rw [hp] at h
      simp only at h
      by_cases hc : canAdd L a = true
      · simp only [hc, Bool.not_true, Bool.false_eq_true, if_false] at h
        by_cases hi : find_id L id < L.trackers_.length
        · refine ⟨a, rfl, (canAdd_iff L a).mp hc, ?_⟩
          obtain ⟨pre, post, x, hx, hpx, _⟩ :=
            findIdx_split (fun (tracker : tracker_info) => tracker.id == id) L.trackers_ hi
          exact ⟨x, by rw [hx]; simp, by simpa using hpx⟩
        · simp only [hi, dite_false] at h
          exact absurd h Bool.false_ne_true
      · simp only [hc, Bool.not_false, if_true] at h
        exact absurd h Bool.false_ne_true
  · rintro ⟨a, hp, hnew, r, hr, hid⟩
    have hc : canAdd L a = true := (canAdd_iff L a).mpr hnew
    have hi : find_id L id < L.trackers_.length :=
      List.findIdx_lt_length_of_exists ⟨r, hr, by simpa using hid⟩
    unfold replace
    simp only [hp, hc, Bool.not_true, Bool.false_eq_true, if_false, hi, dite_true]
    exact add_fst_true parse lt _ _ newUrl a hp (canAdd_eraseIdx L a _ hc)

theorem replace_same_endpoint (L : tr_announce_list) (id : Nat) (newUrl : Str)
    (a : tr_url_parsed_t) (r : tracker_info) (hp : parse newUrl = some a)
    (hr : r ∈ L.trackers_) (hsame : same_endpoint r.announce a) :
    replace parse lt L id newUrl = (false, L) := by
  have hc : ¬ canAdd L a = true := fun hc => (canAdd_iff L a).mp hc r hr hsame
  unfold replace
  simp [hp, hc]

theorem add_parsedFromOwnUrl (s : tr_announce_list) (t : Nat) (url : Str)
    (h : ParsedFromOwnUrl parse s) : ParsedFromOwnUrl parse (add parse lt s t url).2 := by
  cases hp : parse url with
  | none => simpa [add, hp] using h
  | some a =>
    by_cases hc : canAdd s a = true
    · rw [add_eq_insert parse lt s t url a hp hc]
      intro r hr
      rcases mem_vector_insert _ _ _ _ hr with rfl | hr
      · exact hp
      · exact h r hr
    · simpa [add, hp, hc] using h

theorem foldl_add_parsedFromOwnUrl (entries : List (Nat × Str)) (s : tr_announce_list)
    (h : ParsedFromOwnUrl parse s) :
    ParsedFromOwnUrl parse (entries.foldl (fun acc e => (add parse lt acc e.1 e.2).2) s) := by
  induction entries generalizing s with
  | nil => simpa using h
  | cons e es ih =>
    simp only [List.foldl_cons]
    exact ih _ (add_parsedFromOwnUrl parse lt s e.1 e.2 h)

theorem eraseIdx_parsedFromOwnUrl (s : tr_announce_list) (k : Nat)
    (h : ParsedFromOwnUrl parse s) :
    ParsedFromOwnUrl parse { s with trackers_ := s.trackers_.eraseIdx k } :=
  fun r hr => h r ((List.eraseIdx_sublist _ _).subset hr)

theorem reachable_parsedFromOwnUrl (s : tr_announce_list) (h : Reachable parse lt s) :
    ParsedFromOwnUrl parse s := by
  induction h with
  | empty n => intro r hr; exact absurd hr (List.not_mem_nil _)
  | other_id s _ ih => exact ih
  | add s t url _ ih => exact add_parsedFromOwnUrl parse lt s t url ih
  | set s entries _ ih =>
    exact foldl_add_parsedFromOwnUrl parse lt entries _
      (fun r hr => absurd hr (List.not_mem_nil _))
  | remove_url s url _ ih =>
    unfold remove_url
    by_cases hi : find_url s url = s.trackers_.length
    · simpa [hi] using ih
    · simpa [hi] using eraseIdx_parsedFromOwnUrl parse s _ ih
  | remove_id s id _ ih =>
    unfold remove_id
    by_cases hi : find_id s id = s.trackers_.length
    · simpa [hi] using ih
    · simpa [hi] using eraseIdx_parsedFromOwnUrl parse s _ ih
  | replace s id url _ ih =>
    unfold replace
    cases hp : parse url with
    | none => simpa using ih
    | some a =>
      by_cases hc : canAdd s a = true
      · simp only [hc, Bool.not_true, Bool.false_eq_true, if_false]
        by_cases hi : find_id s id < s.trackers_.length
        · simp only [hi, dite_true]
          exact add_parsedFromOwnUrl parse lt _ _ _ (eraseIdx_parsedFromOwnUrl parse s _ ih)
        · simpa [hi] using ih
      · simpa [hc] using ih

end

/-! ## Theorems: the two scrape derivations and replace -/

/-- C31: on every input string and every buffer, `convertAnnounceToScrape` returns true
exactly when `announceToScrape` returns a value; when `tr_buildBuf` leaves the joined pieces
in the buffer whatever it held, the string written to the buffer is the returned string; and
when there is no scrape URL the buffer is left as it was. -/
theorem scrape_derivations_agree (buildBuf : Str → List Str → Str) (out in_ : Str) :
    (convertAnnounceToScrape buildBuf out in_).1 = (announceToScrape in_).isSome ∧
      (BuildsJoin buildBuf → ∀ s, announceToScrape in_ = some s →
        (convertAnnounceToScrape buildBuf out in_).2 = s) ∧
      (announceToScrape in_ = none → (convertAnnounceToScrape buildBuf out in_).2 = out) :=
  ⟨convertAnnounceToScrape_flag buildBuf out in_,
    fun hb s h => convertAnnounceToScrape_string buildBuf hb out in_ s h,
    convertAnnounceToScrape_none buildBuf out in_⟩

/-- C31, at concrete inputs: with the buffer holding `junk`, `http://t/announce` gives
`http://t/scrape` by both derivations and `http://t/foo` leaves the buffer; with a
`tr_buildBuf` that appended to the buffer instead, the buffer would hold
`junkhttp://t/scrape`. -/
theorem scrape_derivations_agree_witness :
    BuildsJoin sampleExternals.tr_buildBuf ∧
      announceToScrape "http://t/announce".toList = some "http://t/scrape".toList ∧
      convertAnnounceToScrape sampleExternals.tr_buildBuf "junk".toList
        "http://t/announce".toList = (true, "http://t/scrape".toList) ∧
      announceToScrape "http://t/foo".toList = none ∧
      (convertAnnounceToScrape sampleExternals.tr_buildBuf "junk".toList
        "http://t/foo".toList).2 = "junk".toList ∧
      (convertAnnounceToScrape (fun out parts => out ++ parts.flatten) "junk".toList
        "http://t/announce".toList).2 = "junkhttp://t/scrape".toList :=
  ⟨fun _ _ => rfl, by decide,
    Prod.ext
      ((scrape_derivations_agree sampleExternals.tr_buildBuf "junk".toList
        "http://t/announce".toList).1.trans (by decide))
      ((scrape_derivations_agree sampleExternals.tr_buildBuf "junk".toList
        "http://t/announce".toList).2.1 (fun _ _ => rfl) _ (by decide)),
    by decide,
    (scrape_derivations_agree sampleExternals.tr_buildBuf "junk".toList
      "http://t/foo".toList).2.2 (by decide),
    by decide⟩

/-- C32: for every announce list, `replace(id, newUrl)` returns true exactly when `newUrl`
is a valid tracker URL, no record of the list (the one with that id included) matches it on
scheme, host, port and path, and a record with that id exists; whenever it returns false the
list is unchanged; so it returns false, with the list unchanged, when a record names the
same endpoint as `newUrl`, and, in a reachable list, when `newUrl` is the announce string of
a record. -/
theorem replace_returns_true_iff (parse : Str → Option tr_url_parsed_t)
    (lt : tracker_info → tracker_info → Bool) (L : tr_announce_list) (id : Nat)
    (newUrl : Str) :
    ((replace parse lt L id newUrl).1 = true ↔ CanReplace parse L id newUrl) ∧
      ((replace parse lt L id newUrl).1 = false → (replace parse lt L id newUrl).2 = L) ∧
      (∀ a r, parse newUrl = some a → r ∈ L.trackers_ → same_endpoint r.announce a →
        replace parse lt L id newUrl = (false, L)) ∧
      (Reachable parse lt L → ∀ r ∈ L.trackers_,
        replace parse lt L id r.announce_str = (false, L)) := by
  refine ⟨replace_true_iff_canReplace parse lt L id newUrl,
    replace_fst_false_snd parse lt L id newUrl,
    fun a r hp hr hsame => replace_same_endpoint parse lt L id newUrl a r hp hr hsame, ?_⟩
  intro hL r hr
  exact replace_same_endpoint parse lt L id r.announce_str r.announce r
    (reachable_parsedFromOwnUrl parse lt L hL r hr) hr ⟨rfl, rfl, rfl, rfl⟩

/-- C32, at concrete inputs: in the list holding `http://a/announce` (id 0) and
`http://b/announce`, replacing the record 0 by its own URL, or by the same endpoint written
`http://a:80/announce`, returns false and leaves the list as it is, and replacing it by
`https://a/announce` returns true. -/
theorem replace_returns_true_iff_witness :
    Reachable sampleParse tracker_info.lt listAB ∧ recA ∈ listAB.trackers_ ∧
      replace sampleParse tracker_info.lt listAB 0 urlA = (false, listAB) ∧
      replace sampleParse tracker_info.lt listAB 0 urlA80 = (false, listAB) ∧
      CanReplace sampleParse listAB 0 urlAs ∧
      (replace sampleParse tracker_info.lt listAB 0 urlAs).1 = true :=
  ⟨Reachable.add _ _ _ (Reachable.add _ _ _ (Reachable.empty 0)), by decide,
    (replace_returns_true_iff sampleParse tracker_info.lt listAB 0 urlA).2.2.2
      (Reachable.add _ _ _ (Reachable.add _ _ _ (Reachable.empty 0))) recA (by decide),
    (replace_returns_true_iff sampleParse tracker_info.lt listAB 0 urlA80).2.2.1
      ⟨"http".toList, "a".toList, "/announce".toList, "80".toList, 80, urlA80⟩ recA
      (by decide) (by decide) (by decide),
    (replace_returns_true_iff sampleParse tracker_info.lt listAB 0 urlAs).1.mp (by decide),
    by decide⟩

end Transmission
